import Mathlib

/-!
Verification of the SeqQuests repository (src/c_src/tree_builder.cpp and
src/c_src/sw_align_core.cpp) against its natural-language specification.

The first part of this file is a shallow embedding of the two C++ sources:

* `MaxSpanningTree` and its operations (`set_link`, `find_meeting_point`,
  `find_weakest_link_in_cycle`, `reverse_path`, `add_link`,
  `get_twilight_candidates`) embed the class of the same name from
  tree_builder.cpp.  C++ `std::vector<int>` members are embedded as total
  functions `Nat → Int` (respectively `Nat → Nat` for `parents`, whose stored
  values are node ids); node ids are `Nat` (the verified claims only concern
  in-range ids `0 ≤ v < num_nodes`).  The `while (true)` walk of
  `find_meeting_point` is embedded as a fuel-based loop (`meetLoop`); the fuel
  `2 * num_nodes + 2` is shown to be sufficient under the tree invariant, and
  fuel exhaustion is a distinguished outcome `MeetResult.fuelout` that is
  proved unreachable for reachable states.

* `align_local_core` embeds the Smith-Waterman kernel of sw_align_core.cpp.
  The C `float` arithmetic is embedded as exact rational arithmetic `ℚ`:
  the fill and the traceback use the very same operations, which is exactly
  the property the specification relies on ("the chosen type must be
  identical between fill and traceback"), and every claim settled about the
  kernel only uses that the two sides recompute identical expressions.

The second part proves the claims.
-/

set_option maxHeartbeats 1600000

/-- State of the `MaxSpanningTree` class of tree_builder.cpp.  Each
`std::vector<int>` member becomes a total function from node ids. -/
structure MaxSpanningTree where
  num_nodes : Nat
  max_seen_id : Nat
  parents : Nat → Nat
  scores : Nat → Int
  raw_scores : Nat → Int
  locations : Nat → Int
  lengths : Nat → Int
  links_processed : Int
  links_added : Int
  links_rejected : Int
  visited_a_indices : Nat → Int
  visited_b_indices : Nat → Int
  visited_a_search_ids : Nat → Int
  visited_b_search_ids : Nat → Int
  search_id : Int

/-- The constructor `MaxSpanningTree(int n)`: parents default to 0, the
edge attributes to -1, the visited indices to -1, the visited search ids
and all counters to 0. -/
def MaxSpanningTree.init (n : Nat) : MaxSpanningTree where
  num_nodes := n
  max_seen_id := 0
  parents := fun _ => 0
  scores := fun _ => -1
  raw_scores := fun _ => -1
  locations := fun _ => -1
  lengths := fun _ => -1
  links_processed := 0
  links_added := 0
  links_rejected := 0
  visited_a_indices := fun _ => -1
  visited_b_indices := fun _ => -1
  visited_a_search_ids := fun _ => 0
  visited_b_search_ids := fun _ => 0
  search_id := 0

/-- `MaxSpanningTree::set_link`: store the edge attributes of `node_id` and
update `max_seen_id` with both endpoints. -/
def set_link (s : MaxSpanningTree) (node_id parent : Nat)
    (score raw_score location len : Int) : MaxSpanningTree :=
  { s with
    parents := Function.update s.parents node_id parent,
    scores := Function.update s.scores node_id score,
    raw_scores := Function.update s.raw_scores node_id raw_score,
    locations := Function.update s.locations node_id location,
    lengths := Function.update s.lengths node_id len,
    max_seen_id := max (max s.max_seen_id node_id) parent }

/-- One `for` loop of `MaxSpanningTree::find_weakest_link_in_cycle`: scan a
path, replacing the accumulator `(min_score, which_path, position)` whenever
a strictly smaller link score is found.  `i` is the running index. -/
def scanWeakest (scores : Nat → Int) (tag : Char) :
    List Nat → Nat → Int × Char × Int → Int × Char × Int
  | [], _, acc => acc
  | node_id :: rest, i, (min_score, which_path, position) =>
    scanWeakest scores tag rest (i + 1)
      (if scores node_id < min_score then (scores node_id, tag, (i : Int))
       else (min_score, which_path, position))

/-- `MaxSpanningTree::find_weakest_link_in_cycle`: the accumulator starts at
`(new_score, n, -1)`, path_a is scanned first, then path_b. -/
def find_weakest_link_in_cycle (s : MaxSpanningTree)
    (path_a path_b : List Nat) (new_score : Int) : Int × Char × Int :=
  scanWeakest s.scores 'b' path_b 0 (scanWeakest s.scores 'a' path_a 0 (new_score, 'n', -1))

/-- The `for (int i = up_to_index; i > 0; i--)` loop of
`MaxSpanningTree::reverse_path`: `revLoop path i s` performs the iterations
for indices `i, i-1, ..., 1`. -/
def revLoop (path : List Nat) : Nat → MaxSpanningTree → MaxSpanningTree
  | 0, s => s
  | i + 1, s =>
    revLoop path i
      (set_link s (path.getD (i + 1) 0) (path.getD i 0)
        (s.scores (path.getD i 0)) (s.raw_scores (path.getD i 0))
        (s.locations (path.getD i 0)) (s.lengths (path.getD i 0)))

/-- `MaxSpanningTree::reverse_path`: reverse the sub-path `path[0..=up_to]`,
then detach `path[0]` as a self-root with all attributes -1. -/
def reverse_path (s : MaxSpanningTree) (path : List Nat) (up_to_index : Nat) :
    MaxSpanningTree :=
  set_link (revLoop path up_to_index s) (path.getD 0 0) (path.getD 0 0) (-1) (-1) (-1) (-1)

/-- Local state of the `while (true)` loop of
`MaxSpanningTree::find_meeting_point`: the two cursors, the two active
flags (C++ `a_active`, `b_active`), the two recorded paths and the four
visited arrays (copied from / written back to the tree state). -/
structure MeetSt where
  current_a : Nat
  current_b : Nat
  a_active : Bool
  b_active : Bool
  path_a : List Nat
  path_b : List Nat
  visited_a_indices : Nat → Int
  visited_b_indices : Nat → Int
  visited_a_search_ids : Nat → Int
  visited_b_search_ids : Nat → Int

/-- Outcome of the walk: a meeting node together with the (trimmed) paths,
the `return false` branch ("Paths didn't meet"), or fuel exhaustion (the
C++ loop would keep running; proved unreachable from reachable states). -/
inductive MeetResult where
  | found (meeting_node : Nat) (path_a path_b : List Nat)
  | nomeet
  | fuelout
deriving Repr, DecidableEq

/-- `path_b.resize(meeting_index)` guarded by
`meeting_index < path_b.size()`.  In the C++ source `meeting_index` is an
`int` converted to `size_t` for the comparison, so a negative index makes
the guard false; recorded indices are in fact always non-negative. -/
def trimPath (path : List Nat) (meeting_index : Int) : List Nat :=
  if 0 ≤ meeting_index ∧ meeting_index.toNat < path.length then
    path.take meeting_index.toNat
  else path

/-- One iteration of the `while (true)` loop of `find_meeting_point`:
the `a` side is processed, then the `b` side, then the joint-exhaustion
check.  `Sum.inl` is a `return` out of the loop, `Sum.inr` continues. -/
def meetIter (P : Nat → Nat) (sid : Int) (st : MeetSt) :
    (MeetSt × MeetResult) ⊕ MeetSt :=
  let afterA : (MeetSt × MeetResult) ⊕ MeetSt :=
    if st.a_active then
      if st.visited_b_search_ids st.current_a = sid then
        Sum.inl (st, MeetResult.found st.current_a st.path_a
          (trimPath st.path_b (st.visited_b_indices st.current_a)))
      else
        let st1 := { st with
          visited_a_search_ids := Function.update st.visited_a_search_ids st.current_a sid,
          visited_a_indices := Function.update st.visited_a_indices st.current_a
            (st.path_a.length : Int) }
        if st1.current_a = 0 then Sum.inr { st1 with a_active := false }
        else Sum.inr { st1 with
          path_a := st1.path_a ++ [st1.current_a],
          current_a := P st1.current_a }
    else Sum.inr st
  match afterA with
  | Sum.inl r => Sum.inl r
  | Sum.inr st2 =>
    let afterB : (MeetSt × MeetResult) ⊕ MeetSt :=
      if st2.b_active then
        if st2.visited_a_search_ids st2.current_b = sid then
          Sum.inl (st2, MeetResult.found st2.current_b
            (trimPath st2.path_a (st2.visited_a_indices st2.current_b)) st2.path_b)
        else
          let st3 := { st2 with
            visited_b_search_ids := Function.update st2.visited_b_search_ids st2.current_b sid,
            visited_b_indices := Function.update st2.visited_b_indices st2.current_b
              (st2.path_b.length : Int) }
          if st3.current_b = 0 then Sum.inr { st3 with b_active := false }
          else Sum.inr { st3 with
            path_b := st3.path_b ++ [st3.current_b],
            current_b := P st3.current_b }
      else Sum.inr st2
    match afterB with
    | Sum.inl r => Sum.inl r
    | Sum.inr st4 =>
      if st4.a_active = false ∧ st4.b_active = false then Sum.inl (st4, MeetResult.nomeet)
      else Sum.inr st4

/-- The `while (true)` loop of `find_meeting_point`, with fuel. -/
def meetLoop (P : Nat → Nat) (sid : Int) : Nat → MeetSt → MeetSt × MeetResult
  | 0, st => (st, MeetResult.fuelout)
  | fuel + 1, st =>
    match meetIter P sid st with
    | Sum.inl r => r
    | Sum.inr st1 => meetLoop P sid fuel st1

/-- `MaxSpanningTree::find_meeting_point`: increment `search_id`, run the
walk from `node_a` and `node_b`, and write the visited arrays back into the
tree state.  The fuel is sufficient for every reachable state. -/
def find_meeting_point (s : MaxSpanningTree) (node_a node_b : Nat) :
    MaxSpanningTree × MeetResult :=
  let sid := s.search_id + 1
  let st0 : MeetSt :=
    { current_a := node_a, current_b := node_b,
      a_active := true, b_active := true, path_a := [], path_b := [],
      visited_a_indices := s.visited_a_indices,
      visited_b_indices := s.visited_b_indices,
      visited_a_search_ids := s.visited_a_search_ids,
      visited_b_search_ids := s.visited_b_search_ids }
  let r := meetLoop s.parents sid (2 * s.num_nodes + 2) st0
  ({ s with search_id := sid,
            visited_a_indices := r.1.visited_a_indices,
            visited_b_indices := r.1.visited_b_indices,
            visited_a_search_ids := r.1.visited_a_search_ids,
            visited_b_search_ids := r.1.visited_b_search_ids }, r.2)

/-- `MaxSpanningTree::add_link`.  Returns the new state and the C++ return
value.  `links_processed` and `max_seen_id` are updated first; self-loops
return false; then the walk, the weakest-link scan, and either rejection or
path reversal plus attachment of the new edge. -/
def add_link (s : MaxSpanningTree) (node_a node_b : Nat)
    (score raw_score location len : Int) : MaxSpanningTree × Bool :=
  let s0 := { s with links_processed := s.links_processed + 1,
                     max_seen_id := max (max s.max_seen_id node_a) node_b }
  if node_a = node_b then (s0, false)
  else
    match find_meeting_point s0 node_a node_b with
    | (s1, MeetResult.found _meeting_node path_a path_b) =>
      match find_weakest_link_in_cycle s1 path_a path_b score with
      | (_min_score, which_path, position) =>
        if which_path = 'n' then
          ({ s1 with links_rejected := s1.links_rejected + 1 }, false)
        else if which_path = 'a' then
          let s2 := reverse_path s1 path_a position.toNat
          let s3 := set_link s2 node_a node_b score raw_score location len
          ({ s3 with links_added := s3.links_added + 1 }, true)
        else
          let s2 := reverse_path s1 path_b position.toNat
          let s3 := set_link s2 node_b node_a score raw_score location len
          ({ s3 with links_added := s3.links_added + 1 }, true)
    | (s1, _) => (s1, false)

/-- The pre-sort scan of `MaxSpanningTree::get_twilight_nodes`: the ids
`i < min(max_seen_id + 1, num_nodes)` with `scores[i] >= 0 && scores[i] < 300`,
in ascending order. -/
def get_twilight_candidates (s : MaxSpanningTree) : List Nat :=
  (List.range (min (s.max_seen_id + 1) s.num_nodes)).filter
    (fun i => decide (0 ≤ s.scores i ∧ s.scores i < 300))

/-- Contract of `std::sort(v.begin(), v.end(), comp)` with the comparator
`scores[a] > scores[b]` of `get_twilight_nodes`: the output is a permutation
of the input that is sorted with respect to the comparator (scores weakly
descending).  The C++ standard leaves the relative order of elements with
equal scores unspecified; `std::sort` is not a stable sort. -/
def stdSortDescBy (key : Nat → Int) (input output : List Nat) : Prop :=
  output.Perm input ∧ output.Pairwise (fun x y => key y ≤ key x)

/-- The possible return values of `MaxSpanningTree::get_twilight_nodes`:
any valid `std::sort` output on the candidate scan. -/
def get_twilight_nodes_spec (s : MaxSpanningTree) (output : List Nat) : Prop :=
  stdSortDescBy s.scores (get_twilight_candidates s) output

/-- The claimed ordering of claim C6 for the twilight list: scores strictly
descending, with ties broken by ascending node id (a stable descending
sort of the ascending scan). -/
def twilightStableOrder (key : Nat → Int) (output : List Nat) : Prop :=
  output.Pairwise (fun x y => key y < key x ∨ (key x = key y ∧ x < y))

/-- The per-record guard of `main` in tree_builder.cpp (line 454):
`if (query >= num_nodes || target >= num_nodes) continue;`.  The result is
true iff the driver goes on to call `add_link` for the record. -/
def driver_accepts_record (query target num_nodes : Int) : Bool :=
  !(decide (num_nodes ≤ query) || decide (num_nodes ≤ target))

/-- One CSV edge record as passed to `add_link` by the driver. -/
structure Link where
  node_a : Nat
  node_b : Nat
  score : Int
  raw_score : Int
  location : Int
  len : Int

/-- A link whose endpoints are in range for a builder of capacity `n`. -/
def ValidLink (n : Nat) (l : Link) : Prop := l.node_a < n ∧ l.node_b < n

/-- Feed a list of links to a freshly constructed builder of capacity `n`. -/
def runLinks (n : Nat) (links : List Link) : MaxSpanningTree :=
  links.foldl
    (fun s l => (add_link s l.node_a l.node_b l.score l.raw_score l.location l.len).1)
    (MaxSpanningTree.init n)

/-- The chain of parent pointers from `v`, up to but not including the
sentinel node 0, computed with fuel (fuel `num_nodes` is enough under the
tree invariant). -/
def chainF (P : Nat → Nat) : Nat → Nat → List Nat
  | 0, _ => []
  | fuel + 1, v => if v = 0 then [] else v :: chainF P fuel (P v)

/-- The root-ward chain of node `v` in tree state `s` (excluding node 0). -/
def chainList (s : MaxSpanningTree) (v : Nat) : List Nat :=
  chainF s.parents s.num_nodes v

/-- The meeting node of the chains of `a` and `b`: the first node on the
chain of `a` (terminated by 0) that also lies on the chain of `b`
(terminated by 0).  Under the tree invariant this is the node at which the
bidirectional walk of `find_meeting_point` meets. -/
def meetNode (s : MaxSpanningTree) (a b : Nat) : Nat :=
  ((chainList s a ++ [0]).find? (fun x => decide (x ∈ chainList s b ++ [0]))).getD 0

/-- The tree path between `a` and `b`: the two root-ward chains truncated
strictly below the meeting node.  Each listed node `v` stands for the edge
`v → parents v` with score `scores v`. -/
def treePath (s : MaxSpanningTree) (a b : Nat) : List Nat :=
  (chainList s a).takeWhile (fun x => decide (x ≠ meetNode s a b)) ++
  (chainList s b).takeWhile (fun x => decide (x ≠ meetNode s a b))

/-- One undirected step along a tree edge of score at least `c` (the edge
from a nonzero node to its parent, usable in both directions). -/
def edgeStep (s : MaxSpanningTree) (c : Int) (u v : Nat) : Prop :=
  u < s.num_nodes ∧ v < s.num_nodes ∧
    ((u ≠ 0 ∧ s.parents u = v ∧ c ≤ s.scores u) ∨
     (v ≠ 0 ∧ s.parents v = u ∧ c ≤ s.scores v))

/-- Connectivity through tree edges of score at least `c`. -/
def Conn (s : MaxSpanningTree) (c : Int) : Nat → Nat → Prop :=
  Relation.ReflTransGen (edgeStep s c)

/-- The tree invariant of reachable `MaxSpanningTree` states: node 0 is a
fixed sentinel root with score -1, parent pointers stay in range, every
chain of parent pointers reaches 0, stored scores are at least -1 (-1 is
the detached sentinel), every attached node has been recorded in
`max_seen_id`, and all visited stamps are at most `search_id`. -/
structure TreeInv (s : MaxSpanningTree) : Prop where
  parent_zero : s.parents 0 = 0
  score_zero : s.scores 0 = -1
  parent_lt : ∀ v, v < s.num_nodes → s.parents v < s.num_nodes
  reach : ∀ v, v < s.num_nodes → ∃ k, s.parents^[k] v = 0
  score_lb : ∀ v, -1 ≤ s.scores v
  attached_seen : ∀ v, v < s.num_nodes → 0 ≤ s.scores v → v ≤ s.max_seen_id
  score_pos_of_parent : ∀ u, u ≠ 0 → s.parents u ≠ 0 → 0 ≤ s.scores u
  parent_seen : ∀ u, s.parents u ≠ 0 →
    u ≤ s.max_seen_id ∧ s.parents u ≤ s.max_seen_id
  sid_a : ∀ v, s.visited_a_search_ids v ≤ s.search_id
  sid_b : ∀ v, s.visited_b_search_ids v ≤ s.search_id

/-- The maximality invariant: every link ever offered with distinct
in-range endpoints is dominated by every edge on the current tree path
between its endpoints. -/
def MaxInv (links : List Link) (s : MaxSpanningTree) : Prop :=
  ∀ l ∈ links, ValidLink s.num_nodes l → l.node_a ≠ l.node_b →
    ∀ v ∈ treePath s l.node_a l.node_b, l.score ≤ s.scores v

/-- Character folding of sw_align_core.cpp: `c & 31` on a byte value. -/
def subIdx (c : Nat) : Nat := c % 32

/-- Substitution-matrix lookup `matrix[(char_a & 31) * 32 + (char_b & 31)]`
on the flattened 32x32 matrix. -/
def matEntry (matrix : Nat → ℚ) (char_a char_b : Nat) : ℚ :=
  matrix (subIdx char_a * 32 + subIdx char_b)

/-- Fuel-based recursion computing the Smith-Waterman scoring matrix `H` of
`align_local_core`.  `HF (i + j) i j` is the value stored in `H[i][j]`:
0 on row 0 and column 0, and otherwise the maximum (computed by the same
three sequential comparisons as the source) of 0, the diagonal plus the
substitution score, and the two gap moves.  The fuel only drives the
recursion; it is irrelevant as soon as it is at least `i + j`. -/
def HF (seq_a seq_b : Nat → Nat) (matrix : Nat → ℚ) (gap_extend : ℚ) :
    Nat → Nat → Nat → ℚ
  | _, 0, _ => 0
  | _, _ + 1, 0 => 0
  | 0, _ + 1, _ + 1 => 0
  | fuel + 1, i + 1, j + 1 =>
    let score_match := matEntry matrix (seq_a i) (seq_b j)
    let match_v := HF seq_a seq_b matrix gap_extend fuel i j + score_match
    let delete_v := HF seq_a seq_b matrix gap_extend fuel i (j + 1) + gap_extend
    let insert_v := HF seq_a seq_b matrix gap_extend fuel (i + 1) j + gap_extend
    let sc1 : ℚ := if match_v > 0 then match_v else 0
    let sc2 : ℚ := if delete_v > sc1 then delete_v else sc1
    if insert_v > sc2 then insert_v else sc2

/-- The scoring matrix `H` of `align_local_core`: `Hmat ... i j = H[i][j]`. -/
def Hmat (seq_a seq_b : Nat → Nat) (matrix : Nat → ℚ) (gap_extend : ℚ)
    (i j : Nat) : ℚ :=
  HF seq_a seq_b matrix gap_extend (i + j) i j

/-- The row-major order in which the fill loop of `align_local_core` visits
the inner cells: `(i, j)` for `i` in `1..m`, `j` in `1..n`. -/
def cellList (m n : Nat) : List (Nat × Nat) :=
  (List.range m).flatMap (fun i => (List.range n).map (fun j => (i + 1, j + 1)))

/-- The running best-cell tracking of the fill loop: starting from
`(0, 0, 0)`, replace the accumulator whenever a cell's score is strictly
greater than the current best (`if (score > max_score_val)`). -/
def bestCell (seq_a seq_b : Nat → Nat) (matrix : Nat → ℚ) (gap_extend : ℚ)
    (m n : Nat) : ℚ × Nat × Nat :=
  (cellList m n).foldl
    (fun acc c =>
      if Hmat seq_a seq_b matrix gap_extend c.1 c.2 > acc.1 then
        (Hmat seq_a seq_b matrix gap_extend c.1 c.2, c.1, c.2)
      else acc)
    (0, 0, 0)

/-- Fuel-based recursion for the traceback loop of `align_local_core`.
Each emitted column is a pair of indices into the two sequences, `-1`
marking a gap.  The loop runs while `i > 0 && j > 0 && H[i][j] > 0`; the
branch precedence is diagonal, then up, then left (the left branch is the
unchecked `else`).  The fuel `i + j` is always sufficient because every
step decreases `i + j`. -/
def tbF (seq_a seq_b : Nat → Nat) (matrix : Nat → ℚ) (gap_extend : ℚ) :
    Nat → Nat → Nat → List (Int × Int)
  | _, 0, _ => []
  | _, _ + 1, 0 => []
  | 0, _ + 1, _ + 1 => []
  | fuel + 1, i + 1, j + 1 =>
    if Hmat seq_a seq_b matrix gap_extend (i + 1) (j + 1) > 0 then
      let current_score := Hmat seq_a seq_b matrix gap_extend (i + 1) (j + 1)
      let diagonal := Hmat seq_a seq_b matrix gap_extend i j
      let up := Hmat seq_a seq_b matrix gap_extend i (j + 1)
      let score_match := matEntry matrix (seq_a i) (seq_b j)
      if current_score = diagonal + score_match then
        ((i : Int), (j : Int)) :: tbF seq_a seq_b matrix gap_extend fuel i j
      else if current_score = up + gap_extend then
        ((i : Int), (-1 : Int)) :: tbF seq_a seq_b matrix gap_extend fuel i (j + 1)
      else
        ((-1 : Int), (j : Int)) :: tbF seq_a seq_b matrix gap_extend fuel (i + 1) j
    else []

/-- The traceback of `align_local_core` starting at cell `(i, j)`. -/
def traceback (seq_a seq_b : Nat → Nat) (matrix : Nat → ℚ) (gap_extend : ℚ)
    (i j : Nat) : List (Int × Int) :=
  tbF seq_a seq_b matrix gap_extend (i + j) i j

/-- Result of `align_local_core` on the success path (allocation of `H`
succeeded): the reported score and the emitted columns
`(out_indices_a[k], out_indices_b[k])` for `k < out_len`, in emission
order (tail-first). -/
structure AlignResult where
  score : ℚ
  cols : List (Int × Int)

/-- `align_local_core` (success path): fill the matrix tracking the best
cell, report the maximum, and emit the traceback unless the maximum is
not positive. -/
def align_local_core (seq_a : Nat → Nat) (len_a : Nat) (seq_b : Nat → Nat)
    (len_b : Nat) (matrix : Nat → ℚ) (gap_extend : ℚ) : AlignResult :=
  let best := bestCell seq_a seq_b matrix gap_extend len_a len_b
  if best.1 ≤ 0 then { score := best.1, cols := [] }
  else { score := best.1,
         cols := traceback seq_a seq_b matrix gap_extend best.2.1 best.2.2 }

/-- The score contribution of one emitted traceback column: the
substitution-matrix entry for a match/mismatch column, the gap penalty for
a gap column. -/
def colDelta (seq_a seq_b : Nat → Nat) (matrix : Nat → ℚ) (gap_extend : ℚ)
    (col : Int × Int) : ℚ :=
  if col.1 = -1 ∨ col.2 = -1 then gap_extend
  else matEntry matrix (seq_a col.1.toNat) (seq_b col.2.toNat)

/-- Sum of the per-column score contributions of a traceback path. -/
def sumDeltas (seq_a seq_b : Nat → Nat) (matrix : Nat → ℚ) (gap_extend : ℚ)
    (cols : List (Int × Int)) : ℚ :=
  (cols.map (colDelta seq_a seq_b matrix gap_extend)).sum


/-- The first `n` nodes of the parent chain of `v`: `v, P v, P (P v), ...`. -/
def listChain (P : Nat → Nat) (v n : Nat) : List Nat :=
  (List.range n).map (fun k => P^[k] v)

/-- Scenario data for one `find_meeting_point` walk from `a` and `b` in a
parent forest `P` on `[0, N)`: `ka`, `kb` are the hitting times of the
sentinel 0 from `a` and `b`, `i0` is the first index at which the chain of
`a` meets the chain of `b`, and `j0` is the index of that meeting node on
the chain of `b`. -/
structure MeetScenario (P : Nat → Nat) (N a b ka kb i0 j0 : Nat) : Prop where
  hP0 : P 0 = 0
  hPlt : ∀ v, v < N → P v < N
  ha : a < N
  hb : b < N
  hka : P^[ka] a = 0
  hka_min : ∀ i, i < ka → P^[i] a ≠ 0
  hkb : P^[kb] b = 0
  hkb_min : ∀ j, j < kb → P^[j] b ≠ 0
  hi0_le : i0 ≤ ka
  hi0_min : ∀ i, i < i0 → ∀ j, j ≤ kb → P^[j] b ≠ P^[i] a
  hj0 : P^[j0] b = P^[i0] a
  hj0_min : ∀ j, j < j0 → P^[j] b ≠ P^[i0] a
  hj0_le : j0 ≤ kb

/-- The iteration count at which the walk of `find_meeting_point` detects
the meeting node: the side that arrives later detects. -/
def meetT (i0 j0 : Nat) : Nat := if i0 ≤ j0 then j0 + 1 else i0 + 1

/-- Invariant of the walk loop after `t` full iterations with no meeting
detected yet: both cursors sit at the `t`-th chain node of their side, a
side is active while it has not yet processed the sentinel, the recorded
paths are the chain prefixes, the fresh stamps are exactly the processed
chain nodes (with their positions recorded), and all other slots of the
visited arrays still hold their pre-call values `va0` / `vb0`. -/
structure WalkInv (P : Nat → Nat) (sid : Int) (a b ka kb : Nat)
    (va0 vb0 : Nat → Int) (t : Nat) (st : MeetSt) : Prop where
  cur_a : st.current_a = P^[t] a
  cur_b : st.current_b = P^[t] b
  act_a : st.a_active = decide (t ≤ ka)
  act_b : st.b_active = decide (t ≤ kb)
  patha : st.path_a = listChain P a (min t ka)
  pathb : st.path_b = listChain P b (min t kb)
  stamp_a : ∀ v, st.visited_a_search_ids v = sid ↔ ∃ s, s < min t (ka + 1) ∧ P^[s] a = v
  stamp_b : ∀ v, st.visited_b_search_ids v = sid ↔ ∃ s, s < min t (kb + 1) ∧ P^[s] b = v
  idx_a : ∀ s, s < min t (ka + 1) → st.visited_a_indices (P^[s] a) = (s : Int)
  idx_b : ∀ s, s < min t (kb + 1) → st.visited_b_indices (P^[s] b) = (s : Int)
  old_sa : ∀ v, (∀ s, s < min t (ka + 1) → P^[s] a ≠ v) → st.visited_a_search_ids v = va0 v
  old_sb : ∀ v, (∀ s, s < min t (kb + 1) → P^[s] b ≠ v) → st.visited_b_search_ids v = vb0 v

/-- The state transform of the `a`-side block of one walk iteration when no
meeting is detected: stamp the current node, then either deactivate (at the
sentinel) or record it on the path and step to its parent. -/
def aStep (P : Nat → Nat) (sid : Int) (st : MeetSt) : MeetSt :=
  let st1 := { st with
    visited_a_search_ids := Function.update st.visited_a_search_ids st.current_a sid,
    visited_a_indices := Function.update st.visited_a_indices st.current_a
      (st.path_a.length : Int) }
  if st1.current_a = 0 then { st1 with a_active := false }
  else { st1 with
    path_a := st1.path_a ++ [st1.current_a],
    current_a := P st1.current_a }

/-- The state transform of the `b`-side block of one walk iteration when no
meeting is detected. -/
def bStep (P : Nat → Nat) (sid : Int) (st : MeetSt) : MeetSt :=
  let st1 := { st with
    visited_b_search_ids := Function.update st.visited_b_search_ids st.current_b sid,
    visited_b_indices := Function.update st.visited_b_indices st.current_b
      (st.path_b.length : Int) }
  if st1.current_b = 0 then { st1 with b_active := false }
  else { st1 with
    path_b := st1.path_b ++ [st1.current_b],
    current_b := P st1.current_b }

/-- The number of self-loop records in a list of links (calls with
`node_a == node_b`, which `add_link` rejects before walking). -/
def selfLoopCount (links : List Link) : Nat :=
  links.countP (fun l => decide (l.node_a = l.node_b))

/-- The state produced by the accepting branch of `add_link`: reverse the
walked path `px` up to index `k` and attach the new edge `x -> y` with
score `w`.  The 'a' branch instantiates `x, px` with `node_a, path_a`, the
'b' branch with `node_b, path_b`. -/
def acceptState (s1 : MaxSpanningTree) (x y : Nat) (w rsc loc ln : Int)
    (px : List Nat) (k : Nat) : MaxSpanningTree :=
  set_link (reverse_path s1 px k) x y w rsc loc ln

/-- The facts available in the accepting branch of `add_link` (say the 'a'
orientation: `x` is the endpoint whose path gets reversed, `y` the other):
the tree invariant, the walk scenario, the identity of the walked path, the
in-range cut position, and the weakest-link scan results (`parents^[k] x`
carries the minimum cycle score, which the new score `w` strictly beats). -/
structure AcceptCtx (s1 : MaxSpanningTree) (x y : Nat) (w : Int)
    (px : List Nat) (k kx ky i0 j0 : Nat) : Prop where
  hInv : TreeInv s1
  sc : MeetScenario s1.parents s1.num_nodes x y kx ky i0 j0
  hpx : px = listChain s1.parents x i0
  hk : k < i0
  hmin_lt : s1.scores (s1.parents^[k] x) < w
  hcyc : ∀ v ∈ listChain s1.parents x i0 ++ listChain s1.parents y j0,
    s1.scores (s1.parents^[k] x) ≤ s1.scores v
  hx_msi : x ≤ s1.max_seen_id
  hy_msi : y ≤ s1.max_seen_id

/-- Concrete sequence used by the aligner witnesses: every character is 1. -/
def witSeq : Nat → Nat := fun _ => 1

/-- Concrete substitution matrix used by the aligner witnesses: +2 on the
diagonal of the 32x32 matrix (flat indices divisible by 33), -1 elsewhere. -/
def witMatrix : Nat → ℚ := fun x => if x % 33 = 0 then 2 else -1

/-! ### Aligner lemmas: the scoring matrix -/

theorem HF_zero_left (seq_a seq_b : Nat → Nat) (matrix : Nat → ℚ) (g : ℚ)
    (fuel j : Nat) : HF seq_a seq_b matrix g fuel 0 j = 0 := by simp [HF]

theorem HF_left_zero (seq_a seq_b : Nat → Nat) (matrix : Nat → ℚ) (g : ℚ)
    (fuel i : Nat) : HF seq_a seq_b matrix g fuel (i + 1) 0 = 0 := by simp [HF]

theorem HF_succ_eq (seq_a seq_b : Nat → Nat) (matrix : Nat → ℚ) (g : ℚ)
    (fuel i j : Nat) :
    HF seq_a seq_b matrix g (fuel + 1) (i + 1) (j + 1) =
      (let score_match := matEntry matrix (seq_a i) (seq_b j)
       let match_v := HF seq_a seq_b matrix g fuel i j + score_match
       let delete_v := HF seq_a seq_b matrix g fuel i (j + 1) + g
       let insert_v := HF seq_a seq_b matrix g fuel (i + 1) j + g
       let sc1 : ℚ := if match_v > 0 then match_v else 0
       let sc2 : ℚ := if delete_v > sc1 then delete_v else sc1
       if insert_v > sc2 then insert_v else sc2) := by
  conv_lhs => rw [HF]

theorem HF_succ_stable (seq_a seq_b : Nat → Nat) (matrix : Nat → ℚ) (g : ℚ) :
    ∀ fuel i j, i + j ≤ fuel →
      HF seq_a seq_b matrix g (fuel + 1) i j = HF seq_a seq_b matrix g fuel i j := by
  intro fuel
  induction fuel with
  | zero =>
    intro i j hij
    match i, j with
    | 0, j => simp [HF]
    | i + 1, 0 => simp [HF]
    | i + 1, j + 1 => omega
  | succ fuel ih =>
    intro i j hij
    match i, j with
    | 0, j => simp [HF]
    | i + 1, 0 => simp [HF]
    | i + 1, j + 1 =>
      rw [HF_succ_eq, HF_succ_eq]
      rw [ih i j (by omega), ih i (j + 1) (by omega), ih (i + 1) j (by omega)]

theorem HF_fuel_irrel (seq_a seq_b : Nat → Nat) (matrix : Nat → ℚ) (g : ℚ) :
    ∀ fuel i j, i + j ≤ fuel →
      HF seq_a seq_b matrix g fuel i j = Hmat seq_a seq_b matrix g i j := by
  intro fuel
  induction fuel with
  | zero =>
    intro i j hij
    have hi : i = 0 := by omega
    have hj : j = 0 := by omega
    subst hi; subst hj
    simp [Hmat, HF]
  | succ fuel ih =>
    intro i j hij
    rcases Nat.lt_or_ge (i + j) (fuel + 1) with h | h
    · rw [HF_succ_stable seq_a seq_b matrix g fuel i j (by omega)]
      exact ih i j (by omega)
    · have : i + j = fuel + 1 := by omega
      rw [Hmat, this]

theorem Hmat_zero_left (seq_a seq_b : Nat → Nat) (matrix : Nat → ℚ) (g : ℚ)
    (j : Nat) : Hmat seq_a seq_b matrix g 0 j = 0 := by
  rw [Hmat, HF_zero_left]

theorem Hmat_left_zero (seq_a seq_b : Nat → Nat) (matrix : Nat → ℚ) (g : ℚ)
    (i : Nat) : Hmat seq_a seq_b matrix g i 0 = 0 := by
  match i with
  | 0 => rw [Hmat, HF_zero_left]
  | i + 1 => rw [Hmat, HF_left_zero]

theorem Hmat_succ (seq_a seq_b : Nat → Nat) (matrix : Nat → ℚ) (g : ℚ)
    (i j : Nat) :
    Hmat seq_a seq_b matrix g (i + 1) (j + 1) =
      (let score_match := matEntry matrix (seq_a i) (seq_b j)
       let match_v := Hmat seq_a seq_b matrix g i j + score_match
       let delete_v := Hmat seq_a seq_b matrix g i (j + 1) + g
       let insert_v := Hmat seq_a seq_b matrix g (i + 1) j + g
       let sc1 : ℚ := if match_v > 0 then match_v else 0
       let sc2 : ℚ := if delete_v > sc1 then delete_v else sc1
       if insert_v > sc2 then insert_v else sc2) := by
  have h1 : i + 1 + (j + 1) = (i + j + 1) + 1 := by omega
  rw [Hmat, h1, HF_succ_eq]
  rw [HF_fuel_irrel seq_a seq_b matrix g (i + j + 1) i j (by omega),
      HF_fuel_irrel seq_a seq_b matrix g (i + j + 1) i (j + 1) (by omega),
      HF_fuel_irrel seq_a seq_b matrix g (i + j + 1) (i + 1) j (by omega)]

theorem Hmat_nonneg (seq_a seq_b : Nat → Nat) (matrix : Nat → ℚ) (g : ℚ)
    (i j : Nat) : 0 ≤ Hmat seq_a seq_b matrix g i j := by
  match i, j with
  | 0, j => rw [Hmat_zero_left]
  | i + 1, 0 => rw [Hmat_left_zero]
  | i + 1, j + 1 =>
    rw [Hmat_succ]
    simp only []
    split_ifs <;> linarith

theorem Hmat_pos_cases (seq_a seq_b : Nat → Nat) (matrix : Nat → ℚ) (g : ℚ)
    (i j : Nat) (hpos : 0 < Hmat seq_a seq_b matrix g (i + 1) (j + 1)) :
    Hmat seq_a seq_b matrix g (i + 1) (j + 1) =
      Hmat seq_a seq_b matrix g i j + matEntry matrix (seq_a i) (seq_b j) ∨
    Hmat seq_a seq_b matrix g (i + 1) (j + 1) =
      Hmat seq_a seq_b matrix g i (j + 1) + g ∨
    Hmat seq_a seq_b matrix g (i + 1) (j + 1) =
      Hmat seq_a seq_b matrix g (i + 1) j + g := by
  rw [Hmat_succ] at hpos ⊢
  simp only [] at hpos ⊢
  split_ifs at hpos ⊢ <;>
    first
      | (left; rfl)
      | (right; left; rfl)
      | (right; right; rfl)
      | linarith

/-! ### Aligner lemmas: traceback -/

theorem tbF_succ_eq (seq_a seq_b : Nat → Nat) (matrix : Nat → ℚ) (g : ℚ)
    (fuel i j : Nat) :
    tbF seq_a seq_b matrix g (fuel + 1) (i + 1) (j + 1) =
      (if Hmat seq_a seq_b matrix g (i + 1) (j + 1) > 0 then
        if Hmat seq_a seq_b matrix g (i + 1) (j + 1) =
            Hmat seq_a seq_b matrix g i j + matEntry matrix (seq_a i) (seq_b j) then
          ((i : Int), (j : Int)) :: tbF seq_a seq_b matrix g fuel i j
        else if Hmat seq_a seq_b matrix g (i + 1) (j + 1) =
            Hmat seq_a seq_b matrix g i (j + 1) + g then
          ((i : Int), (-1 : Int)) :: tbF seq_a seq_b matrix g fuel i (j + 1)
        else
          ((-1 : Int), (j : Int)) :: tbF seq_a seq_b matrix g fuel (i + 1) j
      else []) := by
  conv_lhs => rw [tbF]

theorem sumDeltas_nil (seq_a seq_b : Nat → Nat) (matrix : Nat → ℚ) (g : ℚ) :
    sumDeltas seq_a seq_b matrix g [] = 0 := rfl

theorem sumDeltas_cons (seq_a seq_b : Nat → Nat) (matrix : Nat → ℚ) (g : ℚ)
    (col : Int × Int) (cols : List (Int × Int)) :
    sumDeltas seq_a seq_b matrix g (col :: cols) =
      colDelta seq_a seq_b matrix g col + sumDeltas seq_a seq_b matrix g cols := by
  simp [sumDeltas]

theorem colDelta_pair (seq_a seq_b : Nat → Nat) (matrix : Nat → ℚ) (g : ℚ)
    (i j : Nat) :
    colDelta seq_a seq_b matrix g ((i : Int), (j : Int)) =
      matEntry matrix (seq_a i) (seq_b j) := by
  have hc : ¬(((i : Int), (j : Int)).1 = -1 ∨ ((i : Int), (j : Int)).2 = -1) := by
    simp only []
    omega
  rw [colDelta, if_neg hc]
  simp

theorem colDelta_gap_b (seq_a seq_b : Nat → Nat) (matrix : Nat → ℚ) (g : ℚ)
    (i : Nat) : colDelta seq_a seq_b matrix g ((i : Int), (-1 : Int)) = g := by
  rw [colDelta, if_pos]
  right; rfl

theorem colDelta_gap_a (seq_a seq_b : Nat → Nat) (matrix : Nat → ℚ) (g : ℚ)
    (j : Nat) : colDelta seq_a seq_b matrix g ((-1 : Int), (j : Int)) = g := by
  rw [colDelta, if_pos]
  left; rfl

theorem sumDeltas_tbF (seq_a seq_b : Nat → Nat) (matrix : Nat → ℚ) (g : ℚ) :
    ∀ fuel i j, i + j ≤ fuel →
      sumDeltas seq_a seq_b matrix g (tbF seq_a seq_b matrix g fuel i j) =
        Hmat seq_a seq_b matrix g i j := by
  intro fuel
  induction fuel with
  | zero =>
    intro i j hij
    have hi : i = 0 := by omega
    have hj : j = 0 := by omega
    subst hi; subst hj
    simp [tbF, sumDeltas, Hmat, HF]
  | succ fuel ih =>
    intro i j hij
    match i, j with
    | 0, j =>
      rw [Hmat_zero_left]
      simp [tbF, sumDeltas]
    | i + 1, 0 =>
      rw [Hmat_left_zero]
      simp [tbF, sumDeltas]
    | i + 1, j + 1 =>
      rw [tbF_succ_eq]
      by_cases hpos : Hmat seq_a seq_b matrix g (i + 1) (j + 1) > 0
      · rw [if_pos hpos]
        by_cases h1 : Hmat seq_a seq_b matrix g (i + 1) (j + 1) =
            Hmat seq_a seq_b matrix g i j + matEntry matrix (seq_a i) (seq_b j)
        · rw [if_pos h1, sumDeltas_cons, colDelta_pair, ih i j (by omega)]
          linarith
        · rw [if_neg h1]
          by_cases h2 : Hmat seq_a seq_b matrix g (i + 1) (j + 1) =
              Hmat seq_a seq_b matrix g i (j + 1) + g
          · rw [if_pos h2, sumDeltas_cons, colDelta_gap_b, ih i (j + 1) (by omega)]
            linarith
          · rw [if_neg h2, sumDeltas_cons, colDelta_gap_a, ih (i + 1) j (by omega)]
            rcases Hmat_pos_cases seq_a seq_b matrix g i j hpos with h | h | h
            · exact absurd h h1
            · exact absurd h h2
            · linarith
      · rw [if_neg hpos, sumDeltas_nil]
        have := Hmat_nonneg seq_a seq_b matrix g (i + 1) (j + 1)
        linarith

theorem sumDeltas_traceback (seq_a seq_b : Nat → Nat) (matrix : Nat → ℚ) (g : ℚ)
    (i j : Nat) :
    sumDeltas seq_a seq_b matrix g (traceback seq_a seq_b matrix g i j) =
      Hmat seq_a seq_b matrix g i j :=
  sumDeltas_tbF seq_a seq_b matrix g (i + j) i j (le_refl _)

theorem tbF_cols_shape (seq_a seq_b : Nat → Nat) (matrix : Nat → ℚ) (g : ℚ) :
    ∀ fuel i j, ∀ col ∈ tbF seq_a seq_b matrix g fuel i j,
      (0 ≤ col.1 ∧ 0 ≤ col.2) ∨ (col.1 = -1 ∧ 0 ≤ col.2) ∨
      (0 ≤ col.1 ∧ col.2 = -1) := by
  intro fuel
  induction fuel with
  | zero =>
    intro i j col hcol
    match i, j with
    | 0, j => simp [tbF] at hcol
    | i + 1, 0 => simp [tbF] at hcol
    | i + 1, j + 1 => simp [tbF] at hcol
  | succ fuel ih =>
    intro i j col hcol
    match i, j with
    | 0, j => simp [tbF] at hcol
    | i + 1, 0 => simp [tbF] at hcol
    | i + 1, j + 1 =>
      rw [tbF_succ_eq] at hcol
      split at hcol
      · split at hcol
        · rcases List.mem_cons.mp hcol with h | h
          · subst h; left; constructor <;> simp
          · exact ih i j col h
        · split at hcol
          · rcases List.mem_cons.mp hcol with h | h
            · subst h; right; right; constructor <;> simp
            · exact ih i (j + 1) col h
          · rcases List.mem_cons.mp hcol with h | h
            · subst h; right; left; constructor <;> simp
            · exact ih (i + 1) j col h
      · simp at hcol

/-! ### Aligner lemmas: best cell -/

theorem mem_cellList (m n i j : Nat) :
    (i, j) ∈ cellList m n ↔ 1 ≤ i ∧ i ≤ m ∧ 1 ≤ j ∧ j ≤ n := by
  simp only [cellList, List.mem_flatMap, List.mem_map, List.mem_range]
  constructor
  · rintro ⟨a, ha, b, hb, h⟩
    obtain ⟨h1, h2⟩ := Prod.mk.injEq _ _ _ _ ▸ h
    omega
  · rintro ⟨h1, h2, h3, h4⟩
    exact ⟨i - 1, by omega, j - 1, by omega, by rw [Prod.mk.injEq]; omega⟩

theorem bestCell_fold_spec (seq_a seq_b : Nat → Nat) (matrix : Nat → ℚ) (g : ℚ) :
    ∀ (l : List (Nat × Nat)) (acc : ℚ × Nat × Nat),
      acc.1 ≤ (l.foldl (fun acc c =>
          if Hmat seq_a seq_b matrix g c.1 c.2 > acc.1 then
            (Hmat seq_a seq_b matrix g c.1 c.2, c.1, c.2) else acc) acc).1 ∧
      (∀ c ∈ l, Hmat seq_a seq_b matrix g c.1 c.2 ≤ (l.foldl (fun acc c =>
          if Hmat seq_a seq_b matrix g c.1 c.2 > acc.1 then
            (Hmat seq_a seq_b matrix g c.1 c.2, c.1, c.2) else acc) acc).1) ∧
      ((l.foldl (fun acc c =>
          if Hmat seq_a seq_b matrix g c.1 c.2 > acc.1 then
            (Hmat seq_a seq_b matrix g c.1 c.2, c.1, c.2) else acc) acc) = acc ∨
       ∃ l1 c l2, l = l1 ++ c :: l2 ∧
         (l.foldl (fun acc c =>
            if Hmat seq_a seq_b matrix g c.1 c.2 > acc.1 then
              (Hmat seq_a seq_b matrix g c.1 c.2, c.1, c.2) else acc) acc) =
           (Hmat seq_a seq_b matrix g c.1 c.2, c.1, c.2) ∧
         acc.1 < Hmat seq_a seq_b matrix g c.1 c.2 ∧
         ∀ c' ∈ l1, Hmat seq_a seq_b matrix g c'.1 c'.2 <
           (l.foldl (fun acc c =>
              if Hmat seq_a seq_b matrix g c.1 c.2 > acc.1 then
                (Hmat seq_a seq_b matrix g c.1 c.2, c.1, c.2) else acc) acc).1) := by
  intro l
  induction l with
  | nil =>
    intro acc
    refine ⟨le_refl _, ?_, Or.inl rfl⟩
    intro c hc
    simp at hc
  | cons c rest ih =>
    intro acc
    simp only [List.foldl_cons]
    by_cases hc : Hmat seq_a seq_b matrix g c.1 c.2 > acc.1
    · rw [if_pos hc]
      obtain ⟨ih1, ih2, ih3⟩ := ih (Hmat seq_a seq_b matrix g c.1 c.2, c.1, c.2)
      refine ⟨le_trans (le_of_lt hc) ih1, ?_, ?_⟩
      · intro c' hc'
        rcases List.mem_cons.mp hc' with h | h
        · subst h; exact ih1
        · exact ih2 c' h
      · rcases ih3 with h | ⟨l1, c', l2, hsplit, hval, hlt, hfirst⟩
        · right
          exact ⟨[], c, rest, rfl, h, hc, by intro c' hc'; simp at hc'⟩
        · right
          have hlt' : Hmat seq_a seq_b matrix g c.1 c.2 <
              Hmat seq_a seq_b matrix g c'.1 c'.2 := hlt
          refine ⟨c :: l1, c', l2, by rw [hsplit, List.cons_append], hval, ?_, ?_⟩
          · exact lt_trans hc hlt'
          · intro c'' hc''
            rcases List.mem_cons.mp hc'' with h | h
            · subst h
              rw [hval]
              exact hlt'
            · exact hfirst c'' h
    · rw [if_neg hc]
      obtain ⟨ih1, ih2, ih3⟩ := ih acc
      push_neg at hc
      refine ⟨ih1, ?_, ?_⟩
      · intro c' hc'
        rcases List.mem_cons.mp hc' with h | h
        · subst h; exact le_trans hc ih1
        · exact ih2 c' h
      · rcases ih3 with h | ⟨l1, c', l2, hsplit, hval, hlt, hfirst⟩
        · left; exact h
        · right
          refine ⟨c :: l1, c', l2, by rw [hsplit, List.cons_append], hval, hlt, ?_⟩
          intro c'' hc''
          rcases List.mem_cons.mp hc'' with h | h
          · subst h
            rw [hval]
            exact lt_of_le_of_lt hc hlt
          · exact hfirst c'' h

theorem bestCell_spec (seq_a seq_b : Nat → Nat) (matrix : Nat → ℚ) (g : ℚ)
    (m n : Nat) :
    0 ≤ (bestCell seq_a seq_b matrix g m n).1 ∧
    (∀ c ∈ cellList m n,
      Hmat seq_a seq_b matrix g c.1 c.2 ≤ (bestCell seq_a seq_b matrix g m n).1) ∧
    (bestCell seq_a seq_b matrix g m n = (0, 0, 0) ∨
     ∃ l1 c l2, cellList m n = l1 ++ c :: l2 ∧
       bestCell seq_a seq_b matrix g m n = (Hmat seq_a seq_b matrix g c.1 c.2, c.1, c.2) ∧
       0 < Hmat seq_a seq_b matrix g c.1 c.2 ∧
       ∀ c' ∈ l1, Hmat seq_a seq_b matrix g c'.1 c'.2 <
         (bestCell seq_a seq_b matrix g m n).1) :=
  bestCell_fold_spec seq_a seq_b matrix g (cellList m n) (0, 0, 0)

theorem align_score_eq (seq_a : Nat → Nat) (m : Nat) (seq_b : Nat → Nat) (n : Nat)
    (matrix : Nat → ℚ) (g : ℚ) :
    (align_local_core seq_a m seq_b n matrix g).score =
      (bestCell seq_a seq_b matrix g m n).1 := by
  rw [align_local_core]
  split <;> rfl

theorem align_cols_eq (seq_a : Nat → Nat) (m : Nat) (seq_b : Nat → Nat) (n : Nat)
    (matrix : Nat → ℚ) (g : ℚ)
    (hpos : 0 < (bestCell seq_a seq_b matrix g m n).1) :
    (align_local_core seq_a m seq_b n matrix g).cols =
      traceback seq_a seq_b matrix g (bestCell seq_a seq_b matrix g m n).2.1
        (bestCell seq_a seq_b matrix g m n).2.2 := by
  rw [align_local_core]
  rw [if_neg (by linarith)]

theorem bestCell_pos_val (seq_a seq_b : Nat → Nat) (matrix : Nat → ℚ) (g : ℚ)
    (m n : Nat) (hpos : 0 < (bestCell seq_a seq_b matrix g m n).1) :
    Hmat seq_a seq_b matrix g (bestCell seq_a seq_b matrix g m n).2.1
        (bestCell seq_a seq_b matrix g m n).2.2 =
      (bestCell seq_a seq_b matrix g m n).1 := by
  obtain ⟨h0, hall, hcase⟩ := bestCell_spec seq_a seq_b matrix g m n
  rcases hcase with h | ⟨l1, c, l2, hsplit, hval, hcpos, hfirst⟩
  · rw [h] at hpos
    norm_num at hpos
  · rw [hval]

/-- Claim C8: `align_local_core` reports in `out_score` the maximum of
`H[i][j]` over all cells of the filled `(m+1) x (n+1)` matrix (0 when all
cells are 0, e.g. for empty inputs), and when the maximum is positive the
traceback starts at the first cell in row-major scan order attaining it
(strict `>` comparison, first-found wins on ties). -/
theorem C8_best_cell_selection (seq_a : Nat → Nat) (m : Nat) (seq_b : Nat → Nat)
    (n : Nat) (matrix : Nat → ℚ) (g : ℚ) :
    (align_local_core seq_a m seq_b n matrix g).score =
      (bestCell seq_a seq_b matrix g m n).1 ∧
    (∀ i, i ≤ m → ∀ j, j ≤ n →
      Hmat seq_a seq_b matrix g i j ≤ (align_local_core seq_a m seq_b n matrix g).score) ∧
    (∃ i, i ≤ m ∧ ∃ j, j ≤ n ∧
      Hmat seq_a seq_b matrix g i j = (align_local_core seq_a m seq_b n matrix g).score) ∧
    (0 < (align_local_core seq_a m seq_b n matrix g).score →
      Hmat seq_a seq_b matrix g (bestCell seq_a seq_b matrix g m n).2.1
          (bestCell seq_a seq_b matrix g m n).2.2 =
        (align_local_core seq_a m seq_b n matrix g).score ∧
      (align_local_core seq_a m seq_b n matrix g).cols =
        traceback seq_a seq_b matrix g (bestCell seq_a seq_b matrix g m n).2.1
          (bestCell seq_a seq_b matrix g m n).2.2 ∧
      ∃ l1 l2, cellList m n =
          l1 ++ ((bestCell seq_a seq_b matrix g m n).2.1,
                 (bestCell seq_a seq_b matrix g m n).2.2) :: l2 ∧
        ∀ c ∈ l1, Hmat seq_a seq_b matrix g c.1 c.2 <
          (align_local_core seq_a m seq_b n matrix g).score) := by
  obtain ⟨h0, hall, hcase⟩ := bestCell_spec seq_a seq_b matrix g m n
  rw [align_score_eq]
  refine ⟨rfl, ?_, ?_, ?_⟩
  · intro i hi j hj
    match i, j with
    | 0, j =>
      rw [Hmat_zero_left]; exact h0
    | i + 1, 0 =>
      rw [Hmat_left_zero]; exact h0
    | i + 1, j + 1 =>
      exact hall (i + 1, j + 1) ((mem_cellList m n (i + 1) (j + 1)).mpr (by omega))
  · rcases hcase with h | ⟨l1, c, l2, hsplit, hval, hcpos, hfirst⟩
    · refine ⟨0, Nat.zero_le _, 0, Nat.zero_le _, ?_⟩
      rw [Hmat_zero_left, h]
    · have hc : c ∈ cellList m n := by rw [hsplit]; simp
      obtain ⟨hc1, hc2, hc3, hc4⟩ := (mem_cellList m n c.1 c.2).mp (by
        have : (c.1, c.2) = c := rfl
        rw [this]; exact hc)
      exact ⟨c.1, hc2, c.2, hc4, by rw [hval]⟩
  · intro hpos
    refine ⟨bestCell_pos_val seq_a seq_b matrix g m n hpos,
      align_cols_eq seq_a m seq_b n matrix g hpos, ?_⟩
    rcases hcase with h | ⟨l1, c, l2, hsplit, hval, hcpos, hfirst⟩
    · rw [h] at hpos
      norm_num at hpos
    · refine ⟨l1, l2, ?_, hfirst⟩
      rw [hval]
      exact hsplit

/-- Claim C3: when `align_local_core` returns a positive maximum score,
every emitted column has exactly one index equal to -1 or both indices
non-negative, summing the per-column score deltas over the emitted path
reconstructs the returned score, and at every cell a traceback step can
visit (positive `H`) at least one of the three equality branches of the
traceback holds. -/
theorem C3_traceback_consistency (seq_a : Nat → Nat) (m : Nat) (seq_b : Nat → Nat)
    (n : Nat) (matrix : Nat → ℚ) (g : ℚ)
    (hpos : 0 < (align_local_core seq_a m seq_b n matrix g).score) :
    (∀ col ∈ (align_local_core seq_a m seq_b n matrix g).cols,
      (0 ≤ col.1 ∧ 0 ≤ col.2) ∨ (col.1 = -1 ∧ 0 ≤ col.2) ∨
      (0 ≤ col.1 ∧ col.2 = -1)) ∧
    sumDeltas seq_a seq_b matrix g (align_local_core seq_a m seq_b n matrix g).cols =
      (align_local_core seq_a m seq_b n matrix g).score ∧
    (∀ i j, 0 < Hmat seq_a seq_b matrix g (i + 1) (j + 1) →
      Hmat seq_a seq_b matrix g (i + 1) (j + 1) =
        Hmat seq_a seq_b matrix g i j + matEntry matrix (seq_a i) (seq_b j) ∨
      Hmat seq_a seq_b matrix g (i + 1) (j + 1) =
        Hmat seq_a seq_b matrix g i (j + 1) + g ∨
      Hmat seq_a seq_b matrix g (i + 1) (j + 1) =
        Hmat seq_a seq_b matrix g (i + 1) j + g) := by
  have hpos' : 0 < (bestCell seq_a seq_b matrix g m n).1 := by
    rw [align_score_eq] at hpos
    exact hpos
  have hcols := align_cols_eq seq_a m seq_b n matrix g hpos'
  refine ⟨?_, ?_, ?_⟩
  · intro col hcol
    rw [hcols] at hcol
    exact tbF_cols_shape seq_a seq_b matrix g _ _ _ col hcol
  · rw [hcols, sumDeltas_traceback, bestCell_pos_val seq_a seq_b matrix g m n hpos',
        align_score_eq]
  · intro i j h
    exact Hmat_pos_cases seq_a seq_b matrix g i j h

theorem wit_align_pos :
    0 < (align_local_core witSeq 1 witSeq 1 witMatrix (-1)).score := by
  rw [align_score_eq]
  have h11 : Hmat witSeq witSeq witMatrix (-1) 1 1 = 2 := by
    have h := Hmat_succ witSeq witSeq witMatrix (-1) 0 0
    rw [Hmat_zero_left, Hmat_left_zero, Hmat_zero_left] at h
    norm_num [matEntry, subIdx, witSeq, witMatrix] at h
    exact h
  have hcl : cellList 1 1 = [(1, 1)] := rfl
  rw [bestCell, hcl]
  simp [h11]

/-- Witness for C3 at a concrete input with positive score. -/
theorem C3_traceback_consistency_witness :
    0 < (align_local_core witSeq 1 witSeq 1 witMatrix (-1)).score ∧
    ((∀ col ∈ (align_local_core witSeq 1 witSeq 1 witMatrix (-1)).cols,
      (0 ≤ col.1 ∧ 0 ≤ col.2) ∨ (col.1 = -1 ∧ 0 ≤ col.2) ∨
      (0 ≤ col.1 ∧ col.2 = -1)) ∧
    sumDeltas witSeq witSeq witMatrix (-1)
        (align_local_core witSeq 1 witSeq 1 witMatrix (-1)).cols =
      (align_local_core witSeq 1 witSeq 1 witMatrix (-1)).score ∧
    (∀ i j, 0 < Hmat witSeq witSeq witMatrix (-1) (i + 1) (j + 1) →
      Hmat witSeq witSeq witMatrix (-1) (i + 1) (j + 1) =
        Hmat witSeq witSeq witMatrix (-1) i j +
          matEntry witMatrix (witSeq i) (witSeq j) ∨
      Hmat witSeq witSeq witMatrix (-1) (i + 1) (j + 1) =
        Hmat witSeq witSeq witMatrix (-1) i (j + 1) + (-1) ∨
      Hmat witSeq witSeq witMatrix (-1) (i + 1) (j + 1) =
        Hmat witSeq witSeq witMatrix (-1) (i + 1) j + (-1))) :=
  ⟨wit_align_pos, C3_traceback_consistency witSeq 1 witSeq 1 witMatrix (-1) wit_align_pos⟩

/-- Witness for the conditional part of C8 at a concrete input with
positive score. -/
theorem C8_best_cell_selection_witness :
    0 < (align_local_core witSeq 1 witSeq 1 witMatrix (-1)).score ∧
    (Hmat witSeq witSeq witMatrix (-1) (bestCell witSeq witSeq witMatrix (-1) 1 1).2.1
        (bestCell witSeq witSeq witMatrix (-1) 1 1).2.2 =
      (align_local_core witSeq 1 witSeq 1 witMatrix (-1)).score ∧
    (align_local_core witSeq 1 witSeq 1 witMatrix (-1)).cols =
      traceback witSeq witSeq witMatrix (-1)
        (bestCell witSeq witSeq witMatrix (-1) 1 1).2.1
        (bestCell witSeq witSeq witMatrix (-1) 1 1).2.2 ∧
    ∃ l1 l2, cellList 1 1 =
        l1 ++ ((bestCell witSeq witSeq witMatrix (-1) 1 1).2.1,
               (bestCell witSeq witSeq witMatrix (-1) 1 1).2.2) :: l2 ∧
      ∀ c ∈ l1, Hmat witSeq witSeq witMatrix (-1) c.1 c.2 <
        (align_local_core witSeq 1 witSeq 1 witMatrix (-1)).score) :=
  ⟨wit_align_pos,
   (C8_best_cell_selection witSeq 1 witSeq 1 witMatrix (-1)).2.2.2 wit_align_pos⟩

/-! ### Tree-builder lemmas: easy frame facts -/

theorem revLoop_counters (path : List Nat) :
    ∀ n s, (revLoop path n s).links_processed = s.links_processed ∧
      (revLoop path n s).links_added = s.links_added ∧
      (revLoop path n s).links_rejected = s.links_rejected := by
  intro n
  induction n with
  | zero => intro s; exact ⟨rfl, rfl, rfl⟩
  | succ n ih =>
    intro s
    exact ih _

/-- Claim C7: whenever `add_link` returns false, the five per-node arrays
are exactly what they were before the call (and `links_added` is
unchanged); whenever it returns true, `links_added` is incremented and
`links_rejected` unchanged; `links_processed` is incremented on every
call.  Together these say each call realizes exactly one of the outcomes
rejected / accepted. -/
theorem C7_rejection_atomicity (s : MaxSpanningTree) (node_a node_b : Nat)
    (score raw_score location len : Int) :
    ((add_link s node_a node_b score raw_score location len).2 = false →
      (add_link s node_a node_b score raw_score location len).1.parents = s.parents ∧
      (add_link s node_a node_b score raw_score location len).1.scores = s.scores ∧
      (add_link s node_a node_b score raw_score location len).1.raw_scores = s.raw_scores ∧
      (add_link s node_a node_b score raw_score location len).1.locations = s.locations ∧
      (add_link s node_a node_b score raw_score location len).1.lengths = s.lengths ∧
      (add_link s node_a node_b score raw_score location len).1.links_added = s.links_added) ∧
    ((add_link s node_a node_b score raw_score location len).2 = true →
      (add_link s node_a node_b score raw_score location len).1.links_added =
        s.links_added + 1 ∧
      (add_link s node_a node_b score raw_score location len).1.links_rejected =
        s.links_rejected) ∧
    (add_link s node_a node_b score raw_score location len).1.links_processed =
      s.links_processed + 1 := by
  unfold add_link
  by_cases hab : node_a = node_b
  · simp [hab]
  · simp only [if_neg hab]
    rcases hfm : find_meeting_point
        { s with links_processed := s.links_processed + 1,
                 max_seen_id := max (max s.max_seen_id node_a) node_b } node_a node_b
      with ⟨s1, r⟩
    have hp : s1.parents = s.parents := (congrArg (fun p => p.1.parents) hfm).symm
    have hs : s1.scores = s.scores := (congrArg (fun p => p.1.scores) hfm).symm
    have hrs : s1.raw_scores = s.raw_scores := (congrArg (fun p => p.1.raw_scores) hfm).symm
    have hlo : s1.locations = s.locations := (congrArg (fun p => p.1.locations) hfm).symm
    have hle : s1.lengths = s.lengths := (congrArg (fun p => p.1.lengths) hfm).symm
    have hla : s1.links_added = s.links_added :=
      (congrArg (fun p => p.1.links_added) hfm).symm
    have hlr : s1.links_rejected = s.links_rejected :=
      (congrArg (fun p => p.1.links_rejected) hfm).symm
    have hlp : s1.links_processed = s.links_processed + 1 :=
      (congrArg (fun p => p.1.links_processed) hfm).symm
    cases r with
    | found mn pa pb =>
      rcases hw : find_weakest_link_in_cycle s1 pa pb score with ⟨ms, wp, pos⟩
      by_cases hn : wp = 'n'
      · simp only [hw, if_pos hn]
        exact ⟨fun _ => ⟨hp, hs, hrs, hlo, hle, hla⟩, fun h => by simp at h, hlp⟩
      · by_cases ha : wp = 'a'
        · simp only [hw, if_neg hn, if_pos ha]
          refine ⟨fun h => by simp at h, fun _ => ?_, ?_⟩
          · constructor
            · show (set_link (reverse_path s1 pa pos.toNat) node_a node_b
                  score raw_score location len).links_added + 1 = s.links_added + 1
              show (reverse_path s1 pa pos.toNat).links_added + 1 = s.links_added + 1
              show (revLoop pa pos.toNat s1).links_added + 1 = s.links_added + 1
              rw [(revLoop_counters pa pos.toNat s1).2.1, hla]
            · show (set_link (reverse_path s1 pa pos.toNat) node_a node_b
                  score raw_score location len).links_rejected = s.links_rejected
              show (revLoop pa pos.toNat s1).links_rejected = s.links_rejected
              rw [(revLoop_counters pa pos.toNat s1).2.2, hlr]
          · show (set_link (reverse_path s1 pa pos.toNat) node_a node_b
                score raw_score location len).links_processed = s.links_processed + 1
            show (revLoop pa pos.toNat s1).links_processed = s.links_processed + 1
            rw [(revLoop_counters pa pos.toNat s1).1, hlp]
        · simp only [hw, if_neg hn, if_neg ha]
          refine ⟨fun h => by simp at h, fun _ => ?_, ?_⟩
          · constructor
            · show (revLoop pb pos.toNat s1).links_added + 1 = s.links_added + 1
              rw [(revLoop_counters pb pos.toNat s1).2.1, hla]
            · show (revLoop pb pos.toNat s1).links_rejected = s.links_rejected
              rw [(revLoop_counters pb pos.toNat s1).2.2, hlr]
          · show (revLoop pb pos.toNat s1).links_processed = s.links_processed + 1
            rw [(revLoop_counters pb pos.toNat s1).1, hlp]
    | nomeet =>
      exact ⟨fun _ => ⟨hp, hs, hrs, hlo, hle, hla⟩, fun h => by simp at h, hlp⟩
    | fuelout =>
      exact ⟨fun _ => ⟨hp, hs, hrs, hlo, hle, hla⟩, fun h => by simp at h, hlp⟩

/-- Witness for C7: a self-loop call returns false and changes none of
the five arrays. -/
theorem C7_rejection_atomicity_witness :
    (add_link (MaxSpanningTree.init 2) 1 1 7 7 0 0).2 = false ∧
    (add_link (MaxSpanningTree.init 2) 1 1 7 7 0 0).1.parents =
      (MaxSpanningTree.init 2).parents ∧
    (add_link (MaxSpanningTree.init 2) 1 1 7 7 0 0).1.scores =
      (MaxSpanningTree.init 2).scores :=
  ⟨rfl,
   ((C7_rejection_atomicity (MaxSpanningTree.init 2) 1 1 7 7 0 0).1 rfl).1,
   ((C7_rejection_atomicity (MaxSpanningTree.init 2) 1 1 7 7 0 0).1 rfl).2.1⟩

/-- Claim C9 (code bug): the driver guard of tree_builder.cpp line 454
only tests `query >= num_nodes || target >= num_nodes`, so a record with a
negative id is NOT skipped: `add_link` is called for it (in the C++
program this indexes the arrays out of bounds).  The claim (and the spec)
say ids outside `[0, N)` are skipped silently. -/
theorem C9_negative_id_not_skipped :
    driver_accepts_record (-1) 2 5 = true ∧ ¬(0 ≤ (-1 : Int) ∧ (-1 : Int) < 5) :=
  ⟨rfl, by decide⟩

/-! ### Parent-chain lemmas -/

theorem iter_shift {P : Nat → Nat} {a b i j : Nat}
    (h : P^[i] a = P^[j] b) (t : Nat) : P^[i + t] a = P^[j + t] b := by
  rw [add_comm i t, add_comm j t, Function.iterate_add_apply,
    Function.iterate_add_apply, h]

theorem iter_lt {P : Nat → Nat} {N : Nat} (hPlt : ∀ v, v < N → P v < N)
    {v : Nat} (hv : v < N) : ∀ k, P^[k] v < N := by
  intro k
  induction k with
  | zero => exact hv
  | succ k ih =>
    rw [Function.iterate_succ_apply']
    exact hPlt _ ih

theorem iter_zero_stays {P : Nat → Nat} (hP0 : P 0 = 0) (k : Nat) :
    P^[k] 0 = 0 := by
  induction k with
  | zero => rfl
  | succ k ih => rw [Function.iterate_succ_apply', ih, hP0]

theorem iter_eventually_zero {P : Nat → Nat} (hP0 : P 0 = 0) {m : Nat} {v : Nat}
    (hm : P^[m] v = 0) : ∀ k, m ≤ k → P^[k] v = 0 := by
  intro k hk
  have : k = (k - m) + m := by omega
  rw [this, Function.iterate_add_apply, hm, iter_zero_stays hP0]

theorem hit_nodup {P : Nat → Nat} {v m : Nat} (hm : P^[m] v = 0)
    (hmin : ∀ i, i < m → P^[i] v ≠ 0) :
    ∀ i j, i < j → j ≤ m → P^[i] v ≠ P^[j] v := by
  intro i j hij hjm heq
  have h1 : P^[i + (m - j)] v = P^[j + (m - j)] v := iter_shift heq (m - j)
  have h2 : j + (m - j) = m := by omega
  rw [h2, hm] at h1
  exact hmin (i + (m - j)) (by omega) h1

theorem mem_listChain {P : Nat → Nat} {v n x : Nat} :
    x ∈ listChain P v n ↔ ∃ k, k < n ∧ P^[k] v = x := by
  simp [listChain]
  constructor
  · rintro ⟨k, hk, he⟩; exact ⟨k, hk, he.symm⟩
  · rintro ⟨k, hk, he⟩; exact ⟨k, hk, he.symm⟩

theorem listChain_length (P : Nat → Nat) (v n : Nat) :
    (listChain P v n).length = n := by simp [listChain]

theorem listChain_nodup {P : Nat → Nat} {v m : Nat} (hm : P^[m] v = 0)
    (hmin : ∀ i, i < m → P^[i] v ≠ 0) {n : Nat} (hn : n ≤ m) :
    (listChain P v n).Nodup := by
  rw [listChain]
  apply List.Nodup.map_on
  · intro x hx y hy hxy
    rw [List.mem_range] at hx hy
    by_contra hne
    rcases Nat.lt_or_ge x y with h | h
    · exact hit_nodup hm hmin x y h (by omega) hxy
    · exact hit_nodup hm hmin y x (by omega) (by omega) hxy.symm
  · exact List.nodup_range _

theorem hit_le_pred {P : Nat → Nat} {N v m : Nat} (hPlt : ∀ w, w < N → P w < N)
    (hv : v < N) (hm : P^[m] v = 0) (hmin : ∀ i, i < m → P^[i] v ≠ 0) :
    m ≤ N - 1 := by
  have hnodup : (listChain P v m).Nodup := listChain_nodup hm hmin (le_refl m)
  have hsub : ∀ x ∈ listChain P v m, x ∈ (Finset.range N).erase 0 := by
    intro x hx
    rw [mem_listChain] at hx
    obtain ⟨k, hk, he⟩ := hx
    rw [Finset.mem_erase, Finset.mem_range]
    exact ⟨by rw [← he]; exact hmin k hk, by rw [← he]; exact iter_lt hPlt hv k⟩
  have hcard : (listChain P v m).toFinset.card = m := by
    rw [List.toFinset_card_of_nodup hnodup, listChain_length]
  have hsub2 : (listChain P v m).toFinset ⊆ (Finset.range N).erase 0 := by
    intro x hx
    rw [List.mem_toFinset] at hx
    exact hsub x hx
  have := Finset.card_le_card hsub2
  rw [hcard, Finset.card_erase_of_mem, Finset.card_range] at this
  · exact this
  · rw [Finset.mem_range]; omega

theorem listChain_succ_head (P : Nat → Nat) (v n : Nat) :
    listChain P v (n + 1) = v :: listChain P (P v) n := by
  simp [listChain, List.range_succ_eq_map, List.map_map, Function.comp_def,
    Function.iterate_succ_apply]

theorem chainF_eq_listChain {P : Nat → Nat} :
    ∀ fuel v m, P^[m] v = 0 → (∀ i, i < m → P^[i] v ≠ 0) → m ≤ fuel →
      chainF P fuel v = listChain P v m := by
  intro fuel
  induction fuel with
  | zero =>
    intro v m hm hmin hle
    have : m = 0 := by omega
    subst this
    simp [chainF, listChain]
  | succ fuel ih =>
    intro v m hm hmin hle
    by_cases hv : v = 0
    · have hm0 : m = 0 := by
        by_contra h
        exact hmin 0 (by omega) (by simpa using hv)
      subst hm0
      simp [chainF, hv, listChain]
    · have hm1 : 1 ≤ m := by
        by_contra h
        have : m = 0 := by omega
        subst this
        exact hv (by simpa using hm)
      rw [chainF, if_neg hv]
      have hrec : chainF P fuel (P v) = listChain P (P v) (m - 1) := by
        apply ih
        · have : P^[m - 1] (P v) = P^[m] v := by
            rw [← Function.iterate_succ_apply]
            congr 1
            omega
          rw [this, hm]
        · intro i hi
          rw [← Function.iterate_succ_apply]
          have : i + 1 < m := by omega
          exact hmin (i + 1) this
        · omega
      rw [hrec]
      have hm' : m = (m - 1) + 1 := by omega
      conv_rhs => rw [hm', listChain_succ_head]

/-! ### Meeting-scenario lemmas -/

theorem MeetScenario.a_nodup {P : Nat → Nat} {N a b ka kb i0 j0 : Nat}
    (sc : MeetScenario P N a b ka kb i0 j0) :
    ∀ i j, i < j → j ≤ ka → P^[i] a ≠ P^[j] a :=
  hit_nodup sc.hka sc.hka_min

theorem MeetScenario.b_nodup {P : Nat → Nat} {N a b ka kb i0 j0 : Nat}
    (sc : MeetScenario P N a b ka kb i0 j0) :
    ∀ i j, i < j → j ≤ kb → P^[i] b ≠ P^[j] b :=
  hit_nodup sc.hkb sc.hkb_min

theorem MeetScenario.align {P : Nat → Nat} {N a b ka kb i0 j0 : Nat}
    (sc : MeetScenario P N a b ka kb i0 j0) (t : Nat) :
    P^[i0 + t] a = P^[j0 + t] b :=
  (iter_shift sc.hj0 t).symm

theorem MeetScenario.diff_eq {P : Nat → Nat} {N a b ka kb i0 j0 : Nat}
    (sc : MeetScenario P N a b ka kb i0 j0) : ka - i0 = kb - j0 := by
  have hle1 := sc.hi0_le
  have hle2 := sc.hj0_le
  have h1 : P^[j0 + (ka - i0)] b = 0 := by
    rw [← sc.align (ka - i0)]
    have : i0 + (ka - i0) = ka := by omega
    rw [this, sc.hka]
  have h2 : kb ≤ j0 + (ka - i0) := by
    by_contra h
    exact sc.hkb_min (j0 + (ka - i0)) (by omega) h1
  have h3 : P^[i0 + (kb - j0)] a = 0 := by
    rw [sc.align (kb - j0)]
    have : j0 + (kb - j0) = kb := by omega
    rw [this, sc.hkb]
  have h4 : ka ≤ i0 + (kb - j0) := by
    by_contra h
    exact sc.hka_min (i0 + (kb - j0)) (by omega) h3
  have := sc.hi0_le
  have := sc.hj0_le
  omega

theorem MeetScenario.cross_min {P : Nat → Nat} {N a b ka kb i0 j0 : Nat}
    (sc : MeetScenario P N a b ka kb i0 j0) :
    ∀ j, j < j0 → ∀ i, i ≤ ka → P^[i] a ≠ P^[j] b := by
  intro j hj i hi heq
  have hjkb : j < kb := by
    have := sc.hj0_le
    omega
  have hjne0 : P^[j] b ≠ 0 := sc.hkb_min j hjkb
  have hine0 : P^[i] a ≠ 0 := by rw [heq]; exact hjne0
  have hika : i < ka := by
    rcases Nat.lt_or_ge i ka with h | h
    · exact h
    · exfalso
      exact hine0 (iter_eventually_zero sc.hP0 sc.hka i h)
  have hii0 : i0 ≤ i := by
    by_contra h
    exact sc.hi0_min i (by omega) j (by omega) heq.symm
  have halign : P^[i] a = P^[j0 + (i - i0)] b := by
    have := sc.align (i - i0)
    have h2 : i0 + (i - i0) = i := by omega
    rw [h2] at this
    exact this
  rcases le_or_lt (j0 + (i - i0)) kb with h | h
  · have : P^[j] b ≠ P^[j0 + (i - i0)] b :=
      sc.b_nodup j (j0 + (i - i0)) (by omega) h
    exact this (heq.symm.trans halign)
  · have hz : P^[j0 + (i - i0)] b = 0 := iter_eventually_zero sc.hP0 sc.hkb _ (by omega)
    rw [hz] at halign
    exact hine0 halign

theorem MeetScenario.ka_le {P : Nat → Nat} {N a b ka kb i0 j0 : Nat}
    (sc : MeetScenario P N a b ka kb i0 j0) : ka ≤ N - 1 :=
  hit_le_pred sc.hPlt sc.ha sc.hka sc.hka_min

theorem MeetScenario.kb_le {P : Nat → Nat} {N a b ka kb i0 j0 : Nat}
    (sc : MeetScenario P N a b ka kb i0 j0) : kb ≤ N - 1 :=
  hit_le_pred sc.hPlt sc.hb sc.hkb sc.hkb_min

/-! ### Walk iteration shape lemmas -/

theorem meetIter_a_detect (P : Nat → Nat) (sid : Int) (st : MeetSt)
    (h1 : st.a_active = true)
    (h2 : st.visited_b_search_ids st.current_a = sid) :
    meetIter P sid st = Sum.inl (st, MeetResult.found st.current_a st.path_a
      (trimPath st.path_b (st.visited_b_indices st.current_a))) := by
  simp only [meetIter, h1, if_true, if_pos h2]

theorem meetIter_b_detect (P : Nat → Nat) (sid : Int) (st : MeetSt)
    (hA : st.a_active = true → st.visited_b_search_ids st.current_a ≠ sid)
    (stA : MeetSt) (hstA : stA = if st.a_active then aStep P sid st else st)
    (h3 : stA.b_active = true)
    (h4 : stA.visited_a_search_ids stA.current_b = sid) :
    meetIter P sid st = Sum.inl (stA, MeetResult.found stA.current_b
      (trimPath stA.path_a (stA.visited_a_indices stA.current_b)) stA.path_b) := by
  by_cases h1 : st.a_active = true
  · have h2 := hA h1
    rw [hstA, if_pos h1] at h3 h4 ⊢
    simp only [meetIter, h1, if_true, if_neg h2]
    rw [aStep] at h3 h4 ⊢
    by_cases hz : st.current_a = 0
    · simp only [if_pos hz] at h3 h4 ⊢
      simp only [h3, if_true, if_pos h4]
      all_goals simp [h1]
    · simp only [if_neg hz] at h3 h4 ⊢
      simp only [h3, if_true, if_pos h4]
      all_goals simp [h1]
  · have h1' : st.a_active = false := by
      cases hh : st.a_active
      · rfl
      · exact absurd hh h1
    rw [hstA, if_neg h1] at h3 h4 ⊢
    simp only [meetIter, h1', Bool.false_eq_true, if_false, h3, if_true, if_pos h4]

theorem meetIter_no_detect (P : Nat → Nat) (sid : Int) (st : MeetSt)
    (hA : st.a_active = true → st.visited_b_search_ids st.current_a ≠ sid)
    (stA : MeetSt) (hstA : stA = if st.a_active then aStep P sid st else st)
    (hB : stA.b_active = true → stA.visited_a_search_ids stA.current_b ≠ sid)
    (stB : MeetSt) (hstB : stB = if stA.b_active then bStep P sid stA else stA)
    (hX : stB.a_active = true ∨ stB.b_active = true) :
    meetIter P sid st = Sum.inr stB := by
  subst hstB
  subst hstA
  by_cases h1 : st.a_active = true
  · have h2 := hA h1
    rw [if_pos h1] at hB hX ⊢
    simp only [meetIter, h1, if_true, if_neg h2]
    rw [aStep] at hB hX ⊢
    by_cases hz : st.current_a = 0
    · simp only [if_pos hz] at hB hX ⊢
      by_cases h3 : st.b_active = true
      · have h4 := hB (by simpa using h3)
        simp only [h3, if_true] at hB hX ⊢
        simp only [if_neg h4]
        rw [bStep] at hX ⊢
        by_cases hzb : st.current_b = 0
        · simp only [if_pos hzb] at hX ⊢
          exfalso
          rcases hX with h | h <;> simp at h
        · simp only [if_neg hzb] at hX ⊢
          simp [h3]
      · have h3' : st.b_active = false := Bool.eq_false_iff.mpr h3
        simp only [h3', Bool.false_eq_true, if_false] at hX ⊢
        exfalso
        rcases hX with h | h <;> simp [h3'] at h
    · simp only [if_neg hz] at hB hX ⊢
      by_cases h3 : st.b_active = true
      · have h4 := hB (by simpa using h3)
        simp only [h3, if_true] at hB hX ⊢
        simp only [if_neg h4]
        rw [bStep] at hX ⊢
        by_cases hzb : st.current_b = 0
        · simp only [if_pos hzb] at hX ⊢
          simp [h1]
        · simp only [if_neg hzb] at hX ⊢
          simp [h1]
      · have h3' : st.b_active = false := Bool.eq_false_iff.mpr h3
        simp only [h3', Bool.false_eq_true, if_false] at hX ⊢
        simp [h1]
  · have h1' : st.a_active = false := Bool.eq_false_iff.mpr h1
    rw [if_neg h1] at hB hX ⊢
    simp only [meetIter, h1', Bool.false_eq_true, if_false]
    by_cases h3 : st.b_active = true
    · have h4 := hB h3
      simp only [h3, if_true] at hX ⊢
      simp only [if_neg h4]
      rw [bStep] at hX ⊢
      by_cases hzb : st.current_b = 0
      · simp only [if_pos hzb] at hX ⊢
        exfalso
        rcases hX with h | h <;> simp [h1'] at h
      · simp only [if_neg hzb] at hX ⊢
        simp [h1', h3]
    · have h3' : st.b_active = false := Bool.eq_false_iff.mpr h3
      simp only [h3', Bool.false_eq_true, if_false] at hX ⊢
      exfalso
      rcases hX with h | h
      · simp [h1'] at h
      · simp [h3'] at h

theorem listChain_snoc (P : Nat → Nat) (v n : Nat) :
    listChain P v (n + 1) = listChain P v n ++ [P^[n] v] := by
  simp [listChain, List.range_succ]

theorem aStep_inv {P : Nat → Nat} {sid : Int} {a ka : Nat} {va0 : Nat → Int}
    {t : Nat} {st : MeetSt}
    (hka : P^[ka] a = 0) (hka_min : ∀ i, i < ka → P^[i] a ≠ 0) (hP0 : P 0 = 0)
    (cur : st.current_a = P^[t] a)
    (act : st.a_active = decide (t ≤ ka))
    (patha : st.path_a = listChain P a (min t ka))
    (stamp : ∀ v, st.visited_a_search_ids v = sid ↔
      ∃ s, s < min t (ka + 1) ∧ P^[s] a = v)
    (idx : ∀ s, s < min t (ka + 1) → st.visited_a_indices (P^[s] a) = (s : Int))
    (old : ∀ v, (∀ s, s < min t (ka + 1) → P^[s] a ≠ v) →
      st.visited_a_search_ids v = va0 v)
    (hta : t ≤ ka) :
    (aStep P sid st).current_a = P^[t + 1] a ∧
    (aStep P sid st).a_active = decide (t + 1 ≤ ka) ∧
    (aStep P sid st).path_a = listChain P a (min (t + 1) ka) ∧
    (∀ v, (aStep P sid st).visited_a_search_ids v = sid ↔
      ∃ s, s < min (t + 1) (ka + 1) ∧ P^[s] a = v) ∧
    (∀ s, s < min (t + 1) (ka + 1) →
      (aStep P sid st).visited_a_indices (P^[s] a) = (s : Int)) ∧
    (∀ v, (∀ s, s < min (t + 1) (ka + 1) → P^[s] a ≠ v) →
      (aStep P sid st).visited_a_search_ids v = va0 v) ∧
    (aStep P sid st).current_b = st.current_b ∧
    (aStep P sid st).b_active = st.b_active ∧
    (aStep P sid st).path_b = st.path_b ∧
    (aStep P sid st).visited_b_search_ids = st.visited_b_search_ids ∧
    (aStep P sid st).visited_b_indices = st.visited_b_indices := by
  have hmt : min t (ka + 1) = t := by omega
  have hmt1 : min (t + 1) (ka + 1) = t + 1 := by omega
  have hstamp' : ∀ v, Function.update st.visited_a_search_ids st.current_a sid v = sid ↔
      ∃ s, s < min (t + 1) (ka + 1) ∧ P^[s] a = v := by
    intro v
    rw [hmt1]
    by_cases hv : v = st.current_a
    · subst hv
      rw [Function.update_same]
      constructor
      · intro _
        exact ⟨t, by omega, cur.symm⟩
      · intro _
        rfl
    · rw [Function.update_noteq hv, stamp v, hmt]
      constructor
      · rintro ⟨s, hs, he⟩
        exact ⟨s, by omega, he⟩
      · rintro ⟨s, hs, he⟩
        rcases Nat.lt_or_ge s t with h | h
        · exact ⟨s, h, he⟩
        · exfalso
          have : s = t := by omega
          subst this
          rw [cur] at hv
          exact hv he.symm
  have hidx' : ∀ s, s < min (t + 1) (ka + 1) →
      Function.update st.visited_a_indices st.current_a
        (st.path_a.length : Int) (P^[s] a) = (s : Int) := by
    intro s hs
    rw [hmt1] at hs
    rcases Nat.lt_or_ge s t with h | h
    · have hne : P^[s] a ≠ st.current_a := by
        rw [cur]
        exact hit_nodup hka hka_min s t h hta
      rw [Function.update_noteq hne]
      exact idx s (by omega)
    · have hst : s = t := by omega
      subst hst
      rw [cur, Function.update_same, patha, listChain_length]
      congr 1
      omega
  have hold' : ∀ v, (∀ s, s < min (t + 1) (ka + 1) → P^[s] a ≠ v) →
      Function.update st.visited_a_search_ids st.current_a sid v = va0 v := by
    intro v hv
    rw [hmt1] at hv
    have hne : v ≠ st.current_a := by
      rw [cur]
      intro h
      exact hv t (by omega) h.symm
    rw [Function.update_noteq hne]
    exact old v (fun s hs => hv s (by omega))
  rw [aStep]
  by_cases hz : st.current_a = 0
  · have htka : t = ka := by
      by_contra h
      exact hka_min t (by omega) (by rw [← cur]; exact hz)
    simp only [if_pos hz]
    refine ⟨?_, ?_, ?_, hstamp', hidx', hold', trivial, trivial, trivial, trivial, trivial⟩
    · show st.current_a = P^[t + 1] a
      rw [cur, iter_eventually_zero hP0 hka t (by omega),
        iter_eventually_zero hP0 hka (t + 1) (by omega)]
    · show false = decide (t + 1 ≤ ka)
      subst htka
      simp
    · show st.path_a = listChain P a (min (t + 1) ka)
      rw [patha]
      congr 1
      omega
  · have htka : t < ka := by
      rcases Nat.lt_or_ge t ka with h | h
      · exact h
      · exfalso
        have : t = ka := by omega
        subst this
        exact hz (by rw [cur]; exact hka)
    simp only [if_neg hz]
    refine ⟨?_, ?_, ?_, hstamp', hidx', hold', trivial, trivial, trivial, trivial, trivial⟩
    · show P st.current_a = P^[t + 1] a
      rw [cur]
      exact (Function.iterate_succ_apply' P t a).symm
    · show st.a_active = decide (t + 1 ≤ ka)
      rw [act]
      simp
      omega
    · show st.path_a ++ [st.current_a] = listChain P a (min (t + 1) ka)
      rw [patha, cur]
      have h1 : min t ka = t := by omega
      have h2 : min (t + 1) ka = t + 1 := by omega
      rw [h1, h2, listChain_snoc]

theorem bStep_inv {P : Nat → Nat} {sid : Int} {b kb : Nat} {vb0 : Nat → Int}
    {t : Nat} {st : MeetSt}
    (hkb : P^[kb] b = 0) (hkb_min : ∀ i, i < kb → P^[i] b ≠ 0) (hP0 : P 0 = 0)
    (cur : st.current_b = P^[t] b)
    (act : st.b_active = decide (t ≤ kb))
    (pathb : st.path_b = listChain P b (min t kb))
    (stamp : ∀ v, st.visited_b_search_ids v = sid ↔
      ∃ s, s < min t (kb + 1) ∧ P^[s] b = v)
    (idx : ∀ s, s < min t (kb + 1) → st.visited_b_indices (P^[s] b) = (s : Int))
    (old : ∀ v, (∀ s, s < min t (kb + 1) → P^[s] b ≠ v) →
      st.visited_b_search_ids v = vb0 v)
    (htb : t ≤ kb) :
    (bStep P sid st).current_b = P^[t + 1] b ∧
    (bStep P sid st).b_active = decide (t + 1 ≤ kb) ∧
    (bStep P sid st).path_b = listChain P b (min (t + 1) kb) ∧
    (∀ v, (bStep P sid st).visited_b_search_ids v = sid ↔
      ∃ s, s < min (t + 1) (kb + 1) ∧ P^[s] b = v) ∧
    (∀ s, s < min (t + 1) (kb + 1) →
      (bStep P sid st).visited_b_indices (P^[s] b) = (s : Int)) ∧
    (∀ v, (∀ s, s < min (t + 1) (kb + 1) → P^[s] b ≠ v) →
      (bStep P sid st).visited_b_search_ids v = vb0 v) ∧
    (bStep P sid st).current_a = st.current_a ∧
    (bStep P sid st).a_active = st.a_active ∧
    (bStep P sid st).path_a = st.path_a ∧
    (bStep P sid st).visited_a_search_ids = st.visited_a_search_ids ∧
    (bStep P sid st).visited_a_indices = st.visited_a_indices := by
  have hmt : min t (kb + 1) = t := by omega
  have hmt1 : min (t + 1) (kb + 1) = t + 1 := by omega
  have hstamp' : ∀ v, Function.update st.visited_b_search_ids st.current_b sid v = sid ↔
      ∃ s, s < min (t + 1) (kb + 1) ∧ P^[s] b = v := by
    intro v
    rw [hmt1]
    by_cases hv : v = st.current_b
    · subst hv
      rw [Function.update_same]
      constructor
      · intro _
        exact ⟨t, by omega, cur.symm⟩
      · intro _
        rfl
    · rw [Function.update_noteq hv, stamp v, hmt]
      constructor
      · rintro ⟨s, hs, he⟩
        exact ⟨s, by omega, he⟩
      · rintro ⟨s, hs, he⟩
        rcases Nat.lt_or_ge s t with h | h
        · exact ⟨s, h, he⟩
        · exfalso
          have : s = t := by omega
          subst this
          rw [cur] at hv
          exact hv he.symm
  have hidx' : ∀ s, s < min (t + 1) (kb + 1) →
      Function.update st.visited_b_indices st.current_b
        (st.path_b.length : Int) (P^[s] b) = (s : Int) := by
    intro s hs
    rw [hmt1] at hs
    rcases Nat.lt_or_ge s t with h | h
    · have hne : P^[s] b ≠ st.current_b := by
        rw [cur]
        exact hit_nodup hkb hkb_min s t h htb
      rw [Function.update_noteq hne]
      exact idx s (by omega)
    · have hst : s = t := by omega
      subst hst
      rw [cur, Function.update_same, pathb, listChain_length]
      congr 1
      omega
  have hold' : ∀ v, (∀ s, s < min (t + 1) (kb + 1) → P^[s] b ≠ v) →
      Function.update st.visited_b_search_ids st.current_b sid v = vb0 v := by
    intro v hv
    rw [hmt1] at hv
    have hne : v ≠ st.current_b := by
      rw [cur]
      intro h
      exact hv t (by omega) h.symm
    rw [Function.update_noteq hne]
    exact old v (fun s hs => hv s (by omega))
  rw [bStep]
  by_cases hz : st.current_b = 0
  · have htkb : t = kb := by
      by_contra h
      exact hkb_min t (by omega) (by rw [← cur]; exact hz)
    simp only [if_pos hz]
    refine ⟨?_, ?_, ?_, hstamp', hidx', hold', trivial, trivial, trivial, trivial, trivial⟩
    · show st.current_b = P^[t + 1] b
      rw [cur, iter_eventually_zero hP0 hkb t (by omega),
        iter_eventually_zero hP0 hkb (t + 1) (by omega)]
    · show false = decide (t + 1 ≤ kb)
      subst htkb
      simp
    · show st.path_b = listChain P b (min (t + 1) kb)
      rw [pathb]
      congr 1
      omega
  · have htkb : t < kb := by
      rcases Nat.lt_or_ge t kb with h | h
      · exact h
      · exfalso
        have : t = kb := by omega
        subst this
        exact hz (by rw [cur]; exact hkb)
    simp only [if_neg hz]
    refine ⟨?_, ?_, ?_, hstamp', hidx', hold', trivial, trivial, trivial, trivial, trivial⟩
    · show P st.current_b = P^[t + 1] b
      rw [cur]
      exact (Function.iterate_succ_apply' P t b).symm
    · show st.b_active = decide (t + 1 ≤ kb)
      rw [act]
      simp
      omega
    · show st.path_b ++ [st.current_b] = listChain P b (min (t + 1) kb)
      rw [pathb, cur]
      have h1 : min t kb = t := by omega
      have h2 : min (t + 1) kb = t + 1 := by omega
      rw [h1, h2, listChain_snoc]

theorem aPhase_facts {P : Nat → Nat} {N a b ka kb i0 j0 : Nat}
    (sc : MeetScenario P N a b ka kb i0 j0)
    {sid : Int} {va0 vb0 : Nat → Int} {t : Nat} {st : MeetSt}
    (inv : WalkInv P sid a b ka kb va0 vb0 t st) :
    ∃ stA, (if st.a_active then aStep P sid st else st) = stA ∧
      (stA.current_a = P^[t + 1] a ∧
       stA.a_active = decide (t + 1 ≤ ka) ∧
       stA.path_a = listChain P a (min (t + 1) ka) ∧
       (∀ v, stA.visited_a_search_ids v = sid ↔
         ∃ s, s < min (t + 1) (ka + 1) ∧ P^[s] a = v) ∧
       (∀ s, s < min (t + 1) (ka + 1) →
         stA.visited_a_indices (P^[s] a) = (s : Int)) ∧
       (∀ v, (∀ s, s < min (t + 1) (ka + 1) → P^[s] a ≠ v) →
         stA.visited_a_search_ids v = va0 v) ∧
       stA.current_b = st.current_b ∧
       stA.b_active = st.b_active ∧
       stA.path_b = st.path_b ∧
       stA.visited_b_search_ids = st.visited_b_search_ids ∧
       stA.visited_b_indices = st.visited_b_indices) := by
  by_cases hta : t ≤ ka
  · have hact : st.a_active = true := by
      rw [inv.act_a]
      simp [hta]
    rw [if_pos hact]
    exact ⟨aStep P sid st, rfl,
      aStep_inv sc.hka sc.hka_min sc.hP0 inv.cur_a inv.act_a inv.patha
        inv.stamp_a inv.idx_a inv.old_sa hta⟩
  · have hact : ¬(st.a_active = true) := by
      rw [inv.act_a]
      simp
      omega
    rw [if_neg hact]
    have hm1 : min (t + 1) (ka + 1) = min t (ka + 1) := by omega
    have hm2 : min (t + 1) ka = min t ka := by omega
    refine ⟨st, rfl, ?_, ?_, ?_, ?_, ?_, ?_, rfl, rfl, rfl, rfl, rfl⟩
    · rw [inv.cur_a, iter_eventually_zero sc.hP0 sc.hka t (by omega),
        iter_eventually_zero sc.hP0 sc.hka (t + 1) (by omega)]
    · rw [inv.act_a]
      have h1 : decide (t ≤ ka) = false := by simp; omega
      have h2 : decide (t + 1 ≤ ka) = false := by simp; omega
      rw [h1, h2]
    · rw [inv.patha, hm2]
    · rw [hm1]; exact inv.stamp_a
    · rw [hm1]; exact inv.idx_a
    · rw [hm1]; exact inv.old_sa

theorem walk_step {P : Nat → Nat} {N a b ka kb i0 j0 : Nat}
    (sc : MeetScenario P N a b ka kb i0 j0)
    {sid : Int} {va0 vb0 : Nat → Int} {t : Nat} {st : MeetSt}
    (inv : WalkInv P sid a b ka kb va0 vb0 t st)
    (hT : t + 1 < meetT i0 j0) :
    ∃ st', meetIter P sid st = Sum.inr st' ∧
      WalkInv P sid a b ka kb va0 vb0 (t + 1) st' := by
  have hi0le := sc.hi0_le
  have hj0le := sc.hj0_le
  have hA : st.a_active = true → st.visited_b_search_ids st.current_a ≠ sid := by
    intro h hcon
    have hta : t ≤ ka := by
      rw [inv.act_a] at h
      exact of_decide_eq_true h
    rw [inv.cur_a] at hcon
    obtain ⟨s, hs, he⟩ := (inv.stamp_b _).mp hcon
    rcases Nat.lt_or_ge t i0 with hti | hti
    · exact sc.hi0_min t hti s (by omega) he
    · rcases le_or_lt i0 j0 with hij | hij
      · have htj0 : t < j0 := by
          rw [meetT, if_pos hij] at hT
          omega
        have hdiff := sc.diff_eq
        have hr : j0 + (t - i0) ≤ kb := by omega
        have halign : P^[t] a = P^[j0 + (t - i0)] b := by
          have h2 := sc.align (t - i0)
          rw [show i0 + (t - i0) = t by omega] at h2
          exact h2
        exact sc.b_nodup s (j0 + (t - i0)) (by omega) hr (he.trans halign)
      · have : t < i0 := by
          rw [meetT, if_neg (by omega)] at hT
          omega
        omega
  obtain ⟨stA, hstA, hA1, hA2, hA3, hA4, hA5, hA6, hA7, hA8, hA9, hA10, hA11⟩ :=
    aPhase_facts sc inv
  have hB : stA.b_active = true → stA.visited_a_search_ids stA.current_b ≠ sid := by
    intro h hcon
    have htb : t ≤ kb := by
      rw [hA8, inv.act_b] at h
      exact of_decide_eq_true h
    rw [hA7, inv.cur_b] at hcon
    obtain ⟨s, hs, he⟩ := (hA4 _).mp hcon
    rcases Nat.lt_or_ge t j0 with htj | htj
    · exact sc.cross_min t htj s (by omega) he
    · rcases le_or_lt i0 j0 with hij | hij
      · have : t < j0 := by
          rw [meetT, if_pos hij] at hT
          omega
        omega
      · have hti0 : t < i0 := by
          rw [meetT, if_neg (by omega)] at hT
          omega
        have hdiff := sc.diff_eq
        have hr : i0 + (t - j0) ≤ ka := by omega
        have halign : P^[t] b = P^[i0 + (t - j0)] a := by
          have h2 := sc.align (t - j0)
          rw [show j0 + (t - j0) = t by omega] at h2
          exact h2.symm
        exact sc.a_nodup s (i0 + (t - j0)) (by omega) hr (he.trans halign)
  have hBfacts : ∃ stB, (if stA.b_active then bStep P sid stA else stA) = stB ∧
      (stB.current_b = P^[t + 1] b ∧
       stB.b_active = decide (t + 1 ≤ kb) ∧
       stB.path_b = listChain P b (min (t + 1) kb) ∧
       (∀ v, stB.visited_b_search_ids v = sid ↔
         ∃ s, s < min (t + 1) (kb + 1) ∧ P^[s] b = v) ∧
       (∀ s, s < min (t + 1) (kb + 1) →
         stB.visited_b_indices (P^[s] b) = (s : Int)) ∧
       (∀ v, (∀ s, s < min (t + 1) (kb + 1) → P^[s] b ≠ v) →
         stB.visited_b_search_ids v = vb0 v) ∧
       stB.current_a = stA.current_a ∧
       stB.a_active = stA.a_active ∧
       stB.path_a = stA.path_a ∧
       stB.visited_a_search_ids = stA.visited_a_search_ids ∧
       stB.visited_a_indices = stA.visited_a_indices) := by
    by_cases htb : t ≤ kb
    · have hact : stA.b_active = true := by
        rw [hA8, inv.act_b]
        simp [htb]
      rw [if_pos hact]
      refine ⟨bStep P sid stA, rfl, ?_⟩
      apply bStep_inv sc.hkb sc.hkb_min sc.hP0 (by rw [hA7]; exact inv.cur_b)
        (by rw [hA8]; exact inv.act_b) (by rw [hA9]; exact inv.pathb)
        (by rw [hA10]; exact inv.stamp_b) (by rw [hA11]; exact inv.idx_b)
        (by rw [hA10]; exact inv.old_sb) htb
    · have hact : ¬(stA.b_active = true) := by
        rw [hA8, inv.act_b]
        simp
        omega
      rw [if_neg hact]
      have hm1 : min (t + 1) (kb + 1) = min t (kb + 1) := by omega
      have hm2 : min (t + 1) kb = min t kb := by omega
      refine ⟨stA, rfl, ?_, ?_, ?_, ?_, ?_, ?_, rfl, rfl, rfl, rfl, rfl⟩
      · rw [hA7, inv.cur_b, iter_eventually_zero sc.hP0 sc.hkb t (by omega),
          iter_eventually_zero sc.hP0 sc.hkb (t + 1) (by omega)]
      · rw [hA8, inv.act_b]
        have h1 : decide (t ≤ kb) = false := by simp; omega
        have h2 : decide (t + 1 ≤ kb) = false := by simp; omega
        rw [h1, h2]
      · rw [hA9, inv.pathb, hm2]
      · rw [hm1]
        intro v
        rw [hA10]
        exact inv.stamp_b v
      · rw [hm1]
        intro s hs
        rw [hA11]
        exact inv.idx_b s hs
      · rw [hm1]
        intro v hv
        rw [hA10]
        exact inv.old_sb v hv
  obtain ⟨stB, hstB, hB1, hB2, hB3, hB4, hB5, hB6, hB7, hB8, hB9, hB10, hB11⟩ := hBfacts
  have hX : stB.a_active = true ∨ stB.b_active = true := by
    have hone : t + 1 ≤ ka ∨ t + 1 ≤ kb := by
      have h1 := sc.hi0_le
      have h2 := sc.hj0_le
      rw [meetT] at hT
      rcases le_or_lt i0 j0 with hij | hij
      · rw [if_pos hij] at hT
        omega
      · rw [if_neg (by omega)] at hT
        omega
    rcases hone with h | h
    · left
      rw [hB8, hA2]
      simp [h]
    · right
      rw [hB2]
      simp [h]
  refine ⟨stB, meetIter_no_detect P sid st hA stA hstA.symm hB stB hstB.symm hX, ?_⟩
  exact ⟨by rw [hB7, hA1], hB1, by rw [hB8, hA2], hB2, by rw [hB9, hA3], hB3,
    by intro v; rw [hB10]; exact hA4 v, hB4,
    by intro s hs; rw [hB11]; exact hA5 s hs, hB5,
    by intro v hv; rw [hB10]; exact hA6 v hv, hB6⟩

theorem listChain_take (P : Nat → Nat) (v n m : Nat) :
    (listChain P v n).take m = listChain P v (min m n) := by
  rw [listChain, listChain, ← List.map_take, List.take_range]

theorem walk_finish {P : Nat → Nat} {N a b ka kb i0 j0 : Nat}
    (sc : MeetScenario P N a b ka kb i0 j0)
    {sid : Int} {va0 vb0 : Nat → Int} {st : MeetSt}
    (inv : WalkInv P sid a b ka kb va0 vb0 (meetT i0 j0 - 1) st) :
    ∃ st', meetIter P sid st = Sum.inl (st', MeetResult.found (P^[i0] a)
        (listChain P a i0) (listChain P b j0)) ∧
      (∀ v, st'.visited_a_search_ids v = sid ∨ st'.visited_a_search_ids v = va0 v) ∧
      (∀ v, st'.visited_b_search_ids v = sid ∨ st'.visited_b_search_ids v = vb0 v) := by
  have hi0le := sc.hi0_le
  have hj0le := sc.hj0_le
  rcases le_or_lt i0 j0 with hij | hij
  · -- the b side detects at iteration j0 + 1
    have hTt : meetT i0 j0 - 1 = j0 := by rw [meetT, if_pos hij]; omega
    rw [hTt] at inv
    have hA : st.a_active = true → st.visited_b_search_ids st.current_a ≠ sid := by
      intro h hcon
      have hta : j0 ≤ ka := by
        rw [inv.act_a] at h
        exact of_decide_eq_true h
      rw [inv.cur_a] at hcon
      obtain ⟨s, hs, he⟩ := (inv.stamp_b _).mp hcon
      rcases Nat.lt_or_ge j0 i0 with hti | hti
      · omega
      · have hdiff := sc.diff_eq
        have hr : j0 + (j0 - i0) ≤ kb := by omega
        have halign : P^[j0] a = P^[j0 + (j0 - i0)] b := by
          have h2 := sc.align (j0 - i0)
          rw [show i0 + (j0 - i0) = j0 by omega] at h2
          exact h2
        exact sc.b_nodup s (j0 + (j0 - i0)) (by omega) hr (he.trans halign)
    obtain ⟨stA, hstA, hA1, hA2, hA3, hA4, hA5, hA6, hA7, hA8, hA9, hA10, hA11⟩ :=
      aPhase_facts sc inv
    have h3 : stA.b_active = true := by
      rw [hA8, inv.act_b]
      simp [hj0le]
    have h4 : stA.visited_a_search_ids stA.current_b = sid := by
      rw [hA7, inv.cur_b]
      apply (hA4 _).mpr
      exact ⟨i0, by omega, sc.hj0.symm⟩
    refine ⟨stA, ?_, ?_, ?_⟩
    · rw [meetIter_b_detect P sid st hA stA hstA.symm h3 h4]
      have hcur : stA.current_b = P^[i0] a := by
        rw [hA7, inv.cur_b, sc.hj0]
      have hidx : stA.visited_a_indices stA.current_b = (i0 : Int) := by
        rw [hA7, inv.cur_b, sc.hj0]
        exact hA5 i0 (by omega)
      have hpb : stA.path_b = listChain P b j0 := by
        rw [hA9, inv.pathb]
        congr 1
        omega
      have hpa : trimPath stA.path_a (stA.visited_a_indices stA.current_b) =
          listChain P a i0 := by
        rw [hidx, hA3, trimPath]
        rcases Nat.lt_or_ge i0 (min (j0 + 1) ka) with h | h
        · rw [if_pos]
          · rw [Int.toNat_natCast, listChain_take]
            congr 1
            omega
          · constructor
            · omega
            · rw [Int.toNat_natCast, listChain_length]
              exact h
        · have hika : i0 = ka := by omega
          rw [if_neg]
          · congr 1
            omega
          · rw [Int.toNat_natCast, listChain_length]
            intro hcon
            omega
      rw [hpa, hpb, hcur]
    · intro v
      by_cases hv : ∃ s, s < min (j0 + 1) (ka + 1) ∧ P^[s] a = v
      · left
        exact (hA4 v).mpr hv
      · right
        push_neg at hv
        exact hA6 v (fun s hs => hv s hs)
    · intro v
      rw [hA10]
      by_cases hv : ∃ s, s < min j0 (kb + 1) ∧ P^[s] b = v
      · left
        exact (inv.stamp_b v).mpr hv
      · right
        push_neg at hv
        exact inv.old_sb v (fun s hs => hv s hs)
  · -- the a side detects at iteration i0 + 1
    have hTt : meetT i0 j0 - 1 = i0 := by rw [meetT, if_neg (by omega)]; omega
    rw [hTt] at inv
    have h1 : st.a_active = true := by
      rw [inv.act_a]
      simp [hi0le]
    have h2 : st.visited_b_search_ids st.current_a = sid := by
      rw [inv.cur_a]
      apply (inv.stamp_b _).mpr
      exact ⟨j0, by omega, sc.hj0⟩
    refine ⟨st, ?_, ?_, ?_⟩
    · rw [meetIter_a_detect P sid st h1 h2]
      have hcur : st.current_a = P^[i0] a := inv.cur_a
      have hidx : st.visited_b_indices st.current_a = (j0 : Int) := by
        rw [inv.cur_a, ← sc.hj0]
        exact inv.idx_b j0 (by omega)
      have hpa : st.path_a = listChain P a i0 := by
        rw [inv.patha]
        congr 1
        omega
      have hpb : trimPath st.path_b (st.visited_b_indices st.current_a) =
          listChain P b j0 := by
        rw [hidx, inv.pathb, trimPath]
        rcases Nat.lt_or_ge j0 (min i0 kb) with h | h
        · rw [if_pos]
          · rw [Int.toNat_natCast, listChain_take]
            congr 1
            omega
          · constructor
            · omega
            · rw [Int.toNat_natCast, listChain_length]
              exact h
        · have hjkb : j0 = kb := by omega
          rw [if_neg]
          · congr 1
            omega
          · rw [Int.toNat_natCast, listChain_length]
            intro hcon
            omega
      rw [hpb, hpa, hcur]
    · intro v
      by_cases hv : ∃ s, s < min i0 (ka + 1) ∧ P^[s] a = v
      · left
        exact (inv.stamp_a v).mpr hv
      · right
        push_neg at hv
        exact inv.old_sa v (fun s hs => hv s hs)
    · intro v
      by_cases hv : ∃ s, s < min i0 (kb + 1) ∧ P^[s] b = v
      · left
        exact (inv.stamp_b v).mpr hv
      · right
        push_neg at hv
        exact inv.old_sb v (fun s hs => hv s hs)

theorem meetLoop_spec {P : Nat → Nat} {N a b ka kb i0 j0 : Nat}
    (sc : MeetScenario P N a b ka kb i0 j0) {sid : Int} {va0 vb0 : Nat → Int} :
    ∀ fuel t st, WalkInv P sid a b ka kb va0 vb0 t st → t < meetT i0 j0 →
      meetT i0 j0 - t ≤ fuel →
    ∃ st', meetLoop P sid fuel st = (st', MeetResult.found (P^[i0] a)
        (listChain P a i0) (listChain P b j0)) ∧
      (∀ v, st'.visited_a_search_ids v = sid ∨ st'.visited_a_search_ids v = va0 v) ∧
      (∀ v, st'.visited_b_search_ids v = sid ∨ st'.visited_b_search_ids v = vb0 v) := by
  intro fuel
  induction fuel with
  | zero =>
    intro t st inv ht hfuel
    omega
  | succ fuel ih =>
    intro t st inv ht hfuel
    by_cases hlast : t + 1 = meetT i0 j0
    · have hinv' : WalkInv P sid a b ka kb va0 vb0 (meetT i0 j0 - 1) st := by
        rw [show meetT i0 j0 - 1 = t by omega]
        exact inv
      obtain ⟨st', hiter, hsa, hsb⟩ := walk_finish sc hinv'
      refine ⟨st', ?_, hsa, hsb⟩
      rw [meetLoop, hiter]
    · have hT : t + 1 < meetT i0 j0 := by omega
      obtain ⟨st1, hiter, hinv1⟩ := walk_step sc inv hT
      obtain ⟨st', hloop, hsa, hsb⟩ := ih (t + 1) st1 hinv1 hT (by omega)
      refine ⟨st', ?_, hsa, hsb⟩
      rw [meetLoop, hiter]
      exact hloop

theorem find?_first {α : Type} (p : α → Bool) :
    ∀ (l : List α) (i : Nat) (hi : i < l.length),
      p (l.get ⟨i, hi⟩) = true →
      (∀ j, j < i → ∀ (hj : j < l.length), p (l.get ⟨j, hj⟩) = false) →
      l.find? p = some (l.get ⟨i, hi⟩) := by
  intro l
  induction l with
  | nil =>
    intro i hi
    simp at hi
  | cons x xs ih =>
    intro i hi hp hmin
    match i with
    | 0 =>
      rw [List.find?_cons_of_pos]
      · rfl
      · exact hp
    | i + 1 =>
      have hx : p x = false := hmin 0 (by omega) (by simp)
      rw [List.find?_cons_of_neg _ (by rw [hx]; simp)]
      exact ih i (by simpa using hi) hp
        (fun j hj hjl => hmin (j + 1) (by omega) (by simpa using hjl))

theorem takeWhile_eq_take {α : Type} (p : α → Bool) :
    ∀ (l : List α) (i : Nat),
      (∀ j, j < i → ∀ (hj : j < l.length), p (l.get ⟨j, hj⟩) = true) →
      (∀ (hi : i < l.length), p (l.get ⟨i, hi⟩) = false) →
      l.takeWhile p = l.take i := by
  intro l
  induction l with
  | nil =>
    intro i h1 h2
    simp
  | cons x xs ih =>
    intro i h1 h2
    match i with
    | 0 =>
      have hx : p x = false := h2 (by simp)
      simp [List.takeWhile_cons, hx]
    | i + 1 =>
      have hx : p x = true := h1 0 (by omega) (by simp)
      simp only [List.takeWhile_cons, hx, if_true, List.take_succ_cons]
      congr 1
      exact ih i
        (fun j hj hjl => h1 (j + 1) (by omega) (by simpa using hjl))
        (fun hi => h2 (by simpa using hi))

theorem listChain_get (P : Nat → Nat) (v n i : Nat)
    (h : i < (listChain P v n).length) :
    (listChain P v n).get ⟨i, h⟩ = P^[i] v := by
  simp [listChain]

theorem meet_char_aux (s : MaxSpanningTree) {a b ka kb i0 j0 : Nat}
    (sc : MeetScenario s.parents s.num_nodes a b ka kb i0 j0)
    (hcha : chainList s a = listChain s.parents a ka)
    (hchb : chainList s b = listChain s.parents b kb) :
    meetNode s a b = s.parents^[i0] a ∧
    (chainList s a).takeWhile (fun x => decide (x ≠ meetNode s a b)) =
      listChain s.parents a i0 ∧
    (chainList s b).takeWhile (fun x => decide (x ≠ meetNode s a b)) =
      listChain s.parents b j0 := by
  have hi0le := sc.hi0_le
  have hj0le := sc.hj0_le
  have hbfull : chainList s b ++ [0] = listChain s.parents b (kb + 1) := by
    rw [hchb, listChain_snoc, sc.hkb]
  have hafull : chainList s a ++ [0] = listChain s.parents a (ka + 1) := by
    rw [hcha, listChain_snoc, sc.hka]
  have hmem_iff : ∀ x, x ∈ chainList s b ++ [0] ↔
      ∃ j, j < kb + 1 ∧ s.parents^[j] b = x := by
    intro x
    rw [hbfull, mem_listChain]
  have hi0mem : s.parents^[i0] a ∈ chainList s b ++ [0] :=
    (hmem_iff _).mpr ⟨j0, by omega, sc.hj0⟩
  have hi0min : ∀ i, i < i0 → s.parents^[i] a ∉ chainList s b ++ [0] := by
    intro i hi hmem
    obtain ⟨j, hj, he⟩ := (hmem_iff _).mp hmem
    exact sc.hi0_min i hi j (by omega) he
  have hmeet : meetNode s a b = s.parents^[i0] a := by
    rw [meetNode, hafull]
    have hlen : i0 < (listChain s.parents a (ka + 1)).length := by
      rw [listChain_length]
      omega
    rw [find?_first _ _ i0 hlen
      (by
        rw [listChain_get]
        simp only [decide_eq_true_eq]
        rw [← hafull] at hlen
        exact hi0mem)
      (by
        intro j hj hjl
        rw [listChain_get]
        simp only [decide_eq_false_iff_not]
        exact hi0min j hj)]
    rw [listChain_get]
    rfl
  refine ⟨hmeet, ?_, ?_⟩
  · rw [hcha]
    rw [takeWhile_eq_take _ (listChain s.parents a ka) i0
      (by
        intro j hj hjl
        rw [listChain_get]
        simp only [decide_eq_true_eq]
        intro heq
        apply hi0min j hj
        rw [heq, hmeet]
        exact hi0mem)
      (by
        intro hi
        rw [listChain_get]
        simp only [decide_eq_false_iff_not, Decidable.not_not]
        rw [hmeet])]
    rw [listChain_take]
    congr 1
    omega
  · rw [hchb]
    rw [takeWhile_eq_take _ (listChain s.parents b kb) j0
      (by
        intro j hj hjl
        rw [listChain_get]
        simp only [decide_eq_true_eq]
        rw [hmeet]
        exact sc.hj0_min j hj)
      (by
        intro hi
        rw [listChain_get]
        simp only [decide_eq_false_iff_not, Decidable.not_not]
        rw [hmeet]
        exact sc.hj0)]
    rw [listChain_take]
    congr 1
    omega

theorem scenario_and_meet (s : MaxSpanningTree) (hInv : TreeInv s) {a b : Nat}
    (ha : a < s.num_nodes) (hb : b < s.num_nodes) :
    ∃ ka kb i0 j0, MeetScenario s.parents s.num_nodes a b ka kb i0 j0 ∧
      chainList s a = listChain s.parents a ka ∧
      chainList s b = listChain s.parents b kb ∧
      meetNode s a b = s.parents^[i0] a ∧
      (chainList s a).takeWhile (fun x => decide (x ≠ meetNode s a b)) =
        listChain s.parents a i0 ∧
      (chainList s b).takeWhile (fun x => decide (x ≠ meetNode s a b)) =
        listChain s.parents b j0 := by
  have hra := hInv.reach a ha
  have hrb := hInv.reach b hb
  have hka := Nat.find_spec hra
  have hka_min : ∀ i, i < Nat.find hra → s.parents^[i] a ≠ 0 :=
    fun i hi => Nat.find_min hra hi
  have hkb := Nat.find_spec hrb
  have hkb_min : ∀ i, i < Nat.find hrb → s.parents^[i] b ≠ 0 :=
    fun i hi => Nat.find_min hrb hi
  have hkaN : Nat.find hra ≤ s.num_nodes - 1 :=
    hit_le_pred hInv.parent_lt ha hka hka_min
  have hkbN : Nat.find hrb ≤ s.num_nodes - 1 :=
    hit_le_pred hInv.parent_lt hb hkb hkb_min
  have hcha : chainList s a = listChain s.parents a (Nat.find hra) :=
    chainF_eq_listChain s.num_nodes a (Nat.find hra) hka hka_min (by omega)
  have hchb : chainList s b = listChain s.parents b (Nat.find hrb) :=
    chainF_eq_listChain s.num_nodes b (Nat.find hrb) hkb hkb_min (by omega)
  have hbfull : chainList s b ++ [0] = listChain s.parents b (Nat.find hrb + 1) := by
    rw [hchb, listChain_snoc, hkb]
  have hmem_iff : ∀ x, x ∈ chainList s b ++ [0] ↔
      ∃ j, j < Nat.find hrb + 1 ∧ s.parents^[j] b = x := by
    intro x
    rw [hbfull, mem_listChain]
  have hex : ∃ i, s.parents^[i] a ∈ chainList s b ++ [0] := by
    refine ⟨Nat.find hra, ?_⟩
    rw [hka]
    simp
  have hi0min : ∀ i, i < Nat.find hex → s.parents^[i] a ∉ chainList s b ++ [0] :=
    fun i hi => Nat.find_min hex hi
  have hi0le : Nat.find hex ≤ Nat.find hra := by
    apply Nat.find_min'
    rw [hka]
    simp
  have hexj : ∃ j, s.parents^[j] b = s.parents^[Nat.find hex] a := by
    obtain ⟨j, hj, he⟩ := (hmem_iff _).mp (Nat.find_spec hex)
    exact ⟨j, he⟩
  have hj0 := Nat.find_spec hexj
  have hj0min : ∀ j, j < Nat.find hexj →
      s.parents^[j] b ≠ s.parents^[Nat.find hex] a :=
    fun j hj => Nat.find_min hexj hj
  have hj0le : Nat.find hexj ≤ Nat.find hrb := by
    obtain ⟨j, hj, he⟩ := (hmem_iff _).mp (Nat.find_spec hex)
    calc Nat.find hexj ≤ j := Nat.find_min' hexj he
      _ ≤ Nat.find hrb := by omega
  have sc : MeetScenario s.parents s.num_nodes a b (Nat.find hra) (Nat.find hrb)
      (Nat.find hex) (Nat.find hexj) :=
    ⟨hInv.parent_zero, hInv.parent_lt, ha, hb, hka, hka_min, hkb, hkb_min, hi0le,
     (by
       intro i hi j hj heq
       exact hi0min i hi ((hmem_iff _).mpr ⟨j, by omega, heq⟩)),
     hj0, hj0min, hj0le⟩
  obtain ⟨h1, h2, h3⟩ := meet_char_aux s sc hcha hchb
  exact ⟨Nat.find hra, Nat.find hrb, Nat.find hex, Nat.find hexj, sc, hcha, hchb,
    h1, h2, h3⟩

theorem find_meeting_point_found (s : MaxSpanningTree) (hInv : TreeInv s)
    {a b : Nat} (ha : a < s.num_nodes) (hb : b < s.num_nodes) :
    ∃ s', find_meeting_point s a b =
      (s', MeetResult.found (meetNode s a b)
        ((chainList s a).takeWhile (fun x => decide (x ≠ meetNode s a b)))
        ((chainList s b).takeWhile (fun x => decide (x ≠ meetNode s a b)))) ∧
      s'.parents = s.parents ∧ s'.scores = s.scores ∧
      s'.raw_scores = s.raw_scores ∧ s'.locations = s.locations ∧
      s'.lengths = s.lengths ∧ s'.links_processed = s.links_processed ∧
      s'.links_added = s.links_added ∧ s'.links_rejected = s.links_rejected ∧
      s'.num_nodes = s.num_nodes ∧ s'.max_seen_id = s.max_seen_id ∧
      s'.search_id = s.search_id + 1 ∧
      (∀ v, s'.visited_a_search_ids v ≤ s'.search_id) ∧
      (∀ v, s'.visited_b_search_ids v ≤ s'.search_id) := by
  obtain ⟨ka, kb, i0, j0, sc, hcha, hchb, hmeet, htwa, htwb⟩ :=
    scenario_and_meet s hInv ha hb
  have hkaN := sc.ka_le
  have hkbN := sc.kb_le
  have hi0le := sc.hi0_le
  have hj0le := sc.hj0_le
  have hinv0 : WalkInv s.parents (s.search_id + 1) a b ka kb
      s.visited_a_search_ids s.visited_b_search_ids 0
      { current_a := a, current_b := b,
        a_active := true, b_active := true, path_a := [], path_b := [],
        visited_a_indices := s.visited_a_indices,
        visited_b_indices := s.visited_b_indices,
        visited_a_search_ids := s.visited_a_search_ids,
        visited_b_search_ids := s.visited_b_search_ids } := by
    refine ⟨rfl, rfl, by simp, by simp, by simp [listChain], by simp [listChain],
      ?_, ?_, ?_, ?_, fun v _ => rfl, fun v _ => rfl⟩
    · intro v
      constructor
      · intro h
        exfalso
        have h2 : s.visited_a_search_ids v = s.search_id + 1 := h
        have := hInv.sid_a v
        omega
      · rintro ⟨t, ht, _⟩
        exfalso
        omega
    · intro v
      constructor
      · intro h
        exfalso
        have h2 : s.visited_b_search_ids v = s.search_id + 1 := h
        have := hInv.sid_b v
        omega
      · rintro ⟨t, ht, _⟩
        exfalso
        omega
    · intro t ht
      exfalso
      omega
    · intro t ht
      exfalso
      omega
  have hT0 : 0 < meetT i0 j0 := by
    rw [meetT]
    split <;> omega
  have hfuel : meetT i0 j0 - 0 ≤ 2 * s.num_nodes + 2 := by
    rw [meetT]
    split <;> omega
  obtain ⟨st', hloop, hsa, hsb⟩ :=
    meetLoop_spec sc (2 * s.num_nodes + 2) 0 _ hinv0 hT0 hfuel
  refine
    ⟨{ s with
        search_id := s.search_id + 1,
        visited_a_indices := st'.visited_a_indices,
        visited_b_indices := st'.visited_b_indices,
        visited_a_search_ids := st'.visited_a_search_ids,
        visited_b_search_ids := st'.visited_b_search_ids },
      ?_, rfl, rfl, rfl, rfl, rfl, rfl, rfl, rfl, rfl, rfl, rfl, ?_, ?_⟩
  · show find_meeting_point s a b = _
    rw [find_meeting_point]
    simp only [hloop]
    rw [htwa, htwb, hmeet]
  · intro v
    show st'.visited_a_search_ids v ≤ s.search_id + 1
    rcases hsa v with h | h
    · omega
    · have := hInv.sid_a v
      rw [h]
      omega
  · intro v
    show st'.visited_b_search_ids v ≤ s.search_id + 1
    rcases hsb v with h | h
    · omega
    · have := hInv.sid_b v
      rw [h]
      omega

/-! ### Weakest-link scan lemmas -/

theorem scanWeakest_spec (scores : Nat → Int) (tag : Char) :
    ∀ (l : List Nat) (i : Nat) (acc : Int × Char × Int),
      (scanWeakest scores tag l i acc).1 ≤ acc.1 ∧
      (∀ v ∈ l, (scanWeakest scores tag l i acc).1 ≤ scores v) ∧
      (scanWeakest scores tag l i acc = acc ∨
       ∃ k, k < l.length ∧
         scanWeakest scores tag l i acc =
           (scores (l.getD k 0), tag, ((i + k : Nat) : Int)) ∧
         scores (l.getD k 0) < acc.1) := by
  intro l
  induction l with
  | nil =>
    intro i acc
    refine ⟨le_refl _, ?_, Or.inl rfl⟩
    intro v hv
    simp at hv
  | cons v rest ih =>
    intro i acc
    rcases acc with ⟨mn, wh, pos⟩
    by_cases hv : scores v < mn
    · have hstep : scanWeakest scores tag (v :: rest) i (mn, wh, pos) =
          scanWeakest scores tag rest (i + 1) (scores v, tag, (i : Int)) := by
        rw [scanWeakest, if_pos hv]
      obtain ⟨ih1, ih2, ih3⟩ := ih (i + 1) (scores v, tag, (i : Int))
      rw [hstep]
      refine ⟨le_trans ih1 (le_of_lt hv), ?_, ?_⟩
      · intro u hu
        rcases List.mem_cons.mp hu with h | h
        · subst h; exact ih1
        · exact ih2 u h
      · rcases ih3 with h | ⟨k, hk, he, hlt⟩
        · right
          refine ⟨0, by simp, ?_, ?_⟩
          · rw [h]
            simp
          · simpa using hv
        · right
          refine ⟨k + 1, by simpa using hk, ?_, ?_⟩
          · rw [he]
            have : i + (k + 1) = (i + 1) + k := by omega
            rw [this]
            rfl
          · have h2 : scores (rest.getD k 0) < scores v := hlt
            exact lt_trans (by simpa using h2) hv
    · have hstep : scanWeakest scores tag (v :: rest) i (mn, wh, pos) =
          scanWeakest scores tag rest (i + 1) (mn, wh, pos) := by
        rw [scanWeakest, if_neg hv]
      obtain ⟨ih1, ih2, ih3⟩ := ih (i + 1) (mn, wh, pos)
      rw [hstep]
      refine ⟨ih1, ?_, ?_⟩
      · intro u hu
        rcases List.mem_cons.mp hu with h | h
        · subst h
          push_neg at hv
          exact le_trans ih1 hv
        · exact ih2 u h
      · rcases ih3 with h | ⟨k, hk, he, hlt⟩
        · left; exact h
        · right
          refine ⟨k + 1, by simpa using hk, ?_, ?_⟩
          · rw [he]
            have : i + (k + 1) = (i + 1) + k := by omega
            rw [this]
            rfl
          · simpa using hlt

theorem find_weakest_spec (s : MaxSpanningTree) (pa pb : List Nat) (w : Int) :
    (find_weakest_link_in_cycle s pa pb w).1 ≤ w ∧
    (∀ v ∈ pa ++ pb, (find_weakest_link_in_cycle s pa pb w).1 ≤ s.scores v) ∧
    ((find_weakest_link_in_cycle s pa pb w).2.1 = 'n' ∧
       find_weakest_link_in_cycle s pa pb w = (w, 'n', -1) ∧
       (∀ v ∈ pa ++ pb, w ≤ s.scores v) ∨
     (find_weakest_link_in_cycle s pa pb w).2.1 = 'a' ∧
       (∃ k, k < pa.length ∧
         find_weakest_link_in_cycle s pa pb w =
           (s.scores (pa.getD k 0), 'a', (k : Int)) ∧
         s.scores (pa.getD k 0) < w) ∨
     (find_weakest_link_in_cycle s pa pb w).2.1 = 'b' ∧
       (∃ k, k < pb.length ∧
         find_weakest_link_in_cycle s pa pb w =
           (s.scores (pb.getD k 0), 'b', (k : Int)) ∧
         s.scores (pb.getD k 0) < w)) := by
  obtain ⟨h1a, h2a, h3a⟩ := scanWeakest_spec s.scores 'a' pa 0 (w, 'n', -1)
  obtain ⟨h1b, h2b, h3b⟩ :=
    scanWeakest_spec s.scores 'b' pb 0 (scanWeakest s.scores 'a' pa 0 (w, 'n', -1))
  have hfw : find_weakest_link_in_cycle s pa pb w =
      scanWeakest s.scores 'b' pb 0 (scanWeakest s.scores 'a' pa 0 (w, 'n', -1)) := rfl
  refine ⟨?_, ?_, ?_⟩
  · rw [hfw]
    exact le_trans h1b h1a
  · intro v hv
    rw [hfw]
    rcases List.mem_append.mp hv with h | h
    · exact le_trans h1b (h2a v h)
    · exact h2b v h
  · rcases h3b with hb | ⟨k, hk, he, hlt⟩
    · rcases h3a with ha | ⟨k, hk, he, hlt⟩
      · left
        rw [hfw, hb, ha]
        refine ⟨rfl, rfl, ?_⟩
        intro v hv
        rcases List.mem_append.mp hv with h | h
        · have := h2a v h
          rw [ha] at this
          exact this
        · have := h2b v h
          rw [hb, ha] at this
          exact this
      · right; left
        rw [hfw, hb, he]
        refine ⟨rfl, k, hk, ?_, ?_⟩
        · simp
        · exact hlt
    · right; right
      rw [hfw, he]
      refine ⟨rfl, k, hk, ?_, ?_⟩
      · simp
      · exact lt_of_lt_of_le hlt h1a

/-! ### Path reversal lemmas -/

theorem set_link_frame (s : MaxSpanningTree) (node parent : Nat)
    (sc rsc lo le : Int) :
    (set_link s node parent sc rsc lo le).num_nodes = s.num_nodes ∧
    (set_link s node parent sc rsc lo le).links_processed = s.links_processed ∧
    (set_link s node parent sc rsc lo le).links_added = s.links_added ∧
    (set_link s node parent sc rsc lo le).links_rejected = s.links_rejected ∧
    (set_link s node parent sc rsc lo le).search_id = s.search_id ∧
    (set_link s node parent sc rsc lo le).visited_a_search_ids =
      s.visited_a_search_ids ∧
    (set_link s node parent sc rsc lo le).visited_b_search_ids =
      s.visited_b_search_ids ∧
    s.max_seen_id ≤ (set_link s node parent sc rsc lo le).max_seen_id ∧
    node ≤ (set_link s node parent sc rsc lo le).max_seen_id ∧
    parent ≤ (set_link s node parent sc rsc lo le).max_seen_id :=
  ⟨rfl, rfl, rfl, rfl, rfl, rfl, rfl, by simp [set_link] <;> omega,
   by simp [set_link] <;> omega, by simp [set_link] <;> omega⟩

theorem set_link_attached (s : MaxSpanningTree) (node parent : Nat)
    (sc rsc lo le : Int)
    (h : ∀ v, v < s.num_nodes → 0 ≤ s.scores v → v ≤ s.max_seen_id) :
    ∀ v, v < (set_link s node parent sc rsc lo le).num_nodes →
      0 ≤ (set_link s node parent sc rsc lo le).scores v →
      v ≤ (set_link s node parent sc rsc lo le).max_seen_id := by
  intro v hv hs
  by_cases hvn : v = node
  · subst hvn
    simp [set_link] <;> omega
  · have : (set_link s node parent sc rsc lo le).scores v = s.scores v := by
      simp [set_link, Function.update_noteq hvn]
    rw [this] at hs
    have := h v hv hs
    simp [set_link] <;> omega

theorem revLoop_frame (path : List Nat) :
    ∀ p s, (revLoop path p s).num_nodes = s.num_nodes ∧
      (revLoop path p s).search_id = s.search_id ∧
      (revLoop path p s).visited_a_search_ids = s.visited_a_search_ids ∧
      (revLoop path p s).visited_b_search_ids = s.visited_b_search_ids ∧
      s.max_seen_id ≤ (revLoop path p s).max_seen_id := by
  intro p
  induction p with
  | zero => intro s; exact ⟨rfl, rfl, rfl, rfl, le_refl _⟩
  | succ p ih =>
    intro s
    obtain ⟨h1, h2, h3, h4, h5⟩ := ih (set_link s (path.getD (p + 1) 0) (path.getD p 0)
      (s.scores (path.getD p 0)) (s.raw_scores (path.getD p 0))
      (s.locations (path.getD p 0)) (s.lengths (path.getD p 0)))
    refine ⟨h1, h2, h3, h4, le_trans ?_ h5⟩
    simp [set_link] <;> omega

theorem revLoop_attached (path : List Nat) :
    ∀ p s, (∀ v, v < s.num_nodes → 0 ≤ s.scores v → v ≤ s.max_seen_id) →
      ∀ v, v < (revLoop path p s).num_nodes →
        0 ≤ (revLoop path p s).scores v → v ≤ (revLoop path p s).max_seen_id := by
  intro p
  induction p with
  | zero => intro s h; exact h
  | succ p ih =>
    intro s h
    exact ih _ (set_link_attached s _ _ _ _ _ _ h)

theorem revLoop_pointwise (path : List Nat) :
    ∀ p s, p < path.length →
      (∀ i j, i < j → j ≤ p → path.getD i 0 ≠ path.getD j 0) →
      ((∀ j, 1 ≤ j → j ≤ p →
        (revLoop path p s).parents (path.getD j 0) = path.getD (j - 1) 0 ∧
        (revLoop path p s).scores (path.getD j 0) = s.scores (path.getD (j - 1) 0)) ∧
      (∀ v, (∀ j, 1 ≤ j → j ≤ p → path.getD j 0 ≠ v) →
        (revLoop path p s).parents v = s.parents v ∧
        (revLoop path p s).scores v = s.scores v)) := by
  intro p
  induction p with
  | zero =>
    intro s hp hnd
    refine ⟨?_, ?_⟩
    · intro j hj1 hj2
      omega
    · intro v hv
      exact ⟨rfl, rfl⟩
  | succ p ih =>
    intro s hp hnd
    have hp' : p < path.length := by omega
    have hnd' : ∀ i j, i < j → j ≤ p → path.getD i 0 ≠ path.getD j 0 :=
      fun i j hij hjp => hnd i j hij (by omega)
    obtain ⟨ih1, ih2⟩ := ih (set_link s (path.getD (p + 1) 0) (path.getD p 0)
      (s.scores (path.getD p 0)) (s.raw_scores (path.getD p 0))
      (s.locations (path.getD p 0)) (s.lengths (path.getD p 0))) hp' hnd'
    simp only [revLoop]
    constructor
    · intro j hj1 hj2
      rcases Nat.lt_or_ge j (p + 1) with hlt | hge
      · obtain ⟨e1, e2⟩ := ih1 j hj1 (by omega)
        refine ⟨e1, ?_⟩
        rw [e2]
        have hne : path.getD (j - 1) 0 ≠ path.getD (p + 1) 0 :=
          hnd (j - 1) (p + 1) (by omega) (by omega)
        simp only [set_link]
        exact Function.update_noteq hne _ _
      · have hj : j = p + 1 := by omega
        subst hj
        have huntouched : ∀ j', 1 ≤ j' → j' ≤ p → path.getD j' 0 ≠ path.getD (p + 1) 0 :=
          fun j' h1 h2 => hnd j' (p + 1) (by omega) (by omega)
        obtain ⟨e1, e2⟩ := ih2 (path.getD (p + 1) 0) huntouched
        refine ⟨?_, ?_⟩
        · rw [e1]
          simp only [set_link]
          rw [Function.update_same]
          simp
        · rw [e2]
          simp only [set_link]
          rw [Function.update_same]
          simp
    · intro v hv
      obtain ⟨e1, e2⟩ := ih2 v (fun j h1 h2 => hv j h1 (by omega))
      have hne : v ≠ path.getD (p + 1) 0 := Ne.symm (hv (p + 1) (by omega) (by omega))
      refine ⟨?_, ?_⟩
      · rw [e1]
        simp only [set_link]
        exact Function.update_noteq hne _ _
      · rw [e2]
        simp only [set_link]
        exact Function.update_noteq hne _ _

/-! ### Connectivity and tree-path lemmas -/

theorem MeetScenario.symm {P : Nat → Nat} {N a b ka kb i0 j0 : Nat}
    (sc : MeetScenario P N a b ka kb i0 j0) :
    MeetScenario P N b a kb ka j0 i0 where
  hP0 := sc.hP0
  hPlt := sc.hPlt
  ha := sc.hb
  hb := sc.ha
  hka := sc.hkb
  hka_min := sc.hkb_min
  hkb := sc.hka
  hkb_min := sc.hka_min
  hi0_le := sc.hj0_le
  hi0_min := fun i hi j hj => sc.cross_min i hi j hj
  hj0 := sc.hj0.symm
  hj0_min := fun i hi => Ne.symm (sc.hi0_min i hi j0 sc.hj0_le)
  hj0_le := sc.hi0_le

theorem iter_fixed {f : Nat → Nat} {v : Nat} (h : f v = v) :
    ∀ m, f^[m] v = v := by
  intro m
  induction m with
  | zero => rfl
  | succ m ih => rw [Function.iterate_succ_apply', ih, h]

theorem listChain_getD {P : Nat → Nat} {v n j : Nat} (h : j < n) :
    (listChain P v n).getD j 0 = P^[j] v := by
  have hlen : j < (listChain P v n).length := by rw [listChain_length]; exact h
  rw [List.getD_eq_get _ _ hlen, listChain_get]

theorem edgeStep_symm {s : MaxSpanningTree} {c : Int} {u v : Nat}
    (h : edgeStep s c u v) : edgeStep s c v u :=
  ⟨h.2.1, h.1, h.2.2.symm⟩

theorem conn_symm {s : MaxSpanningTree} {c : Int} {x y : Nat}
    (h : Conn s c x y) : Conn s c y x := by
  induction h with
  | refl => exact Relation.ReflTransGen.refl
  | tail h1 h2 ih => exact Relation.ReflTransGen.head (edgeStep_symm h2) ih

theorem conn_congr {s t : MaxSpanningTree} (hp : t.parents = s.parents)
    (hs : t.scores = s.scores) (hn : t.num_nodes = s.num_nodes)
    {c : Int} {x y : Nat} (h : Conn s c x y) : Conn t c x y := by
  refine Relation.ReflTransGen.mono ?_ h
  intro u v huv
  unfold edgeStep
  rw [hp, hs, hn]
  exact huv

theorem conn_of_edge_conn {s t : MaxSpanningTree} {c : Int}
    (h : ∀ u v, edgeStep s c u v → Conn t c u v) :
    ∀ p q, Conn s c p q → Conn t c p q := by
  intro p q hc
  induction hc with
  | refl => exact Relation.ReflTransGen.refl
  | tail h1 h2 ih => exact Relation.ReflTransGen.trans ih (h _ _ h2)

theorem reach_patch (Pold Pnew : Nat → Nat) (W : Nat → Prop)
    (hW : ∀ u, W u → ∃ t, Pnew^[t] u = 0)
    (hagree : ∀ v, ¬ W v → Pnew v = Pold v) :
    ∀ m v, Pold^[m] v = 0 → ∃ t, Pnew^[t] v = 0 := by
  intro m
  induction m with
  | zero => intro v h; exact ⟨0, h⟩
  | succ m ih =>
    intro v h
    by_cases hv : W v
    · exact hW v hv
    · obtain ⟨t, ht⟩ := ih (Pold v) (by rwa [Function.iterate_succ_apply] at h)
      refine ⟨t + 1, ?_⟩
      rw [Function.iterate_succ_apply, hagree v hv]
      exact ht

theorem chainList_cons (s : MaxSpanningTree) (hInv : TreeInv s) {v : Nat}
    (hv : v < s.num_nodes) (h0 : v ≠ 0) :
    chainList s v = v :: chainList s (s.parents v) := by
  have hre : ∃ k, s.parents^[k] v = 0 := hInv.reach v hv
  obtain ⟨m, hm0, hmin⟩ :
      ∃ m, s.parents^[m] v = 0 ∧ ∀ i, i < m → s.parents^[i] v ≠ 0 :=
    ⟨Nat.find hre, Nat.find_spec hre, fun i hi => Nat.find_min hre hi⟩
  cases m with
  | zero => exact absurd hm0 h0
  | succ m =>
    have hbound := hit_le_pred hInv.parent_lt hv hm0 hmin
    have h1 : chainF s.parents s.num_nodes v = listChain s.parents v (m + 1) :=
      chainF_eq_listChain _ _ _ hm0 hmin (by omega)
    have hm' : s.parents^[m] (s.parents v) = 0 := by
      rwa [Function.iterate_succ_apply] at hm0
    have hmin' : ∀ i, i < m → s.parents^[i] (s.parents v) ≠ 0 := by
      intro i hi
      have h2 := hmin (i + 1) (by omega)
      rwa [Function.iterate_succ_apply] at h2
    have h2 : chainF s.parents s.num_nodes (s.parents v) =
        listChain s.parents (s.parents v) m :=
      chainF_eq_listChain _ _ _ hm' hmin' (by omega)
    show chainF s.parents s.num_nodes v =
      v :: chainF s.parents s.num_nodes (s.parents v)
    rw [h1, h2, listChain_succ_head]

theorem treePath_congr {s t : MaxSpanningTree} (hp : t.parents = s.parents)
    (hn : t.num_nodes = s.num_nodes) (a b : Nat) :
    treePath t a b = treePath s a b := by
  simp only [treePath, meetNode, chainList, hp, hn]

theorem conn_chain (s : MaxSpanningTree) (c : Int) {x : Nat}
    (hx : x < s.num_nodes)
    (hlt : ∀ v, v < s.num_nodes → s.parents v < s.num_nodes) :
    ∀ n, (∀ i, i < n → s.parents^[i] x ≠ 0 ∧ c ≤ s.scores (s.parents^[i] x)) →
      Conn s c x (s.parents^[n] x) := by
  intro n
  induction n with
  | zero => intro h; exact Relation.ReflTransGen.refl
  | succ n ih =>
    intro h
    refine Relation.ReflTransGen.tail (ih fun i hi => h i (by omega)) ?_
    obtain ⟨h0, hc⟩ := h n (by omega)
    exact ⟨iter_lt hlt hx n, iter_lt hlt hx (n + 1),
      Or.inl ⟨h0, (Function.iterate_succ_apply' _ _ _).symm, hc⟩⟩

theorem treePath_ge_imp_conn (s : MaxSpanningTree) (hInv : TreeInv s)
    {x y : Nat} (hx : x < s.num_nodes) (hy : y < s.num_nodes) {c : Int}
    (h : ∀ v ∈ treePath s x y, c ≤ s.scores v) : Conn s c x y := by
  obtain ⟨ka, kb, i0, j0, sc, hcha, hchb, hmeet, htwa, htwb⟩ :=
    scenario_and_meet s hInv hx hy
  rw [treePath, htwa, htwb] at h
  have hca : Conn s c x (s.parents^[i0] x) := by
    refine conn_chain s c hx hInv.parent_lt i0 ?_
    intro i hi
    refine ⟨sc.hka_min i (by have := sc.hi0_le; omega), h _ ?_⟩
    exact List.mem_append_left _ (mem_listChain.mpr ⟨i, hi, rfl⟩)
  have hcb : Conn s c y (s.parents^[j0] y) := by
    refine conn_chain s c hy hInv.parent_lt j0 ?_
    intro j hj
    refine ⟨sc.hkb_min j (by have := sc.hj0_le; omega), h _ ?_⟩
    exact List.mem_append_right _ (mem_listChain.mpr ⟨j, hj, rfl⟩)
  rw [sc.hj0] at hcb
  exact Relation.ReflTransGen.trans hca (conn_symm hcb)

theorem conn_symdiff (s : MaxSpanningTree) (hInv : TreeInv s) {c : Int}
    {x y : Nat} (h : Conn s c x y) :
    ∀ v, (v ∈ chainList s x ∧ v ∉ chainList s y) ∨
      (v ∈ chainList s y ∧ v ∉ chainList s x) → c ≤ s.scores v := by
  induction h with
  | refl =>
    intro v hv
    rcases hv with ⟨h1, h2⟩ | ⟨h1, h2⟩ <;> exact absurd h1 h2
  | @tail m z h1 h2 ih =>
    intro v hv
    obtain ⟨hmN, hzN, hor⟩ := h2
    rcases hor with ⟨hm0, hpm, hcm⟩ | ⟨hz0, hpz, hcz⟩
    · have hchm : chainList s m = m :: chainList s z := by
        rw [← hpm]
        exact chainList_cons s hInv hmN hm0
      rcases hv with ⟨h1', h2'⟩ | ⟨h1', h2'⟩
      · by_cases hvm : v = m
        · subst hvm
          exact hcm
        · refine ih v (Or.inl ⟨h1', ?_⟩)
          rw [hchm]
          intro hmem
          rcases List.mem_cons.mp hmem with h3 | h3
          · exact hvm h3
          · exact h2' h3
      · refine ih v (Or.inr ⟨?_, h2'⟩)
        rw [hchm]
        exact List.mem_cons_of_mem _ h1'
    · have hchz : chainList s z = z :: chainList s m := by
        rw [← hpz]
        exact chainList_cons s hInv hzN hz0
      rcases hv with ⟨h1', h2'⟩ | ⟨h1', h2'⟩
      · refine ih v (Or.inl ⟨h1', ?_⟩)
        intro hmem
        apply h2'
        rw [hchz]
        exact List.mem_cons_of_mem _ hmem
      · rw [hchz] at h1'
        rcases List.mem_cons.mp h1' with h3 | h3
        · subst h3
          exact hcz
        · exact ih v (Or.inr ⟨h3, h2'⟩)

theorem conn_imp_treePath_ge (s : MaxSpanningTree) (hInv : TreeInv s)
    {x y : Nat} (hx : x < s.num_nodes) (hy : y < s.num_nodes) {c : Int}
    (h : Conn s c x y) : ∀ v ∈ treePath s x y, c ≤ s.scores v := by
  obtain ⟨ka, kb, i0, j0, sc, hcha, hchb, hmeet, htwa, htwb⟩ :=
    scenario_and_meet s hInv hx hy
  intro v hv
  rw [treePath, htwa, htwb] at hv
  rcases List.mem_append.mp hv with hva | hvb
  · obtain ⟨i, hi, hiv⟩ := mem_listChain.mp hva
    refine conn_symdiff s hInv h v (Or.inl ⟨?_, ?_⟩)
    · rw [hcha]
      exact mem_listChain.mpr ⟨i, by have := sc.hi0_le; omega, hiv⟩
    · rw [hchb]
      intro hmem
      obtain ⟨j, hj, hjv⟩ := mem_listChain.mp hmem
      exact sc.hi0_min i hi j (by omega) (hjv.trans hiv.symm)
  · obtain ⟨j, hj, hjv⟩ := mem_listChain.mp hvb
    refine conn_symdiff s hInv h v (Or.inr ⟨?_, ?_⟩)
    · rw [hchb]
      exact mem_listChain.mpr ⟨j, by have := sc.hj0_le; omega, hjv⟩
    · rw [hcha]
      intro hmem
      obtain ⟨i, hi, hiv⟩ := mem_listChain.mp hmem
      exact sc.cross_min j hj i (by omega) (hiv.trans hjv.symm)

/-! ### The accepting branch of add_link: pointwise description -/

theorem accept_transform (s1 : MaxSpanningTree) (x y : Nat) (w rsc loc ln : Int)
    (px : List Nat) (k kx ky i0 j0 : Nat)
    (ctx : AcceptCtx s1 x y w px k kx ky i0 j0) :
    (acceptState s1 x y w rsc loc ln px k).parents x = y ∧
    (acceptState s1 x y w rsc loc ln px k).scores x = w ∧
    (∀ j, 1 ≤ j → j ≤ k →
      (acceptState s1 x y w rsc loc ln px k).parents (s1.parents^[j] x) =
        s1.parents^[j - 1] x ∧
      (acceptState s1 x y w rsc loc ln px k).scores (s1.parents^[j] x) =
        s1.scores (s1.parents^[j - 1] x)) ∧
    (∀ v, (∀ j, j ≤ k → s1.parents^[j] x ≠ v) →
      (acceptState s1 x y w rsc loc ln px k).parents v = s1.parents v ∧
      (acceptState s1 x y w rsc loc ln px k).scores v = s1.scores v) := by
  have hi0kx : i0 ≤ kx := ctx.sc.hi0_le
  have hlen : px.length = i0 := by rw [ctx.hpx, listChain_length]
  have hgd : ∀ j, j ≤ k → px.getD j 0 = s1.parents^[j] x := by
    intro j hj
    rw [ctx.hpx]
    exact listChain_getD (lt_of_le_of_lt hj ctx.hk)
  have hklen : k < px.length := by rw [hlen]; exact ctx.hk
  have hkk : k < i0 := ctx.hk
  have hnd : ∀ i j, i < j → j ≤ k → px.getD i 0 ≠ px.getD j 0 := by
    intro i j hij hj
    rw [hgd i (by omega), hgd j hj]
    exact ctx.sc.a_nodup i j hij (by omega)
  obtain ⟨rl1, rl2⟩ := revLoop_pointwise px k s1 hklen hnd
  have hx0 : px.getD 0 0 = x := by
    rw [hgd 0 (Nat.zero_le k)]
    exact Function.iterate_zero_apply _ _
  have hA : acceptState s1 x y w rsc loc ln px k =
      set_link (set_link (revLoop px k s1) x x (-1) (-1) (-1) (-1))
        x y w rsc loc ln := by
    rw [acceptState, reverse_path, hx0]
  refine ⟨?_, ?_, ?_, ?_⟩
  · rw [hA]
    simp only [set_link]
    rw [Function.update_same]
  · rw [hA]
    simp only [set_link]
    rw [Function.update_same]
  · intro j hj1 hj2
    have hne : s1.parents^[j] x ≠ x := by
      intro he
      exact ctx.sc.a_nodup 0 j hj1 (by omega) he.symm
    obtain ⟨e1, e2⟩ := rl1 j hj1 hj2
    rw [hgd j hj2, hgd (j - 1) (by omega)] at e1 e2
    constructor
    · rw [hA]
      simp only [set_link]
      rw [Function.update_noteq hne, Function.update_noteq hne]
      exact e1
    · rw [hA]
      simp only [set_link]
      rw [Function.update_noteq hne, Function.update_noteq hne]
      exact e2
  · intro v hv
    have hne : v ≠ x := by
      intro he
      exact hv 0 (Nat.zero_le k) (by rw [he]; exact Function.iterate_zero_apply _ _)
    obtain ⟨e1, e2⟩ := rl2 v (fun j h1 h2 => by rw [hgd j h2]; exact hv j h2)
    constructor
    · rw [hA]
      simp only [set_link]
      rw [Function.update_noteq hne, Function.update_noteq hne]
      exact e1
    · rw [hA]
      simp only [set_link]
      rw [Function.update_noteq hne, Function.update_noteq hne]
      exact e2

theorem accept_frames (s1 : MaxSpanningTree) (x y : Nat) (w rsc loc ln : Int)
    (px : List Nat) (k : Nat) :
    (acceptState s1 x y w rsc loc ln px k).num_nodes = s1.num_nodes ∧
    (acceptState s1 x y w rsc loc ln px k).links_processed =
      s1.links_processed ∧
    (acceptState s1 x y w rsc loc ln px k).links_added = s1.links_added ∧
    (acceptState s1 x y w rsc loc ln px k).links_rejected =
      s1.links_rejected ∧
    (acceptState s1 x y w rsc loc ln px k).search_id = s1.search_id ∧
    (acceptState s1 x y w rsc loc ln px k).visited_a_search_ids =
      s1.visited_a_search_ids ∧
    (acceptState s1 x y w rsc loc ln px k).visited_b_search_ids =
      s1.visited_b_search_ids ∧
    s1.max_seen_id ≤ (acceptState s1 x y w rsc loc ln px k).max_seen_id ∧
    x ≤ (acceptState s1 x y w rsc loc ln px k).max_seen_id ∧
    y ≤ (acceptState s1 x y w rsc loc ln px k).max_seen_id := by
  obtain ⟨r1, r2, r3, r4, r5⟩ := revLoop_frame px k s1
  obtain ⟨c1, c2, c3⟩ := revLoop_counters px k s1
  obtain ⟨a1, a2, a3, a4, a5, a6, a7, a8, a9, a10⟩ :=
    set_link_frame (revLoop px k s1) (px.getD 0 0) (px.getD 0 0)
      (-1) (-1) (-1) (-1)
  obtain ⟨b1, b2, b3, b4, b5, b6, b7, b8, b9, b10⟩ :=
    set_link_frame
      (set_link (revLoop px k s1) (px.getD 0 0) (px.getD 0 0) (-1) (-1) (-1) (-1))
      x y w rsc loc ln
  exact ⟨b1.trans (a1.trans r1), b2.trans (a2.trans c1), b3.trans (a3.trans c2),
    b4.trans (a4.trans c3), b5.trans (a5.trans r2), b6.trans (a6.trans r3),
    b7.trans (a7.trans r4), le_trans r5 (le_trans a8 b8), b9, b10⟩

theorem accept_conn (s1 : MaxSpanningTree) (x y : Nat) (w rsc loc ln : Int)
    (px : List Nat) (k kx ky i0 j0 : Nat)
    (ctx : AcceptCtx s1 x y w px k kx ky i0 j0) :
    (∀ c u v, edgeStep s1 c u v →
      Conn (acceptState s1 x y w rsc loc ln px k) c u v) ∧
    Conn (acceptState s1 x y w rsc loc ln px k) w x y := by
  obtain ⟨t1p, t1s, t2, t3⟩ :=
    accept_transform s1 x y w rsc loc ln px k kx ky i0 j0 ctx
  obtain ⟨f1, f2, f3, f4, f5, f6, f7, f8, f9, f10⟩ :=
    accept_frames s1 x y w rsc loc ln px k
  set s3 := acceptState s1 x y w rsc loc ln px k with hs3
  have hi0kx := ctx.sc.hi0_le
  have hj0ky := ctx.sc.hj0_le
  have hkk := ctx.hk
  have hxN : x < s1.num_nodes := ctx.sc.ha
  have hyN : y < s1.num_nodes := ctx.sc.hb
  have hx0 : x ≠ 0 := by
    have h := ctx.sc.hka_min 0 (by omega)
    simpa using h
  have hma : ∀ i, i < i0 →
      s1.scores (s1.parents^[k] x) ≤ s1.scores (s1.parents^[i] x) :=
    fun i hi => ctx.hcyc _ (List.mem_append_left _ (mem_listChain.mpr ⟨i, hi, rfl⟩))
  have hmb : ∀ j, j < j0 →
      s1.scores (s1.parents^[k] x) ≤ s1.scores (s1.parents^[j] y) :=
    fun j hj => ctx.hcyc _ (List.mem_append_right _ (mem_listChain.mpr ⟨j, hj, rfl⟩))
  have hyun : ∀ t, t ≤ ky → ∀ j, j ≤ k →
      s1.parents^[j] x ≠ s1.parents^[t] y := by
    intro t ht j hj
    exact Ne.symm (ctx.sc.hi0_min j (by omega) t ht)
  constructor
  · intro c u v huv
    suffices hmain : ∀ u v, u < s1.num_nodes → v < s1.num_nodes → u ≠ 0 →
        s1.parents u = v → c ≤ s1.scores u → Conn s3 c u v by
      obtain ⟨h1, h2, hor⟩ := huv
      rcases hor with ⟨ha1, ha2, ha3⟩ | ⟨hb1, hb2, hb3⟩
      · exact hmain u v h1 h2 ha1 ha2 ha3
      · exact conn_symm (hmain v u h2 h1 hb1 hb2 hb3)
    intro u v huN hvN hu0 hpu hcu
    by_cases hW : ∃ j, j ≤ k ∧ s1.parents^[j] x = u
    · obtain ⟨j, hj, hju⟩ := hW
      have hv_eq : v = s1.parents^[j + 1] x := by
        rw [Function.iterate_succ_apply', hju, hpu]
      rcases Nat.lt_or_ge j k with hjk | hjk
      · obtain ⟨e1, e2⟩ := t2 (j + 1) (by omega) (by omega)
        refine Relation.ReflTransGen.single
          ⟨by rw [f1]; exact huN, by rw [f1]; exact hvN, Or.inr ⟨?_, ?_, ?_⟩⟩
        · rw [hv_eq]
          exact ctx.sc.hka_min (j + 1) (by omega)
        · rw [hv_eq, e1]
          simp only [Nat.add_sub_cancel]
          exact hju
        · rw [hv_eq, e2]
          simp only [Nat.add_sub_cancel]
          rw [hju]
          exact hcu
      · have hje : j = k := le_antisymm hj hjk
        subst hje
        have hcm : c ≤ s1.scores (s1.parents^[j] x) := by
          rw [hju]
          exact hcu
        have hdesc : ∀ j2, j2 ≤ j → Conn s3 c (s1.parents^[j2] x) x := by
          intro j2
          induction j2 with
          | zero => intro _; exact Relation.ReflTransGen.refl
          | succ j2 ih =>
            intro hj2
            obtain ⟨e1, e2⟩ := t2 (j2 + 1) (by omega) hj2
            have hstep : edgeStep s3 c (s1.parents^[j2 + 1] x)
                (s1.parents^[j2] x) := by
              refine ⟨?_, ?_, Or.inl ⟨?_, ?_, ?_⟩⟩
              · rw [f1]; exact iter_lt ctx.hInv.parent_lt hxN _
              · rw [f1]; exact iter_lt ctx.hInv.parent_lt hxN _
              · exact ctx.sc.hka_min (j2 + 1) (by omega)
              · rw [e1]
                simp only [Nat.add_sub_cancel]
              · rw [e2]
                simp only [Nat.add_sub_cancel]
                exact le_trans hcm (hma j2 (by omega))
            exact Relation.ReflTransGen.head hstep (ih (by omega))
        have hxy : Conn s3 c x y := by
          refine Relation.ReflTransGen.single
            ⟨by rw [f1]; exact hxN, by rw [f1]; exact hyN,
              Or.inl ⟨hx0, t1p, ?_⟩⟩
          rw [t1s]
          exact le_trans hcm (le_of_lt ctx.hmin_lt)
        have hascy : ∀ t, t ≤ j0 → Conn s3 c y (s1.parents^[t] y) := by
          intro t
          induction t with
          | zero => intro _; exact Relation.ReflTransGen.refl
          | succ t ih =>
            intro ht
            obtain ⟨g1, g2⟩ := t3 _ (hyun t (by omega))
            have hstep : edgeStep s3 c (s1.parents^[t] y)
                (s1.parents^[t + 1] y) := by
              refine ⟨?_, ?_, Or.inl ⟨?_, ?_, ?_⟩⟩
              · rw [f1]; exact iter_lt ctx.hInv.parent_lt hyN _
              · rw [f1]; exact iter_lt ctx.hInv.parent_lt hyN _
              · exact ctx.sc.hkb_min t (by omega)
              · rw [g1]
                exact (Function.iterate_succ_apply' _ _ _).symm
              · rw [g2]
                exact le_trans hcm (hmb t (by omega))
            exact Relation.ReflTransGen.tail (ih (by omega)) hstep
        have hascx : ∀ d, j + 1 + d ≤ i0 →
            Conn s3 c (s1.parents^[j + 1] x) (s1.parents^[j + 1 + d] x) := by
          intro d
          induction d with
          | zero => intro _; exact Relation.ReflTransGen.refl
          | succ d ih =>
            intro hd
            have hun : ∀ j2, j2 ≤ j → s1.parents^[j2] x ≠
                s1.parents^[j + 1 + d] x := by
              intro j2 hj2
              exact ctx.sc.a_nodup j2 (j + 1 + d) (by omega) (by omega)
            obtain ⟨g1, g2⟩ := t3 _ hun
            have hstep : edgeStep s3 c (s1.parents^[j + 1 + d] x)
                (s1.parents^[j + 1 + (d + 1)] x) := by
              refine ⟨?_, ?_, Or.inl ⟨?_, ?_, ?_⟩⟩
              · rw [f1]; exact iter_lt ctx.hInv.parent_lt hxN _
              · rw [f1]; exact iter_lt ctx.hInv.parent_lt hxN _
              · exact ctx.sc.hka_min (j + 1 + d) (by omega)
              · rw [g1]
                have h5 : j + 1 + (d + 1) = (j + 1 + d) + 1 := by omega
                rw [h5]
                exact (Function.iterate_succ_apply' _ _ _).symm
              · rw [g2]
                exact le_trans hcm (hma (j + 1 + d) (by omega))
            exact Relation.ReflTransGen.tail (ih (by omega)) hstep
        have hvmeet : Conn s3 c v (s1.parents^[i0] x) := by
          rw [hv_eq]
          have h2 := hascx (i0 - (j + 1)) (by omega)
          have h3 : j + 1 + (i0 - (j + 1)) = i0 := by omega
          rw [h3] at h2
          exact h2
        have humeet : Conn s3 c u (s1.parents^[i0] x) := by
          have h4 := hdesc j le_rfl
          rw [hju] at h4
          refine Relation.ReflTransGen.trans h4
            (Relation.ReflTransGen.trans hxy ?_)
          have h5 := hascy j0 le_rfl
          rw [ctx.sc.hj0] at h5
          exact h5
        exact Relation.ReflTransGen.trans humeet (conn_symm hvmeet)
    · push_neg at hW
      obtain ⟨g1, g2⟩ := t3 u hW
      refine Relation.ReflTransGen.single
        ⟨by rw [f1]; exact huN, by rw [f1]; exact hvN,
          Or.inl ⟨hu0, ?_, ?_⟩⟩
      · rw [g1]
        exact hpu
      · rw [g2]
        exact hcu
  · refine Relation.ReflTransGen.single
      ⟨by rw [f1]; exact hxN, by rw [f1]; exact hyN,
        Or.inl ⟨hx0, t1p, ?_⟩⟩
    rw [t1s]

theorem accept_treeInv (s1 : MaxSpanningTree) (x y : Nat) (w rsc loc ln : Int)
    (px : List Nat) (k kx ky i0 j0 : Nat)
    (ctx : AcceptCtx s1 x y w px k kx ky i0 j0) :
    TreeInv (acceptState s1 x y w rsc loc ln px k) := by
  obtain ⟨t1p, t1s, t2, t3⟩ :=
    accept_transform s1 x y w rsc loc ln px k kx ky i0 j0 ctx
  obtain ⟨f1, f2, f3, f4, f5, f6, f7, f8, f9, f10⟩ :=
    accept_frames s1 x y w rsc loc ln px k
  set s3 := acceptState s1 x y w rsc loc ln px k with hs3
  have hi0kx := ctx.sc.hi0_le
  have hj0ky := ctx.sc.hj0_le
  have hkk := ctx.hk
  have hxN : x < s1.num_nodes := ctx.sc.ha
  have hyN : y < s1.num_nodes := ctx.sc.hb
  have hm1 : (-1 : Int) ≤ s1.scores (s1.parents^[k] x) := ctx.hInv.score_lb _
  have hw0 : (0 : Int) ≤ w := by
    have := ctx.hmin_lt
    omega
  have hdich : ∀ v : Nat, (∃ j, j ≤ k ∧ s1.parents^[j] x = v) ∨
      (∀ j, j ≤ k → s1.parents^[j] x ≠ v) := by
    intro v
    by_cases h : ∃ j, j ≤ k ∧ s1.parents^[j] x = v
    · exact Or.inl h
    · right
      push_neg at h
      exact h
  have hval_msi : ∀ j, 1 ≤ j → j ≤ k →
      s1.parents^[j] x ≤ s1.max_seen_id := by
    intro j h1 h2
    have hppar : s1.parents (s1.parents^[j - 1] x) = s1.parents^[j] x := by
      have h4 := (Function.iterate_succ_apply' s1.parents (j - 1) x).symm
      have h5 : (j - 1).succ = j := by omega
      rwa [h5] at h4
    have hpne : s1.parents (s1.parents^[j - 1] x) ≠ 0 := by
      rw [hppar]
      exact ctx.sc.hka_min j (by omega)
    have h3 := (ctx.hInv.parent_seen _ hpne).2
    rw [hppar] at h3
    exact h3
  refine ⟨?_, ?_, ?_, ?_, ?_, ?_, ?_, ?_, ?_, ?_⟩
  · obtain ⟨g1, g2⟩ := t3 0 (fun j hj => ctx.sc.hka_min j (by omega))
    rw [g1]
    exact ctx.hInv.parent_zero
  · obtain ⟨g1, g2⟩ := t3 0 (fun j hj => ctx.sc.hka_min j (by omega))
    rw [g2]
    exact ctx.hInv.score_zero
  · intro v hv
    rw [f1] at hv ⊢
    rcases hdich v with ⟨j, hj, hjv⟩ | hun
    · rcases Nat.eq_zero_or_pos j with hj0 | hjpos
      · subst hj0
        have hxv : x = v := by simpa using hjv
        rw [← hxv, t1p]
        exact hyN
      · obtain ⟨e1, e2⟩ := t2 j hjpos hj
        rw [← hjv, e1]
        exact iter_lt ctx.hInv.parent_lt hxN _
    · rw [(t3 v hun).1]
      exact ctx.hInv.parent_lt v hv
  · intro v hv
    rw [f1] at hv
    have hyun : ∀ t, t ≤ ky → ∀ j, j ≤ k →
        s1.parents^[j] x ≠ s1.parents^[t] y := by
      intro t ht j hj
      exact Ne.symm (ctx.sc.hi0_min j (by omega) t ht)
    have hyiter : ∀ t, t ≤ ky → s3.parents^[t] y = s1.parents^[t] y := by
      intro t
      induction t with
      | zero => intro _; rfl
      | succ t ih =>
        intro ht
        rw [Function.iterate_succ_apply', Function.iterate_succ_apply',
          ih (by omega)]
        exact (t3 _ (hyun t (by omega))).1
    have hreach_x : s3.parents^[ky + 1] x = 0 := by
      rw [Function.iterate_succ_apply, t1p, hyiter ky le_rfl]
      exact ctx.sc.hkb
    have hdesc2 : ∀ j, j ≤ k → s3.parents^[j] (s1.parents^[j] x) = x := by
      intro j
      induction j with
      | zero => intro _; rfl
      | succ j ih =>
        intro hj
        rw [Function.iterate_succ_apply, (t2 (j + 1) (by omega) hj).1]
        simp only [Nat.add_sub_cancel]
        exact ih (by omega)
    have hWreach : ∀ u, (∃ j, j ≤ k ∧ s1.parents^[j] x = u) →
        ∃ t, s3.parents^[t] u = 0 := by
      rintro u ⟨j, hj, hju⟩
      refine ⟨(ky + 1) + j, ?_⟩
      rw [← hju, Function.iterate_add_apply, hdesc2 j hj]
      exact hreach_x
    have hagree : ∀ v2, ¬(∃ j, j ≤ k ∧ s1.parents^[j] x = v2) →
        s3.parents v2 = s1.parents v2 := by
      intro v2 h
      push_neg at h
      exact (t3 v2 h).1
    obtain ⟨m, hm⟩ := ctx.hInv.reach v hv
    exact reach_patch s1.parents s3.parents _ hWreach hagree m v hm
  · intro v
    rcases hdich v with ⟨j, hj, hjv⟩ | hun
    · rcases Nat.eq_zero_or_pos j with hj0 | hjpos
      · subst hj0
        have hxv : x = v := by simpa using hjv
        rw [← hxv, t1s]
        omega
      · obtain ⟨e1, e2⟩ := t2 j hjpos hj
        rw [← hjv, e2]
        exact ctx.hInv.score_lb _
    · rw [(t3 v hun).2]
      exact ctx.hInv.score_lb v
  · intro v hv hs
    rcases hdich v with ⟨j, hj, hjv⟩ | hun
    · rcases Nat.eq_zero_or_pos j with hj0 | hjpos
      · subst hj0
        have hxv : x = v := by simpa using hjv
        rw [← hxv]
        exact f9
      · refine le_trans ?_ f8
        rw [← hjv]
        exact hval_msi j hjpos hj
    · rw [f1] at hv
      rw [(t3 v hun).2] at hs
      exact le_trans (ctx.hInv.attached_seen v hv hs) f8
  · intro u hu0 hup
    rcases hdich u with ⟨j, hj, hju⟩ | hun
    · rcases Nat.eq_zero_or_pos j with hj0 | hjpos
      · subst hj0
        have hxu : x = u := by simpa using hju
        rw [← hxu, t1s]
        exact hw0
      · obtain ⟨e1, e2⟩ := t2 j hjpos hj
        rw [← hju, e2]
        refine ctx.hInv.score_pos_of_parent _ ?_ ?_
        · exact ctx.sc.hka_min (j - 1) (by omega)
        · have hppar : s1.parents (s1.parents^[j - 1] x) =
              s1.parents^[j] x := by
            have h4 := (Function.iterate_succ_apply' s1.parents (j - 1) x).symm
            have h5 : (j - 1).succ = j := by omega
            rwa [h5] at h4
          rw [hppar]
          exact ctx.sc.hka_min j (by omega)
    · obtain ⟨g1, g2⟩ := t3 u hun
      rw [g2]
      rw [g1] at hup
      exact ctx.hInv.score_pos_of_parent u hu0 hup
  · intro u hup
    rcases hdich u with ⟨j, hj, hju⟩ | hun
    · rcases Nat.eq_zero_or_pos j with hj0 | hjpos
      · subst hj0
        have hxu : x = u := by simpa using hju
        rw [← hxu, t1p]
        exact ⟨f9, f10⟩
      · obtain ⟨e1, e2⟩ := t2 j hjpos hj
        rw [← hju, e1]
        refine ⟨le_trans (hval_msi j hjpos hj) f8, ?_⟩
        rcases Nat.eq_zero_or_pos (j - 1) with hj1 | hj1
        · rw [hj1]
          simpa using f9
        · exact le_trans (hval_msi (j - 1) hj1 (by omega)) f8
    · obtain ⟨g1, g2⟩ := t3 u hun
      rw [g1]
      rw [g1] at hup
      have h3 := ctx.hInv.parent_seen u hup
      exact ⟨le_trans h3.1 f8, le_trans h3.2 f8⟩
  · intro v
    rw [f6, f5]
    exact ctx.hInv.sid_a v
  · intro v
    rw [f7, f5]
    exact ctx.hInv.sid_b v

/-! ### Per-call case analysis of add_link -/

theorem init_TreeInv (n : Nat) : TreeInv (MaxSpanningTree.init n) := by
  refine ⟨rfl, rfl, ?_, ?_, ?_, ?_, ?_, ?_, ?_, ?_⟩
  · intro v hv
    have hv' : v < n := hv
    show (0 : Nat) < n
    omega
  · intro v hv
    exact ⟨1, rfl⟩
  · intro v
    exact le_of_eq rfl
  · intro v hv h
    have h' : (0 : Int) ≤ -1 := h
    omega
  · intro u hu0 hup
    exact absurd rfl hup
  · intro u hup
    exact absurd rfl hup
  · intro v
    exact le_of_eq rfl
  · intro v
    exact le_of_eq rfl

theorem add_link_cases (s : MaxSpanningTree) (hI : TreeInv s) {a b : Nat}
    (ha : a < s.num_nodes) (hb : b < s.num_nodes) (hab : a ≠ b)
    (w rsc loc ln : Int) :
    TreeInv (add_link s a b w rsc loc ln).1 ∧
    (add_link s a b w rsc loc ln).1.num_nodes = s.num_nodes ∧
    (add_link s a b w rsc loc ln).1.links_processed = s.links_processed + 1 ∧
    (∀ c p q, Conn s c p q → Conn (add_link s a b w rsc loc ln).1 c p q) ∧
    (∀ v ∈ treePath (add_link s a b w rsc loc ln).1 a b,
      w ≤ (add_link s a b w rsc loc ln).1.scores v) ∧
    (((add_link s a b w rsc loc ln).2 = false ∧
        (add_link s a b w rsc loc ln).1.links_added = s.links_added ∧
        (add_link s a b w rsc loc ln).1.links_rejected =
          s.links_rejected + 1 ∧
        (∀ v ∈ treePath s a b, w ≤ s.scores v)) ∨
      ((add_link s a b w rsc loc ln).2 = true ∧
        (add_link s a b w rsc loc ln).1.links_added = s.links_added + 1 ∧
        (add_link s a b w rsc loc ln).1.links_rejected = s.links_rejected ∧
        (∃ v ∈ treePath s a b, s.scores v < w))) := by
  have hI0 : TreeInv { s with links_processed := s.links_processed + 1,
                               max_seen_id := max (max s.max_seen_id a) b } := by
    refine ⟨hI.parent_zero, hI.score_zero, hI.parent_lt, hI.reach,
      hI.score_lb, ?_, hI.score_pos_of_parent, ?_, hI.sid_a, hI.sid_b⟩
    · intro v hv hs
      exact le_trans (hI.attached_seen v hv hs)
        (le_trans (le_max_left _ _) (le_max_left _ _))
    · intro u hup
      obtain ⟨h1, h2⟩ := hI.parent_seen u hup
      exact ⟨le_trans h1 (le_trans (le_max_left _ _) (le_max_left _ _)),
        le_trans h2 (le_trans (le_max_left _ _) (le_max_left _ _))⟩
  unfold add_link
  simp only [if_neg hab]
  rcases hfm : find_meeting_point
      { s with links_processed := s.links_processed + 1,
               max_seen_id := max (max s.max_seen_id a) b } a b
    with ⟨s1, r⟩
  obtain ⟨s1', heq, hpar, hsc, hrsc, hloc, hlen2, hlp, hladd, hlrej, hnum,
      hmsi, hsid, hva, hvb⟩ :=
    find_meeting_point_found
      { s with links_processed := s.links_processed + 1,
               max_seen_id := max (max s.max_seen_id a) b } hI0 ha hb
  rw [hfm] at heq
  cases r with
  | nomeet =>
    injection heq with h1 h2
    injection h2
  | fuelout =>
    injection heq with h1 h2
    injection h2
  | found mn pa pb =>
    injection heq with h1 h2
    injection h2 with hmn hpa hpb
    subst h1
    obtain ⟨ka, kb, i0, j0, sc0, hcha, hchb, hmeet, htwa, htwb⟩ :=
      scenario_and_meet
        { s with links_processed := s.links_processed + 1,
                 max_seen_id := max (max s.max_seen_id a) b } hI0 ha hb
    have hpar' : s1.parents = s.parents := hpar
    have hsc' : s1.scores = s.scores := hsc
    have hnum2 : s1.num_nodes = s.num_nodes := hnum
    have hmsi2 : s1.max_seen_id = max (max s.max_seen_id a) b := hmsi
    have hlp' : s1.links_processed = s.links_processed + 1 := hlp
    have hladd' : s1.links_added = s.links_added := hladd
    have hlrej' : s1.links_rejected = s.links_rejected := hlrej
    have hpa1 : pa = listChain s.parents a i0 := by
      rw [hpa]
      exact htwa
    have hpb1 : pb = listChain s.parents b j0 := by
      rw [hpb]
      exact htwb
    have sc' : MeetScenario s.parents s.num_nodes a b ka kb i0 j0 := sc0
    have htwa' : (chainList s a).takeWhile
        (fun v => decide (v ≠ meetNode s a b)) = listChain s.parents a i0 := htwa
    have htwb' : (chainList s b).takeWhile
        (fun v => decide (v ≠ meetNode s a b)) = listChain s.parents b j0 := htwb
    have htp : treePath s a b = pa ++ pb := by
      rw [hpa1, hpb1, treePath, htwa', htwb']
    have hI1 : TreeInv s1 := by
      refine ⟨?_, ?_, ?_, ?_, ?_, ?_, ?_, ?_, hva, hvb⟩
      · rw [hpar']
        exact hI.parent_zero
      · rw [hsc']
        exact hI.score_zero
      · intro v hv
        rw [hpar', hnum2]
        rw [hnum2] at hv
        exact hI.parent_lt v hv
      · intro v hv
        rw [hpar']
        rw [hnum2] at hv
        exact hI.reach v hv
      · intro v
        rw [hsc']
        exact hI.score_lb v
      · intro v hv hs
        rw [hnum2] at hv
        rw [hsc'] at hs
        rw [hmsi2]
        exact le_trans (hI.attached_seen v hv hs)
          (le_trans (le_max_left _ _) (le_max_left _ _))
      · intro u h1 h2
        rw [hsc']
        rw [hpar'] at h2
        exact hI.score_pos_of_parent u h1 h2
      · intro u h2
        rw [hpar'] at h2
        rw [hmsi2, hpar']
        obtain ⟨g1, g2⟩ := hI.parent_seen u h2
        exact ⟨le_trans g1 (le_trans (le_max_left _ _) (le_max_left _ _)),
          le_trans g2 (le_trans (le_max_left _ _) (le_max_left _ _))⟩
    have sc1 : MeetScenario s1.parents s1.num_nodes a b ka kb i0 j0 := by
      rw [hpar', hnum2]
      exact sc'
    have hpx1 : pa = listChain s1.parents a i0 := by
      rw [hpar']
      exact hpa1
    have hpb2 : pb = listChain s1.parents b j0 := by
      rw [hpar']
      exact hpb1
    rcases hw : find_weakest_link_in_cycle s1 pa pb w with ⟨ms, wp, pos⟩
    obtain ⟨hw1, hw2, hw3⟩ := find_weakest_spec s1 pa pb w
    rw [hw] at hw1 hw2 hw3
    by_cases hn : wp = 'n'
    · simp only [hw, if_pos hn]
      have h3c : ∀ v ∈ pa ++ pb, w ≤ s1.scores v := by
        rcases hw3 with ⟨h3a, h3b, h3c⟩ | ⟨h3a, h3⟩ | ⟨h3a, h3⟩
        · exact h3c
        · simp at h3a
          rw [h3a] at hn
          exact absurd hn (by decide)
        · simp at h3a
          rw [h3a] at hn
          exact absurd hn (by decide)
      refine ⟨?_, hnum2, hlp', ?_, ?_, Or.inl ⟨trivial, hladd', ?_, ?_⟩⟩
      · exact ⟨hI1.parent_zero, hI1.score_zero, hI1.parent_lt, hI1.reach,
          hI1.score_lb, hI1.attached_seen, hI1.score_pos_of_parent,
          hI1.parent_seen, hI1.sid_a, hI1.sid_b⟩
      · intro c p q h
        exact conn_congr hpar' hsc' hnum2 h
      · intro v hv
        have htp1 : treePath
            { s1 with links_rejected := s1.links_rejected + 1 } a b =
            treePath s a b := treePath_congr hpar' hnum2 a b
        rw [htp1, htp] at hv
        exact h3c v hv
      · show s1.links_rejected + 1 = s.links_rejected + 1
        rw [hlrej']
      · intro v hv
        rw [htp] at hv
        have h4 := h3c v hv
        rw [hsc'] at h4
        exact h4
    · by_cases hwa : wp = 'a'
      · simp only [hw, if_neg hn, if_pos hwa]
        have h3 : ∃ k2, k2 < pa.length ∧
            (ms, wp, pos) = (s1.scores (pa.getD k2 0), 'a', (k2 : Int)) ∧
            s1.scores (pa.getD k2 0) < w := by
          rcases hw3 with ⟨h3a, h3b, h3c⟩ | ⟨h3a, h3⟩ | ⟨h3a, h3⟩
          · simp at h3a
            exact absurd h3a hn
          · exact h3
          · simp at h3a
            rw [h3a] at hwa
            exact absurd hwa (by decide)
        obtain ⟨k2, hk2len, hfw_eq, hk2lt⟩ := h3
        injection hfw_eq with hms hrest
        injection hrest with hwp hpos
        subst hpos
        have htk : ((k2 : Int)).toNat = k2 := Int.toNat_natCast k2
        rw [htk]
        have hAS : set_link (reverse_path s1 pa k2) a b w rsc loc ln =
            acceptState s1 a b w rsc loc ln pa k2 := rfl
        rw [hAS]
        have hk2i0 : k2 < i0 := by
          rw [hpa1, listChain_length] at hk2len
          exact hk2len
        have hgd2 : pa.getD k2 0 = s1.parents^[k2] a := by
          rw [hpx1]
          exact listChain_getD hk2i0
        have hctx : AcceptCtx s1 a b w pa k2 ka kb i0 j0 := by
          refine ⟨hI1, sc1, hpx1, hk2i0, ?_, ?_, ?_, ?_⟩
          · rw [← hgd2]
            exact hk2lt
          · intro v hv
            rw [← hgd2]
            refine le_trans (le_of_eq hms.symm) (hw2 v ?_)
            rw [hpx1, hpb2]
            exact hv
          · rw [hmsi2]
            exact le_trans (le_max_right _ _) (le_max_left _ _)
          · rw [hmsi2]
            exact le_max_right _ _
        obtain ⟨hcpres, hcnew⟩ :=
          accept_conn s1 a b w rsc loc ln pa k2 ka kb i0 j0 hctx
        have hTI3 := accept_treeInv s1 a b w rsc loc ln pa k2 ka kb i0 j0 hctx
        obtain ⟨f1, f2, f3, f4, f5, f6, f7, f8, f9, f10⟩ :=
          accept_frames s1 a b w rsc loc ln pa k2
        refine ⟨?_, ?_, ?_, ?_, ?_, Or.inr ⟨trivial, ?_, ?_, ?_⟩⟩
        · exact ⟨hTI3.parent_zero, hTI3.score_zero, hTI3.parent_lt,
            hTI3.reach, hTI3.score_lb, hTI3.attached_seen,
            hTI3.score_pos_of_parent, hTI3.parent_seen, hTI3.sid_a,
            hTI3.sid_b⟩
        · exact f1.trans hnum2
        · exact f2.trans hlp'
        · intro c p q h
          have h1 := conn_congr hpar' hsc' hnum2 h
          have h2 := conn_of_edge_conn (fun u v huv => hcpres c u v huv) p q h1
          exact conn_congr rfl rfl rfl h2
        · intro v hv
          have htp3 : treePath
              { acceptState s1 a b w rsc loc ln pa k2 with
                links_added :=
                  (acceptState s1 a b w rsc loc ln pa k2).links_added + 1 }
              a b = treePath (acceptState s1 a b w rsc loc ln pa k2) a b :=
            treePath_congr rfl rfl a b
          rw [htp3] at hv
          exact conn_imp_treePath_ge (acceptState s1 a b w rsc loc ln pa k2)
            hTI3 (by rw [f1, hnum2]; exact ha) (by rw [f1, hnum2]; exact hb)
            hcnew v hv
        · show (acceptState s1 a b w rsc loc ln pa k2).links_added + 1 =
            s.links_added + 1
          rw [f3, hladd']
        · show (acceptState s1 a b w rsc loc ln pa k2).links_rejected =
            s.links_rejected
          rw [f4, hlrej']
        · refine ⟨pa.getD k2 0, ?_, ?_⟩
          · rw [htp]
            refine List.mem_append_left _ ?_
            rw [List.getD_eq_get _ _ hk2len]
            exact List.get_mem _ _ _
          · rw [hsc'] at hk2lt
            exact hk2lt
      · simp only [hw, if_neg hn, if_neg hwa]
        have h3 : ∃ k2, k2 < pb.length ∧
            (ms, wp, pos) = (s1.scores (pb.getD k2 0), 'b', (k2 : Int)) ∧
            s1.scores (pb.getD k2 0) < w := by
          rcases hw3 with ⟨h3a, h3b, h3c⟩ | ⟨h3a, h3⟩ | ⟨h3a, h3⟩
          · simp at h3a
            exact absurd h3a hn
          · simp at h3a
            exact absurd h3a hwa
          · exact h3
        obtain ⟨k2, hk2len, hfw_eq, hk2lt⟩ := h3
        injection hfw_eq with hms hrest
        injection hrest with hwp hpos
        subst hpos
        have htk : ((k2 : Int)).toNat = k2 := Int.toNat_natCast k2
        rw [htk]
        have hAS : set_link (reverse_path s1 pb k2) b a w rsc loc ln =
            acceptState s1 b a w rsc loc ln pb k2 := rfl
        rw [hAS]
        have hk2j0 : k2 < j0 := by
          rw [hpb1, listChain_length] at hk2len
          exact hk2len
        have hgd2 : pb.getD k2 0 = s1.parents^[k2] b := by
          rw [hpb2]
          exact listChain_getD hk2j0
        have hctx : AcceptCtx s1 b a w pb k2 kb ka j0 i0 := by
          refine ⟨hI1, sc1.symm, hpb2, hk2j0, ?_, ?_, ?_, ?_⟩
          · rw [← hgd2]
            exact hk2lt
          · intro v hv
            rw [← hgd2]
            refine le_trans (le_of_eq hms.symm) (hw2 v ?_)
            rw [hpx1, hpb2]
            rcases List.mem_append.mp hv with h4 | h4
            · exact List.mem_append_right _ h4
            · exact List.mem_append_left _ h4
          · rw [hmsi2]
            exact le_max_right _ _
          · rw [hmsi2]
            exact le_trans (le_max_right _ _) (le_max_left _ _)
        obtain ⟨hcpres, hcnew⟩ :=
          accept_conn s1 b a w rsc loc ln pb k2 kb ka j0 i0 hctx
        have hTI3 := accept_treeInv s1 b a w rsc loc ln pb k2 kb ka j0 i0 hctx
        obtain ⟨f1, f2, f3, f4, f5, f6, f7, f8, f9, f10⟩ :=
          accept_frames s1 b a w rsc loc ln pb k2
        refine ⟨?_, ?_, ?_, ?_, ?_, Or.inr ⟨trivial, ?_, ?_, ?_⟩⟩
        · exact ⟨hTI3.parent_zero, hTI3.score_zero, hTI3.parent_lt,
            hTI3.reach, hTI3.score_lb, hTI3.attached_seen,
            hTI3.score_pos_of_parent, hTI3.parent_seen, hTI3.sid_a,
            hTI3.sid_b⟩
        · exact f1.trans hnum2
        · exact f2.trans hlp'
        · intro c p q h
          have h1 := conn_congr hpar' hsc' hnum2 h
          have h2 := conn_of_edge_conn (fun u v huv => hcpres c u v huv) p q h1
          exact conn_congr rfl rfl rfl h2
        · intro v hv
          have htp3 : treePath
              { acceptState s1 b a w rsc loc ln pb k2 with
                links_added :=
                  (acceptState s1 b a w rsc loc ln pb k2).links_added + 1 }
              a b = treePath (acceptState s1 b a w rsc loc ln pb k2) a b :=
            treePath_congr rfl rfl a b
          rw [htp3] at hv
          exact conn_imp_treePath_ge (acceptState s1 b a w rsc loc ln pb k2)
            hTI3 (by rw [f1, hnum2]; exact ha) (by rw [f1, hnum2]; exact hb)
            (conn_symm hcnew) v hv
        · show (acceptState s1 b a w rsc loc ln pb k2).links_added + 1 =
            s.links_added + 1
          rw [f3, hladd']
        · show (acceptState s1 b a w rsc loc ln pb k2).links_rejected =
            s.links_rejected
          rw [f4, hlrej']
        · refine ⟨pb.getD k2 0, ?_, ?_⟩
          · rw [htp]
            refine List.mem_append_right _ ?_
            rw [List.getD_eq_get _ _ hk2len]
            exact List.get_mem _ _ _
          · rw [hsc'] at hk2lt
            exact hk2lt

/-! ### The whole-run invariant -/

theorem runLinks_snoc (n : Nat) (links : List Link) (l : Link) :
    runLinks n (links ++ [l]) =
      (add_link (runLinks n links) l.node_a l.node_b l.score l.raw_score
        l.location l.len).1 := by
  rw [runLinks, runLinks, List.foldl_append]
  rfl

theorem add_link_self_cases (s : MaxSpanningTree) (hI : TreeInv s) (a : Nat)
    (w rsc loc ln : Int) :
    TreeInv (add_link s a a w rsc loc ln).1 ∧
    (add_link s a a w rsc loc ln).1.num_nodes = s.num_nodes ∧
    (add_link s a a w rsc loc ln).1.links_processed =
      s.links_processed + 1 ∧
    (add_link s a a w rsc loc ln).1.links_added = s.links_added ∧
    (add_link s a a w rsc loc ln).1.links_rejected = s.links_rejected ∧
    (add_link s a a w rsc loc ln).1.parents = s.parents ∧
    (add_link s a a w rsc loc ln).1.scores = s.scores ∧
    (add_link s a a w rsc loc ln).2 = false := by
  unfold add_link
  rw [if_pos rfl]
  refine ⟨?_, rfl, rfl, rfl, rfl, rfl, rfl, rfl⟩
  refine ⟨hI.parent_zero, hI.score_zero, hI.parent_lt, hI.reach,
    hI.score_lb, ?_, hI.score_pos_of_parent, ?_, hI.sid_a, hI.sid_b⟩
  · intro v hv hs
    exact le_trans (hI.attached_seen v hv hs)
      (le_trans (le_max_left _ _) (le_max_left _ _))
  · intro u hup
    obtain ⟨h1, h2⟩ := hI.parent_seen u hup
    exact ⟨le_trans h1 (le_trans (le_max_left _ _) (le_max_left _ _)),
      le_trans h2 (le_trans (le_max_left _ _) (le_max_left _ _))⟩

theorem runLinks_master (n : Nat) (links : List Link)
    (hv : ∀ l ∈ links, ValidLink n l) :
    TreeInv (runLinks n links) ∧
    (runLinks n links).num_nodes = n ∧
    (runLinks n links).links_processed = (links.length : Int) ∧
    (runLinks n links).links_added + (runLinks n links).links_rejected +
      (selfLoopCount links : Int) = (links.length : Int) ∧
    0 ≤ (runLinks n links).links_added ∧
    0 ≤ (runLinks n links).links_rejected ∧
    MaxInv links (runLinks n links) := by
  induction links using List.reverseRecOn with
  | nil =>
    refine ⟨init_TreeInv n, rfl, rfl, ?_,
      le_of_eq rfl, le_of_eq rfl, ?_⟩
    · show (0 : Int) + 0 + (selfLoopCount [] : Int) = _
      simp [selfLoopCount]
    · intro l hl
      exact absurd hl (List.not_mem_nil l)
  | append_singleton ls l ih =>
    have hvl : ∀ l2 ∈ ls, ValidLink n l2 :=
      fun l2 h2 => hv l2 (List.mem_append_left _ h2)
    have hl : ValidLink n l :=
      hv l (List.mem_append_right _ (List.mem_singleton_self l))
    obtain ⟨hTI, hN, hLP, hCNT, hA0, hR0, hMI⟩ := ih hvl
    rw [runLinks_snoc]
    set s := runLinks n ls with hs
    by_cases hself : l.node_a = l.node_b
    · rw [← hself]
      obtain ⟨c1, c2, c3, c4, c5, c6, c7, c8⟩ :=
        add_link_self_cases s hTI l.node_a l.score l.raw_score l.location l.len
      have hslc : selfLoopCount (ls ++ [l]) = selfLoopCount ls + 1 := by
        simp [selfLoopCount, List.countP_append, hself]
      refine ⟨c1, c2.trans hN, ?_, ?_, ?_, ?_, ?_⟩
      · rw [c3, hLP]
        push_cast [List.length_append, List.length_singleton]
        ring
      · rw [c4, c5, hslc]
        push_cast [List.length_append, List.length_singleton]
        push_cast at hCNT
        omega
      · rw [c4]
        exact hA0
      · rw [c5]
        exact hR0
      · intro l2 hmem hval hne
        rw [c2] at hval
        rcases List.mem_append.mp hmem with h2 | h2
        · have htp2 : treePath
              (add_link s l.node_a l.node_a l.score l.raw_score l.location
                l.len).1 l2.node_a l2.node_b =
              treePath s l2.node_a l2.node_b := treePath_congr c6 c2 _ _
          intro v hvmem
          rw [htp2] at hvmem
          rw [c7]
          exact hMI l2 h2 hval hne v hvmem
        · rw [List.mem_singleton] at h2
          subst h2
          exact absurd hself hne
    · obtain ⟨d1, d2, d3, d4, d5, d6⟩ :=
        add_link_cases s hTI (by rw [hN]; exact hl.1) (by rw [hN]; exact hl.2)
          hself l.score l.raw_score l.location l.len
      have hslc : selfLoopCount (ls ++ [l]) = selfLoopCount ls := by
        simp [selfLoopCount, List.countP_append, hself]
      refine ⟨d1, d2.trans hN, ?_, ?_, ?_, ?_, ?_⟩
      · rw [d3, hLP]
        push_cast [List.length_append, List.length_singleton]
        ring
      · rcases d6 with ⟨e1, e2, e3, e4⟩ | ⟨e1, e2, e3, e4⟩
        · rw [e2, e3, hslc]
          push_cast [List.length_append, List.length_singleton]
          push_cast at hCNT
          omega
        · rw [e2, e3, hslc]
          push_cast [List.length_append, List.length_singleton]
          push_cast at hCNT
          omega
      · rcases d6 with ⟨e1, e2, e3, e4⟩ | ⟨e1, e2, e3, e4⟩ <;> rw [e2] <;> omega
      · rcases d6 with ⟨e1, e2, e3, e4⟩ | ⟨e1, e2, e3, e4⟩ <;> rw [e3] <;> omega
      · intro l2 hmem hval hne
        rw [d2] at hval
        rcases List.mem_append.mp hmem with h2 | h2
        · have hold := hMI l2 h2 hval hne
          have hconn := treePath_ge_imp_conn s hTI hval.1 hval.2 hold
          have hconn2 := d4 l2.score l2.node_a l2.node_b hconn
          exact conn_imp_treePath_ge _ d1 (by rw [d2]; exact hval.1)
            (by rw [d2]; exact hval.2) hconn2
        · rw [List.mem_singleton] at h2
          subst h2
          exact d5

/-! ### Twilight-list lemmas -/

theorem twilight_candidates_mem (s : MaxSpanningTree)
    (hAS : ∀ v, v < s.num_nodes → 0 ≤ s.scores v → v ≤ s.max_seen_id)
    (v : Nat) :
    v ∈ get_twilight_candidates s ↔
      (v < s.num_nodes ∧ 0 ≤ s.scores v ∧ s.scores v < 300) := by
  simp only [get_twilight_candidates, List.mem_filter, List.mem_range,
    decide_eq_true_eq]
  constructor
  · rintro ⟨h1, h2, h3⟩
    exact ⟨lt_of_lt_of_le h1 (min_le_right _ _), h2, h3⟩
  · rintro ⟨h1, h2, h3⟩
    refine ⟨lt_min ?_ h1, h2, h3⟩
    have h4 := hAS v h1 h2
    omega

/-! ### Claim theorems -/

/-- Claim C1: maximality invariant.  After any sequence of `add_link` calls
on a fresh builder of capacity `n`, every offered edge with distinct
in-range endpoints is dominated: every edge on the current tree path
between its endpoints has score at least the offered weight.  (This is
proved for every offered edge, in particular the connected ones named by
the claim; in this code every node is connected to the sentinel root 0.) -/
theorem C1_maximality (n : Nat) (links : List Link)
    (hv : ∀ l ∈ links, ValidLink n l) :
    MaxInv links (runLinks n links) :=
  (runLinks_master n links hv).2.2.2.2.2.2

/-- Witness for C1 at a concrete run: one accepted link on three nodes. -/
theorem C1_maximality_witness :
    (∀ l ∈ [Link.mk 1 2 5 5 0 0], ValidLink 3 l) ∧
    MaxInv [Link.mk 1 2 5 5 0 0] (runLinks 3 [Link.mk 1 2 5 5 0 0]) := by
  have hv : ∀ l ∈ [Link.mk 1 2 5 5 0 0], ValidLink 3 l := by
    intro l hl
    rw [List.mem_singleton] at hl
    subst hl
    exact ⟨by norm_num, by norm_num⟩
  exact ⟨hv, C1_maximality 3 _ hv⟩

/-- Claim C2: forest invariant.  After any sequence of in-range `add_link`
calls, every attached node (score at least 0) reaches node 0 or a self-root
by iterating `parents` at most `n` times (in this code it always reaches 0). -/
theorem C2_forest_invariant (n : Nat) (links : List Link)
    (hv : ∀ l ∈ links, ValidLink n l) :
    ∀ v, v < n → 0 ≤ (runLinks n links).scores v →
      ∃ k, k ≤ n ∧ ((runLinks n links).parents^[k] v = 0 ∨
        (runLinks n links).parents ((runLinks n links).parents^[k] v) =
          (runLinks n links).parents^[k] v) := by
  obtain ⟨hTI, hN, _⟩ := runLinks_master n links hv
  intro v hvn hs
  have hre : ∃ k, (runLinks n links).parents^[k] v = 0 :=
    hTI.reach v (by rw [hN]; exact hvn)
  have hm0 := Nat.find_spec hre
  have hmin : ∀ i, i < Nat.find hre → (runLinks n links).parents^[i] v ≠ 0 :=
    fun i hi => Nat.find_min hre hi
  have hb := hit_le_pred hTI.parent_lt (by rw [hN]; exact hvn) hm0 hmin
  rw [hN] at hb
  exact ⟨Nat.find hre, by omega, Or.inl hm0⟩

/-- Witness for C2: node 1 is attached after one accepted link and its
parent chain reaches 0 within 3 steps. -/
theorem C2_forest_invariant_witness :
    (∀ l ∈ [Link.mk 1 2 5 5 0 0], ValidLink 3 l) ∧ (1 : Nat) < 3 ∧
    0 ≤ (runLinks 3 [Link.mk 1 2 5 5 0 0]).scores 1 ∧
    ∃ k, k ≤ 3 ∧ ((runLinks 3 [Link.mk 1 2 5 5 0 0]).parents^[k] 1 = 0 ∨
      (runLinks 3 [Link.mk 1 2 5 5 0 0]).parents
        ((runLinks 3 [Link.mk 1 2 5 5 0 0]).parents^[k] 1) =
        (runLinks 3 [Link.mk 1 2 5 5 0 0]).parents^[k] 1) := by
  have hv : ∀ l ∈ [Link.mk 1 2 5 5 0 0], ValidLink 3 l := by
    intro l hl
    rw [List.mem_singleton] at hl
    subst hl
    exact ⟨by norm_num, by norm_num⟩
  have hsc : (0 : Int) ≤ (runLinks 3 [Link.mk 1 2 5 5 0 0]).scores 1 := by
    decide
  exact ⟨hv, by norm_num, hsc,
    C2_forest_invariant 3 _ hv 1 (by norm_num) hsc⟩

/-- Claim C4: rejection condition.  For a call with distinct in-range ids
on a reachable state, `add_link` returns false and bumps `links_rejected`
exactly when no edge on the two root-ward paths between the endpoints (the
tree path up to the meeting node) has score strictly below the new score:
the new edge loses ties. -/
theorem C4_rejection_condition (s : MaxSpanningTree) (hI : TreeInv s)
    {a b : Nat} (ha : a < s.num_nodes) (hb : b < s.num_nodes) (hab : a ≠ b)
    (w rsc loc ln : Int) :
    (((add_link s a b w rsc loc ln).2 = false ∧
      (add_link s a b w rsc loc ln).1.links_rejected =
        s.links_rejected + 1) ↔
    (∀ v ∈ treePath s a b, ¬(s.scores v < w))) := by
  obtain ⟨_, _, _, _, _, hd⟩ := add_link_cases s hI ha hb hab w rsc loc ln
  rcases hd with ⟨e1, e2, e3, e4⟩ | ⟨e1, e2, e3, e4⟩
  · constructor
    · intro _ v hv
      exact not_lt.mpr (e4 v hv)
    · intro _
      exact ⟨e1, e3⟩
  · constructor
    · intro h
      have h2 := h.1
      rw [e1] at h2
      exact absurd h2 (by simp)
    · intro hno
      obtain ⟨v, hv, hlt⟩ := e4
      exact absurd hlt (hno v hv)

/-- Witness for C4: on a fresh 3-node builder the call (1,2,5) is accepted
(the tree path consists of detached nodes with score -1 < 5), so both
sides of the equivalence are false. -/
theorem C4_rejection_condition_witness :
    (((add_link (MaxSpanningTree.init 3) 1 2 5 0 0 0).2 = false ∧
      (add_link (MaxSpanningTree.init 3) 1 2 5 0 0 0).1.links_rejected =
        (MaxSpanningTree.init 3).links_rejected + 1) ↔
    (∀ v ∈ treePath (MaxSpanningTree.init 3) 1 2,
      ¬((MaxSpanningTree.init 3).scores v < 5))) :=
  C4_rejection_condition (MaxSpanningTree.init 3) (init_TreeInv 3)
    (by decide) (by decide) (by decide) 5 0 0 0

/-- Claim C5: counter law.  After any in-range run,
`links_added + links_rejected + self_loops = links_processed = #calls`,
the counters are non-negative, every further call bumps `links_processed`
by one, and every further call with distinct endpoints bumps exactly one
of `links_added` / `links_rejected` (the no-meeting branch never fires). -/
theorem C5_counter_law (n : Nat) (links : List Link)
    (hv : ∀ l ∈ links, ValidLink n l) :
    (runLinks n links).links_added + (runLinks n links).links_rejected +
      (selfLoopCount links : Int) = (runLinks n links).links_processed ∧
    (runLinks n links).links_processed = (links.length : Int) ∧
    0 ≤ (runLinks n links).links_added ∧
    0 ≤ (runLinks n links).links_rejected ∧
    (∀ l, ValidLink n l →
      (runLinks n (links ++ [l])).links_processed =
        (runLinks n links).links_processed + 1) ∧
    (∀ l, ValidLink n l → l.node_a ≠ l.node_b →
      ((runLinks n (links ++ [l])).links_added =
          (runLinks n links).links_added + 1 ∧
        (runLinks n (links ++ [l])).links_rejected =
          (runLinks n links).links_rejected) ∨
      ((runLinks n (links ++ [l])).links_added =
          (runLinks n links).links_added ∧
        (runLinks n (links ++ [l])).links_rejected =
          (runLinks n links).links_rejected + 1)) := by
  obtain ⟨hTI, hN, hLP, hCNT, hA0, hR0, hMI⟩ := runLinks_master n links hv
  refine ⟨?_, hLP, hA0, hR0, ?_, ?_⟩
  · rw [hLP]
    exact hCNT
  · intro l hl
    rw [runLinks_snoc]
    by_cases hself : l.node_a = l.node_b
    · rw [← hself]
      exact (add_link_self_cases _ hTI l.node_a l.score l.raw_score
        l.location l.len).2.2.1
    · exact (add_link_cases _ hTI (by rw [hN]; exact hl.1)
        (by rw [hN]; exact hl.2) hself l.score l.raw_score l.location
        l.len).2.2.1
  · intro l hl hne
    rw [runLinks_snoc]
    obtain ⟨_, _, _, _, _, hd⟩ := add_link_cases _ hTI
      (by rw [hN]; exact hl.1) (by rw [hN]; exact hl.2) hne l.score
      l.raw_score l.location l.len
    rcases hd with ⟨e1, e2, e3, e4⟩ | ⟨e1, e2, e3, e4⟩
    · exact Or.inr ⟨e2, e3⟩
    · exact Or.inl ⟨e2, e3⟩

/-- Witness for C5 on a run consisting of one self-loop record. -/
theorem C5_counter_law_witness :
    (∀ l ∈ [Link.mk 1 1 3 3 0 0], ValidLink 2 l) ∧
    ((runLinks 2 [Link.mk 1 1 3 3 0 0]).links_added +
      (runLinks 2 [Link.mk 1 1 3 3 0 0]).links_rejected +
      (selfLoopCount [Link.mk 1 1 3 3 0 0] : Int) =
      (runLinks 2 [Link.mk 1 1 3 3 0 0]).links_processed ∧
    (runLinks 2 [Link.mk 1 1 3 3 0 0]).links_processed =
      (([Link.mk 1 1 3 3 0 0] : List Link).length : Int) ∧
    0 ≤ (runLinks 2 [Link.mk 1 1 3 3 0 0]).links_added ∧
    0 ≤ (runLinks 2 [Link.mk 1 1 3 3 0 0]).links_rejected ∧
    (∀ l, ValidLink 2 l →
      (runLinks 2 ([Link.mk 1 1 3 3 0 0] ++ [l])).links_processed =
        (runLinks 2 [Link.mk 1 1 3 3 0 0]).links_processed + 1) ∧
    (∀ l, ValidLink 2 l → l.node_a ≠ l.node_b →
      ((runLinks 2 ([Link.mk 1 1 3 3 0 0] ++ [l])).links_added =
          (runLinks 2 [Link.mk 1 1 3 3 0 0]).links_added + 1 ∧
        (runLinks 2 ([Link.mk 1 1 3 3 0 0] ++ [l])).links_rejected =
          (runLinks 2 [Link.mk 1 1 3 3 0 0]).links_rejected) ∨
      ((runLinks 2 ([Link.mk 1 1 3 3 0 0] ++ [l])).links_added =
          (runLinks 2 [Link.mk 1 1 3 3 0 0]).links_added ∧
        (runLinks 2 ([Link.mk 1 1 3 3 0 0] ++ [l])).links_rejected =
          (runLinks 2 [Link.mk 1 1 3 3 0 0]).links_rejected + 1))) := by
  have hv : ∀ l ∈ [Link.mk 1 1 3 3 0 0], ValidLink 2 l := by
    intro l hl
    rw [List.mem_singleton] at hl
    subst hl
    exact ⟨by norm_num, by norm_num⟩
  exact ⟨hv, C5_counter_law 2 _ hv⟩

/-- Claim C6 (corrected): twilight contract.  Membership (exactly the
in-range nodes with score in [0, 300)), weakly-descending score order and
distinctness all hold for every possible `std::sort` output; but the claimed
tie order (equal scores in ascending id order) is NOT guaranteed, because
`std::sort` is not stable -- see the counterexample theorem. -/
theorem C6_twilight_amended (n : Nat) (links : List Link)
    (hv : ∀ l ∈ links, ValidLink n l) (out : List Nat)
    (hout : get_twilight_nodes_spec (runLinks n links) out) :
    (∀ v, v ∈ out ↔ (v < n ∧ 0 ≤ (runLinks n links).scores v ∧
      (runLinks n links).scores v < 300)) ∧
    out.Pairwise (fun p q => (runLinks n links).scores q ≤
      (runLinks n links).scores p) ∧
    out.Nodup := by
  obtain ⟨hTI, hN, _⟩ := runLinks_master n links hv
  obtain ⟨hperm, hpair⟩ := hout
  refine ⟨?_, hpair, ?_⟩
  · intro v
    rw [hperm.mem_iff]
    rw [twilight_candidates_mem _ hTI.attached_seen v, hN]
  · exact hperm.nodup_iff.mpr
      (List.Nodup.filter _ (List.nodup_range _))

/-- Witness for the corrected C6: a concrete run with two twilight nodes
and a valid sort output. -/
theorem C6_twilight_amended_witness :
    (∀ l ∈ [Link.mk 1 2 5 5 0 0, Link.mk 2 3 5 5 0 0], ValidLink 4 l) ∧
    get_twilight_nodes_spec
      (runLinks 4 [Link.mk 1 2 5 5 0 0, Link.mk 2 3 5 5 0 0]) [2, 1] ∧
    ((∀ v, v ∈ [2, 1] ↔ (v < 4 ∧
      0 ≤ (runLinks 4 [Link.mk 1 2 5 5 0 0, Link.mk 2 3 5 5 0 0]).scores v ∧
      (runLinks 4 [Link.mk 1 2 5 5 0 0, Link.mk 2 3 5 5 0 0]).scores v <
        300)) ∧
    List.Pairwise (fun p q =>
      (runLinks 4 [Link.mk 1 2 5 5 0 0, Link.mk 2 3 5 5 0 0]).scores q ≤
      (runLinks 4 [Link.mk 1 2 5 5 0 0, Link.mk 2 3 5 5 0 0]).scores p)
      [2, 1] ∧
    List.Nodup [2, 1]) := by
  have hv : ∀ l ∈ [Link.mk 1 2 5 5 0 0, Link.mk 2 3 5 5 0 0],
      ValidLink 4 l := by
    intro l hl
    rcases List.mem_cons.mp hl with h | h
    · subst h
      exact ⟨by norm_num, by norm_num⟩
    · rw [List.mem_singleton] at h
      subst h
      exact ⟨by norm_num, by norm_num⟩
  have hout : get_twilight_nodes_spec
      (runLinks 4 [Link.mk 1 2 5 5 0 0, Link.mk 2 3 5 5 0 0]) [2, 1] :=
    ⟨by decide, by decide⟩
  exact ⟨hv, hout, C6_twilight_amended 4 _ hv [2, 1] hout⟩

/-- Counterexample to the stability part of claim C6: the output [2, 1] is
a legal `std::sort` result (a permutation of the scan [1, 2], scores weakly
descending), but nodes 1 and 2 have equal score 5 and appear in descending
id order, violating the claimed stable tie order. -/
theorem C6_twilight_stability_counterexample :
    get_twilight_nodes_spec
      (runLinks 4 [Link.mk 1 2 5 5 0 0, Link.mk 2 3 5 5 0 0]) [2, 1] ∧
    ¬ twilightStableOrder
      (runLinks 4 [Link.mk 1 2 5 5 0 0, Link.mk 2 3 5 5 0 0]).scores
      [2, 1] := by
  constructor
  · exact ⟨by decide, by decide⟩
  · unfold twilightStableOrder
    decide

/-- Claim C10: sentinel root preservation.  After any in-range run, node 0
keeps its initial attributes (`parents[0] = 0`, `scores[0] = -1`), and no
other node in range is a self-root, so `find_root`'s `parents[i] == i`
scan can only select node 0. -/
theorem C10_sentinel_root (n : Nat) (links : List Link)
    (hv : ∀ l ∈ links, ValidLink n l) :
    (runLinks n links).parents 0 = 0 ∧
    (runLinks n links).scores 0 = -1 ∧
    ∀ v, 1 ≤ v → v < n → (runLinks n links).parents v ≠ v := by
  obtain ⟨hTI, hN, _⟩ := runLinks_master n links hv
  refine ⟨hTI.parent_zero, hTI.score_zero, ?_⟩
  intro v h1 h2 hfix
  obtain ⟨m, hm⟩ := hTI.reach v (by rw [hN]; exact h2)
  rw [iter_fixed hfix m] at hm
  omega

/-- Witness for C10 after one accepted link. -/
theorem C10_sentinel_root_witness :
    (∀ l ∈ [Link.mk 1 2 5 5 0 0], ValidLink 3 l) ∧
    ((runLinks 3 [Link.mk 1 2 5 5 0 0]).parents 0 = 0 ∧
    (runLinks 3 [Link.mk 1 2 5 5 0 0]).scores 0 = -1 ∧
    ∀ v, 1 ≤ v → v < 3 → (runLinks 3 [Link.mk 1 2 5 5 0 0]).parents v ≠ v) := by
  have hv : ∀ l ∈ [Link.mk 1 2 5 5 0 0], ValidLink 3 l := by
    intro l hl
    rw [List.mem_singleton] at hl
    subst hl
    exact ⟨by norm_num, by norm_num⟩
  exact ⟨hv, C10_sentinel_root 3 _ hv⟩
